import Mathlib

/-!
Verification of the connect-four solver.

The Rust sources are shallowly embedded: `u64` bitboards become `Nat` with
explicit `% 2 ^ 64` where wrapping matters, `i8` scores become `Int`
(Rust `/` on `i8` truncates toward zero, which is `Int.tdiv`), fallible
lookups become `Option`, and the mutable transposition table is passed as
explicit state.  Recursion in the solver is embedded with an explicit fuel
parameter so that all definitions compute by kernel reduction.

`NonLoosingMoves`, `heuristic` and the contents of the embedded opening
book `scores.dat` are declared in the crate but their definitions are not
part of the provided sources; they are modelled from the specification and
marked as such in their doc comments.
-/

namespace CFS

set_option maxRecDepth 20000

/-! ## Bitboard layer (src/bitboard.rs) -/

/-- Source 64-bit wrapping left shift, as Rust `u64 <<`. -/
def shl64 (x k : Nat) : Nat := (x <<< k) % 2 ^ 64

/-- Source `cell(row, column)`: a mask with a single bit at `7 * column + row`. -/
def cell (row column : Nat) : Nat := 1 <<< (7 * column + row)

/-- Source `FULL`: one `0b0111111` group for each of eight 7-bit column groups
(bits `7*c + 6` stay clear).  Decimal form of the source's binary literal. -/
def FULL : Nat := 35745105703854015

/-- Source `AllStones::BOTTOM`: one stone at the bottom of each of the seven columns. -/
def BOTTOM : Nat := 4432676798593

/-- Source `PlayerStones::is_empty` / `AllStones::is_empty`. -/
def isEmptyAt (b row column : Nat) : Bool := cell row column &&& b == 0

/-- Source `PlayerStones::is_win`: four-in-a-row detection by shift-and pairs,
in the source's order: `\` diagonal (6), horizontal (7), `/` diagonal (8),
vertical (1). -/
def isWin (b : Nat) : Bool :=
  let y6 := b &&& (b >>> 6)
  let y7 := b &&& (b >>> 7)
  let y8 := b &&& (b >>> 8)
  let y1 := b &&& (b >>> 1)
  (y6 &&& (y6 >>> 12) != 0) || (y7 &&& (y7 >>> 14) != 0) ||
  (y8 &&& (y8 >>> 16) != 0) || (y1 &&& (y1 >>> 2) != 0)

/-- Source `PlayerStones::flip`. -/
def flipMask (m mask : Nat) : Nat := m ^^^ mask

/-- Source `PlayerStones::key`. -/
def keyOf (m mask : Nat) : Nat := (m + mask) % 2 ^ 64

/-- Source `PlayerStones::winning_positions`: empty squares on which a stone of the
mask's player would complete four-in-a-row.  Left shifts wrap at 64 bits as
in Rust. -/
def winningPositions (p : Nat) : Nat :=
  let vertical := shl64 p 1 &&& shl64 p 2 &&& shl64 p 3
  let addLeftRightGaps := fun (s : Nat) =>
    let twoToTheLeft := shl64 p s &&& shl64 p (2 * s)
    let w1 := twoToTheLeft &&& shl64 p (3 * s)
    let w2 := twoToTheLeft &&& (p >>> s)
    let twoToTheRight := (p >>> s) &&& (p >>> (2 * s))
    let w3 := twoToTheRight &&& shl64 p s
    let w4 := twoToTheRight &&& (p >>> (3 * s))
    w1 ||| w2 ||| w3 ||| w4
  (vertical ||| addLeftRightGaps 7 ||| addLeftRightGaps 8 ||| addLeftRightGaps 6) &&& FULL

/-- Source `AllStones::is_full`. -/
def isFullCol (both column : Nat) : Bool := !(isEmptyAt both 5 column)

/-- Source `AllStones::insert`: `self.0 |= self.0 + cell(0, column)` with wrapping add. -/
def insertStone (both column : Nat) : Nat := both ||| ((both + cell 0 column) % 2 ^ 64)

/-- Source `u64::count_ones` for values below `2 ^ 64`. -/
def popcount (n : Nat) : Nat := ((List.range 64).filter (fun i => n.testBit i)).length

/-- Source `AllStones::possible`: landing square of each non-full column. -/
def possible (both : Nat) : Nat := ((both + BOTTOM) % 2 ^ 64) &&& FULL

/-! ## Position (src/lib.rs) -/

/-- Source `ConnectFour`: `last` is the bitboard of the player who inserted the last
stone, `both` the occupancy of both players. -/
structure Game where
  last : Nat
  both : Nat
deriving DecidableEq, Repr

/-- Source `ConnectFour::new`. -/
def Game.new : Game := { last := 0, both := 0 }

/-- Source `ConnectFour::play`, as the pair (returned Bool, state after the call). -/
def Game.play (g : Game) (column : Nat) : Bool × Game :=
  if isFullCol g.both column then (false, g)
  else
    let both1 := insertStone g.both column
    (true, { last := flipMask g.last both1, both := both1 })

/-- The updated state of `ConnectFour::play`. -/
def Game.playPos (g : Game) (column : Nat) : Game := (g.play column).2

/-- The Bool returned by `ConnectFour::play`. -/
def Game.playBool (g : Game) (column : Nat) : Bool := (g.play column).1

/-- Source `ConnectFour::is_legal_move`. -/
def Game.isLegalMove (g : Game) (column : Nat) : Bool := !(isFullCol g.both column)

/-- Source `ConnectFour::legal_moves` (columns as 0-indexed `Nat`). -/
def Game.legalMoves (g : Game) : List Nat :=
  (List.range 7).filter (fun c => g.isLegalMove c)

/-- Source `ConnectFour::stones`. -/
def Game.stones (g : Game) : Nat := popcount g.both

/-- Source `ConnectFour::is_victory`. -/
def Game.isVictory (g : Game) : Bool := isWin g.last

/-- Source `ConnectFour::encode`. -/
def Game.encode (g : Game) : Nat := keyOf g.last g.both

/-- Stones of the side to move (`current` in `can_win_in_next_move`). -/
def Game.me (g : Game) : Nat := flipMask g.last g.both

/-- Source `ConnectFour::can_win_in_next_move`. -/
def Game.canWinInNextMove (g : Game) : Bool :=
  possible g.both &&& winningPositions g.me != 0

/-- Source `ConnectFour::is_over`. -/
def Game.isOver (g : Game) : Bool := g.stones == 42 || g.isVictory

/-- Source `ConnectFour::from_move_list`, on 0-indexed columns; illegal moves are
played with `play`'s graceful-failure semantics (the source panics instead,
so on sequences of legal moves the two agree). -/
def Game.playList (g : Game) (moves : List Nat) : Game :=
  moves.foldl Game.playPos g

/-- Bits of the mask `a` with the bits of `b` removed. -/
def eraseBits (a b : Nat) : Nat := a ^^^ (a &&& b)

/-- All seven bits of one column. -/
def columnMask (c : Nat) : Nat := 127 <<< (7 * c)

/-- Modelled from the spec: `non_losing_moves(M, O)` of §4.1, whose
implementation (`bitboard::NonLoosingMoves`) is not among the provided
sources.  Landing squares for the side to move that do not hand the
opponent an immediate win: if the opponent has two or more landing-square
threats the result is empty; a single landing-square threat is forced,
and loses anyway if the square directly above it is also a threat;
otherwise every landing directly below an opponent threat is discarded. -/
def nonLoosingMovesMask (g : Game) : Nat :=
  let landings := possible g.both
  let threats := winningPositions g.last
  let forced := threats &&& landings
  if 2 ≤ popcount forced then 0
  else if popcount forced = 1 then
    if (forced <<< 1) &&& threats != 0 then 0 else forced
  else eraseBits landings (threats >>> 1)

/-- Modelled from the spec: membership of a column in the non-losing-move
mask (`NonLoosingMoves::contains`, not among the provided sources): the
mask has a bit in that column. -/
def nlmContains (mask c : Nat) : Bool := mask &&& columnMask c != 0

/-- Source `ConnectFour::non_loosing_moves` as the list of 0-indexed columns. -/
def Game.nonLoosingMoves (g : Game) : List Nat :=
  (List.range 7).filter (fun c => nlmContains (nonLoosingMovesMask g) c)

/-- Modelled from the spec: `heuristic(M, O)` (`bitboard::heuristic`, not
among the provided sources): "count of squares in `winning_positions(me)`
after the move, biased toward center columns".  The bias is modelled as the
number of the last mover's stones in the center column. -/
def Game.heuristic (g : Game) : Nat :=
  popcount (winningPositions g.last) + popcount (g.last &&& columnMask 3)

/-! ## Transposition table (src/transposition_table.rs) -/

/-- Source `Entry::MASK_BOARD`: the lower 56 bits. -/
def ENTRY_MASK_BOARD : Nat := 2 ^ 56 - 1

/-- Source `Entry::new`: little-endian bytes of `position` with byte 7 replaced by
the two's-complement byte of `score`. -/
def entryNew (position : Nat) (score : Int) : Nat :=
  position % 2 ^ 56 + 2 ^ 56 * (score % 256).toNat

/-- Source `Entry::board`: bytes 0..6, i.e. the value modulo `2 ^ 56`. -/
def entryBoard (e : Nat) : Nat := e % 2 ^ 56

/-- Source `Entry::score`: byte 7 read back as a signed 8-bit integer. -/
def entryScore (e : Nat) : Int :=
  let b : Nat := e / 2 ^ 56 % 256
  if b < 128 then (b : Int) else (b : Int) - 256

/-- Source `Entry::EMPTY`. -/
def ENTRY_EMPTY : Nat := entryNew ENTRY_MASK_BOARD 0

/-- Source `TranspositionTable`: `capacity` entries; `data i` is the entry at
index `i` (the abstraction of the backing `Vec<Entry>`). -/
structure Table where
  capacity : Nat
  data : Nat → Nat

/-- Source `TranspositionTable::new`. -/
def Table.new (capacity : Nat) : Table :=
  { capacity := capacity, data := fun _ => ENTRY_EMPTY }

/-- Source `TranspositionTable::index`. -/
def Table.index (t : Table) (board : Nat) : Nat := board % t.capacity

/-- Source `TranspositionTable::put`. -/
def Table.put (t : Table) (board : Nat) (score : Int) : Table :=
  { t with data := fun i => if i = t.index board then entryNew board score else t.data i }

/-- Source `TranspositionTable::get`. -/
def Table.get (t : Table) (board : Nat) : Option Int :=
  let e := t.data (t.index board)
  if entryBoard e = board then some (entryScore e) else none

/-! ## Solver (src/solver.rs) -/

/-- Source `score_from_num_stones`; Rust `i8` division truncates toward zero. -/
def scoreFromNumStones (numStones : Int) : Int :=
  let remainingStones : Int := Int.tdiv (42 - numStones) 2;
  -(remainingStones + 1)

/-- Source `COLUMN_PRIORITY` from `MoveExplorer::sort`; smaller values are
explored first. -/
def COLUMN_PRIORITY : List Nat := [6, 4, 2, 0, 1, 3, 5]

/-- One slot of `MoveExplorer::col_indices`: column, heuristic, position. -/
structure ExpEntry where
  col : Nat
  hscore : Nat
  pos : Game
deriving DecidableEq, Repr

/-- Source `MoveExplorer::add` for one column. -/
def expEntryOf (g : Game) (c : Nat) : ExpEntry :=
  let nextPosition := g.playPos c
  { col := c, hscore := nextPosition.heuristic, pos := nextPosition }

/-- The exploration order of `MoveExplorer::sort`: higher heuristic first,
ties broken by smaller `COLUMN_PRIORITY` value. -/
def expRel (a b : ExpEntry) : Prop :=
  b.hscore < a.hscore ∨
    (a.hscore = b.hscore ∧ COLUMN_PRIORITY.getD a.col 0 ≤ COLUMN_PRIORITY.getD b.col 0)

instance : DecidableRel expRel := fun a b => by
  unfold expRel; infer_instance

/-- Source `MoveExplorer::sort`.  The source's `sort_unstable_by` returns a sorted
permutation of the input; on entry lists with pairwise distinct columns the
comparator is antisymmetric, so that permutation is unique and equals the
insertion sort of the same relation. -/
def sortExplorer (l : List ExpEntry) : List ExpEntry := List.insertionSort expRel l

/-- The explorer entries built by the column loop of `alpha_beta`. -/
def explorerEntries (g : Game) : List ExpEntry :=
  ((List.range 7).filter (fun c => nlmContains (nonLoosingMovesMask g) c)).map (expEntryOf g)

/-- Source `MoveExplorer::next_positions` of the sorted explorer of `alpha_beta`. -/
def nextPositions (g : Game) : List Game :=
  (sortExplorer (explorerEntries g)).map ExpEntry.pos

/-- The child loop of `alpha_beta`: fold over the sorted child positions,
carrying (beta-cutoff result, alpha, table).  `rec` is the recursive call
at the smaller fuel. -/
def abChildren (rec : Game → Int → Int → Table → Int × Table) (beta : Int) :
    List Game → Int → Table → Option Int × Int × Table
  | [], alpha, tt => (none, alpha, tt)
  | q :: rest, alpha, tt =>
    let r := rec q (-beta) (-alpha) tt
    let s := -r.1
    if beta ≤ s then (some s, alpha, r.2)
    else abChildren rec beta rest (max alpha s) r.2

/-- Source `alpha_beta`, with explicit fuel (the recursion adds one stone per
level, so any fuel of at least `43 - stones` behaves like the source). -/
def alphaBeta : Nat → Game → Int → Int → Table → Int × Table
  | 0, _, _, _, tt => (0, tt)
  | fuel + 1, g, alpha, beta, tt =>
    if nonLoosingMovesMask g = 0 then
      (scoreFromNumStones ((g.stones : Int) + 2), tt)
    else if 42 - 2 ≤ g.stones then (0, tt)
    else
      let alpha1 := max alpha (scoreFromNumStones ((g.stones : Int) + 4))
      if beta ≤ alpha1 then (alpha1, tt)
      else
        let upperBoundBeta := (tt.get g.encode).getD (-(scoreFromNumStones ((g.stones : Int) + 3)))
        let beta1 := min beta upperBoundBeta
        if beta1 ≤ alpha1 then (beta1, tt)
        else
          let step := abChildren (alphaBeta fuel) beta1 (nextPositions g) alpha1 tt
          match step.1 with
          | some s => (s, step.2.2)
          | none => (step.2.1, (step.2.2.put g.encode step.2.1))

/-- The `while min < max` loop of `Solver::score_without_precalculated`,
with explicit fuel (the window has width at most 43 and shrinks by at
least one per probe). -/
def deepenLoop : Nat → Game → Int → Int → Table → Int × Table
  | 0, _, mn, _, tt => (mn, tt)
  | fuel + 1, g, mn, mx, tt =>
    if mn < mx then
      let median := mn + Int.tdiv (mx - mn) 2
      let alpha :=
        if median ≤ 0 ∧ Int.tdiv mn 2 < median then Int.tdiv mn 2
        else if 0 ≤ median ∧ median < Int.tdiv mx 2 then Int.tdiv mx 2
        else median
      let r := alphaBeta 64 g alpha (alpha + 1) tt
      if r.1 ≤ alpha then deepenLoop fuel g mn r.1 r.2
      else deepenLoop fuel g r.1 mx r.2
    else (mn, tt)

/-- Source `Solver::score_without_precalculated`. -/
def scoreWithoutPrecalculated (g : Game) (tt : Table) : Int × Table :=
  if g.isVictory then (scoreFromNumStones (g.stones : Int), tt)
  else if g.canWinInNextMove then (-(scoreFromNumStones ((g.stones : Int) + 1)), tt)
  else
    let mn := Int.tdiv (-(42 - (g.stones : Int))) 2
    let mx := Int.tdiv (42 + 1 - (g.stones : Int)) 2
    deepenLoop 64 g mn mx tt

/-- Source `NUM_STONES_PRECALCULATED_UP_TO` (src/precalculated.rs). -/
def NUM_STONES_PRECALCULATED_UP_TO : Nat := 5

/-- Modelled from the spec: `precalculated_score` looks up the embedded
`scores.dat`, which is not among the provided sources; per §4.4 and §8.9
the book holds, for every position with fewer than 5 stones, "the same
value as a fresh full solve of that position".  We model the lookup by that
specified value: the result of `score_without_precalculated` on a fresh
solver-sized table. -/
def precalculatedScore (g : Game) : Option Int :=
  if NUM_STONES_PRECALCULATED_UP_TO ≤ g.stones then none
  else some (scoreWithoutPrecalculated g (Table.new 16777213)).1

/-- Source `Solver::score` on an explicit table state. -/
def solverScore (g : Game) (tt : Table) : Int × Table :=
  match precalculatedScore g with
  | some s => (s, tt)
  | none => scoreWithoutPrecalculated g tt

/-- The free function `score`: a fresh `Solver` (capacity 16777213) per call. -/
def score (g : Game) : Int := (solverScore g (Table.new 16777213)).1

/-- The fold of `Solver::best_moves` over one legal column. -/
def bestMovesStep (acc : Int × List Nat × Table) (g : Game) (column : Nat) :
    Int × List Nat × Table :=
  let r := solverScore (g.playPos column) acc.2.2
  if r.1 < acc.1 then (r.1, [column], r.2)
  else if r.1 = acc.1 then (acc.1, acc.2.1 ++ [column], r.2)
  else (acc.1, acc.2.1, r.2)

/-- Source `Solver::best_moves` (with `best_moves` beginning empty): the columns
appended and the final table. -/
def bestMoves (g : Game) (tt : Table) : List Nat × Table :=
  if g.isOver then ([], tt)
  else
    let r := g.legalMoves.foldl (fun acc c => bestMovesStep acc g c) ((127 : Int), [], tt)
    (r.2.1, r.2.2)

/-! ## Reference semantics: the game-theoretic score

The spec defines the score in terms of perfect play (§3 "Score", §4.5):
from the side to move's perspective, a win in the winner's `v`-th-to-last
stone scores `v`, a loss `−v`, a draw `0`.  Equivalently it is the negamax
value below, the reference against which the solver is verified. -/

/-- Minimum of a list of scores, used over the (nonempty) children lists. -/
def listMin : Int → List Int → Int := List.foldl min

/-- The true (perfect-play) score: `scoreFromNumStones` at a decided
position, `0` at a full board, otherwise the negated minimum of the
children's scores.  `fuel ≥ 42 - stones` suffices. -/
def trueScore : Nat → Game → Int
  | 0, _ => 0
  | fuel + 1, g =>
    if g.isVictory then scoreFromNumStones (g.stones : Int)
    else if 42 ≤ g.stones then 0
    else
      match g.legalMoves.map (fun c => trueScore fuel (g.playPos c)) with
      | [] => 0
      | v :: vs => -(listMin v vs)

/-! ## Structural invariants of positions -/

/-- The 7 bits of column `c` of a mask. -/
def colBits (b c : Nat) : Nat := b >>> (7 * c) % 128

/-- Height of column `c` (for stack-shaped columns, the stone count). -/
def colHeight (b c : Nat) : Nat := Nat.log2 (colBits b c + 1)

/-- The true score at its canonical fuel: `43 - stones` levels always
suffice (one per remaining stone, plus the terminal check). -/
def tScore (g : Game) : Int := trueScore (43 - g.stones) g

/-- Occupancy invariant: 49 bits, every column a contiguous stack of at
most six stones grown from the bottom. -/
def ValidBoth (b : Nat) : Prop :=
  b < 2 ^ 49 ∧ ∀ c < 7, ∃ h ≤ 6, colBits b c = 2 ^ h - 1

/-- Position invariant: valid occupancy and `last ⊆ both`. -/
def Valid (g : Game) : Prop :=
  ValidBoth g.both ∧ g.last &&& g.both = g.last

/-- A live position: valid, and neither player has completed
four-in-a-row yet (true of every position of a play that stops at a won
game; `play` itself never checks this, see C10). -/
def Live (g : Game) : Prop :=
  Valid g ∧ isWin g.last = false ∧ isWin g.me = false

/-- The bit index where a stone played in column `c` lands (for a valid,
non-full column: the lowest clear bit of the column). -/
def landingBit (g : Game) (c : Nat) : Nat := 7 * c + colHeight g.both c

instance : DecidablePred ValidBoth := fun b => by
  unfold ValidBoth; infer_instance

instance : DecidablePred Valid := fun g => by
  unfold Valid; infer_instance

instance : DecidablePred Live := fun g => by
  unfold Live; infer_instance

/-- Soundness invariant of the transposition table: every hit is an upper
bound on the true score of the (unique) valid position with that key, for
the keys `alpha_beta` can query: live positions whose side to move cannot
win at once. -/
def TableInv (t : Table) : Prop :=
  ∀ k v, t.get k = some v →
    ∀ g : Game, Live g → g.canWinInNextMove = false → g.encode = k →
      tScore g ≤ v

/-- Four aligned bits, `s` apart, all set: a four-in-a-row window. -/
def winWindow (b i s : Nat) : Prop :=
  b.testBit i = true ∧ b.testBit (i + s) = true ∧
    b.testBit (i + 2 * s) = true ∧ b.testBit (i + 3 * s) = true

/-- The vertical pattern of `winning_positions`: three own stones directly
below the square. -/
def vertPattern (p x : Nat) : Prop :=
  3 ≤ x ∧ p.testBit (x - 1) = true ∧ p.testBit (x - 2) = true ∧
    p.testBit (x - 3) = true

/-- The four directional patterns of `winning_positions` for shift `s`:
three own stones completing a window through the square. -/
def wpPattern (p x s : Nat) : Prop :=
  (3 * s ≤ x ∧ p.testBit (x - s) = true ∧ p.testBit (x - 2 * s) = true ∧
      p.testBit (x - 3 * s) = true) ∨
  (2 * s ≤ x ∧ p.testBit (x - s) = true ∧ p.testBit (x - 2 * s) = true ∧
      p.testBit (s + x) = true) ∨
  (s ≤ x ∧ p.testBit (s + x) = true ∧ p.testBit (2 * s + x) = true ∧
      p.testBit (x - s) = true) ∨
  (p.testBit (s + x) = true ∧ p.testBit (2 * s + x) = true ∧
      p.testBit (3 * s + x) = true)

/-- Position reached from the empty board by the move list "123242"
(columns 0-indexed). -/
def g5 : Game := Game.playList Game.new [0, 1, 2, 1, 3, 1]

/-- Position reached from the empty board by the move list "5655663642443"
(columns 0-indexed): a victory of player one from the integration tests. -/
def g10 : Game := Game.playList Game.new [4, 5, 4, 4, 5, 5, 2, 5, 3, 1, 3, 3, 2]

/-- Position reached from the empty board by the 15-move list "253733227554644"
of the integration tests (columns 0-indexed): the side to move can win at once. -/
def gCW : Game := Game.playList Game.new [1, 4, 2, 6, 2, 2, 1, 1, 6, 4, 4, 3, 5, 3, 3]

/-- Reachable 40-stone position in which the side to move already has a
completed four-in-a-row while the last mover has none, and no move wins at
once for the side to move. -/
def gX : Game := Game.playList Game.new
  [5, 3, 4, 1, 3, 0, 0, 5, 4, 1, 3, 6, 4, 1, 0, 5, 6, 4, 0, 6, 0, 3, 1, 6, 5,
    0, 4, 6, 1, 4, 3, 3, 2, 2, 2, 1, 5, 2, 5, 2]

/-- Negation of the minimum of `score` over the legal children (the negamax
right-hand side of the spec; `0` when no move is legal). -/
def negaOfChildren (g : Game) : Int :=
  match g.legalMoves.map (fun c => score (g.playPos c)) with
  | [] => 0
  | v :: vs => -(listMin v vs)

/-- Seven explorer entries with equal heuristic score, one per column: an
all-tie input for the move-ordering sort. -/
def tieEntries : List ExpEntry :=
  (List.range 7).map (fun c => { col := c, hscore := 0, pos := Game.new })

/-! ## Bit-level toolkit -/

theorem ne_zero_of_testBit {m i : Nat} (h : m.testBit i = true) : m ≠ 0 := by
  rintro rfl; rw [Nat.zero_testBit] at h; exact Bool.noConfusion h

theorem testBit_shl64 (x k i : Nat) :
    (shl64 x k).testBit i = (decide (i < 64) && decide (k ≤ i) && x.testBit (i - k)) := by
  simp only [shl64, Nat.testBit_mod_two_pow, Nat.testBit_shiftLeft, ge_iff_le, Bool.and_assoc]

theorem testBit_FULL (i : Nat) : FULL.testBit i = (decide (i < 56) && decide (i % 7 ≠ 6)) := by
  by_cases h : i < 56
  · have H : ∀ j < 56, FULL.testBit j = decide (j % 7 ≠ 6) := by decide
    rw [H i h, decide_eq_true h, Bool.true_and]
  · have h64 : FULL < 2 ^ i :=
      lt_of_lt_of_le (by norm_num [FULL]) (Nat.pow_le_pow_right (by norm_num) (le_of_not_lt h))
    rw [Nat.testBit_lt_two_pow h64, decide_eq_false h, Bool.false_and]

theorem testBit_BOTTOM (i : Nat) :
    BOTTOM.testBit i = (decide (i < 49) && decide (i % 7 = 0)) := by
  by_cases h : i < 49
  · have H : ∀ j < 49, BOTTOM.testBit j = decide (j % 7 = 0) := by decide
    rw [H i h, decide_eq_true h, Bool.true_and]
  · have h64 : BOTTOM < 2 ^ i :=
      lt_of_lt_of_le (by norm_num [BOTTOM]) (Nat.pow_le_pow_right (by norm_num) (le_of_not_lt h))
    rw [Nat.testBit_lt_two_pow h64, decide_eq_false h, Bool.false_and]

theorem testBit_cell (r c i : Nat) : (cell r c).testBit i = decide (i = 7 * c + r) := by
  have : cell r c = 2 ^ (7 * c + r) := by
    simp [cell, Nat.shiftLeft_eq]
  rw [this, Nat.testBit_two_pow]
  by_cases h : i = 7 * c + r
  · simp [h]
  · simp only [h, decide_False]
    rw [decide_eq_false (by omega)]

theorem testBit_columnMask (c i : Nat) :
    (columnMask c).testBit i = (decide (7 * c ≤ i) && decide (i - 7 * c < 7)) := by
  simp only [columnMask, Nat.testBit_shiftLeft, ge_iff_le]
  by_cases h : 7 * c ≤ i
  · rw [decide_eq_true h, Bool.true_and, Bool.true_and]
    show ((2 ^ 7 - 1 : Nat)).testBit (i - 7 * c) = _
    rw [Nat.testBit_two_pow_sub_one]
  · rw [decide_eq_false h, Bool.false_and, Bool.false_and]

theorem and_two_pow_eq_zero_iff (b k : Nat) : (2 ^ k &&& b = 0) ↔ b.testBit k = false := by
  constructor
  · intro h
    by_contra hb
    have hb' : b.testBit k = true := by
      cases hbe : b.testBit k
      · exact absurd hbe hb
      · rfl
    have : (2 ^ k &&& b).testBit k = true := by
      simp [Nat.testBit_and, hb', Nat.testBit_two_pow]
    exact ne_zero_of_testBit this h
  · intro h
    apply Nat.eq_of_testBit_eq
    intro i
    simp only [Nat.testBit_and, Nat.testBit_two_pow, Nat.zero_testBit]
    by_cases hik : k = i
    · subst hik; simp [h]
    · simp [hik]

/-! ### Column decomposition -/

theorem colBits_lt (b c : Nat) : colBits b c < 128 := Nat.mod_lt _ (by norm_num)

theorem testBit_colBits (b c r : Nat) :
    (colBits b c).testBit r = (decide (r < 7) && b.testBit (7 * c + r)) := by
  show ((b >>> (7 * c)) % 2 ^ 7).testBit r = _
  simp only [Nat.testBit_mod_two_pow, Nat.testBit_shiftRight]

theorem colBits_zero_def (b : Nat) : colBits b 0 = b % 128 := by
  simp [colBits]

theorem colBits_succ (b c : Nat) : colBits b (c + 1) = colBits (b / 128) c := by
  have : 7 * (c + 1) = 7 + 7 * c := by ring
  simp only [colBits, this, Nat.shiftRight_add]
  norm_num [Nat.shiftRight_eq_div_pow]

theorem colBits_eq_zero_of_lt {b c : Nat} (h : b < 2 ^ (7 * c)) : colBits b c = 0 := by
  simp [colBits, Nat.shiftRight_eq_div_pow, Nat.div_eq_of_lt h]

theorem eq_of_colBits {x y : Nat} (hx : x < 2 ^ 49) (hy : y < 2 ^ 49)
    (h : ∀ c < 7, colBits x c = colBits y c) : x = y := by
  apply Nat.eq_of_testBit_eq
  intro i
  by_cases hi : i < 49
  · have hc : i / 7 < 7 := by omega
    have hr : i % 7 < 7 := by omega
    have hi7 : 7 * (i / 7) + i % 7 = i := by omega
    calc x.testBit i = (colBits x (i / 7)).testBit (i % 7) := by
          rw [testBit_colBits, hi7]; simp [hr]
      _ = (colBits y (i / 7)).testBit (i % 7) := by rw [h _ hc]
      _ = y.testBit i := by rw [testBit_colBits, hi7]; simp [hr]
  · have hx2 : x < 2 ^ i :=
      lt_of_lt_of_le hx (Nat.pow_le_pow_right (by norm_num) (by omega))
    have hy2 : y < 2 ^ i :=
      lt_of_lt_of_le hy (Nat.pow_le_pow_right (by norm_num) (by omega))
    rw [Nat.testBit_lt_two_pow hx2, Nat.testBit_lt_two_pow hy2]

theorem colBits_and (x y c : Nat) : colBits (x &&& y) c = colBits x c &&& colBits y c := by
  apply Nat.eq_of_testBit_eq
  intro r
  simp only [testBit_colBits, Nat.testBit_and]
  cases decide (r < 7) <;> simp

theorem colBits_or (x y c : Nat) : colBits (x ||| y) c = colBits x c ||| colBits y c := by
  apply Nat.eq_of_testBit_eq
  intro r
  simp only [testBit_colBits, Nat.testBit_or]
  cases decide (r < 7) <;> simp

theorem colBits_add {x y : Nat} (H : ∀ c, colBits x c + colBits y c < 128) (c : Nat) :
    colBits (x + y) c = colBits x c + colBits y c := by
  induction c generalizing x y with
  | zero =>
    have h0 := H 0
    simp only [colBits_zero_def] at h0 ⊢
    omega
  | succ c ih =>
    have h0 := H 0
    simp only [colBits_zero_def] at h0
    have hdiv : (x + y) / 128 = x / 128 + y / 128 := by omega
    rw [colBits_succ, colBits_succ, colBits_succ, hdiv]
    exact ih (fun c2 => by rw [← colBits_succ, ← colBits_succ]; exact H (c2 + 1))

/-! ### Heights and the occupancy invariant -/

theorem ValidBoth.height_le {b : Nat} (h : ValidBoth b) {c : Nat} (hc : c < 7) :
    colHeight b c ≤ 6 ∧ colBits b c = 2 ^ colHeight b c - 1 := by
  obtain ⟨-, hcols⟩ := h
  obtain ⟨k, hk, he⟩ := hcols c hc
  have h2 : (1 : Nat) ≤ 2 ^ k := Nat.one_le_two_pow
  have h1 : colBits b c + 1 = 2 ^ k := by omega
  have hh : colHeight b c = k := by
    rw [colHeight, h1, Nat.log2_two_pow]
  rw [hh]
  exact ⟨hk, he⟩

theorem testBit_of_valid {b : Nat} (h : ValidBoth b) {c : Nat} (hc : c < 7) {r : Nat}
    (hr : r < 7) : b.testBit (7 * c + r) = decide (r < colHeight b c) := by
  have hcb := (h.height_le hc).2
  have h1 : b.testBit (7 * c + r) = (colBits b c).testBit r := by
    rw [testBit_colBits, decide_eq_true hr, Bool.true_and]
  rw [h1, hcb, Nat.testBit_two_pow_sub_one]

theorem isFullCol_eq_of_valid {b : Nat} (h : ValidBoth b) {c : Nat} (hc : c < 7) :
    isFullCol b c = decide (colHeight b c = 6) := by
  have hle := (h.height_le hc).1
  have h5 : b.testBit (7 * c + 5) = decide (5 < colHeight b c) :=
    testBit_of_valid h hc (by norm_num)
  have hcell : cell 5 c = 2 ^ (7 * c + 5) := by simp [cell, Nat.shiftLeft_eq]
  have key : isFullCol b c = b.testBit (7 * c + 5) := by
    unfold isFullCol isEmptyAt
    rw [hcell]
    cases hb : b.testBit (7 * c + 5)
    · rw [(and_two_pow_eq_zero_iff _ _).2 hb]
      simp
    · have hne : 2 ^ (7 * c + 5) &&& b ≠ 0 := by
        intro h0
        rw [(and_two_pow_eq_zero_iff _ _).1 h0] at hb
        exact Bool.noConfusion hb
      simp [hne]
  rw [key, h5, decide_eq_decide]
  omega

/-- The seven-column playfield: six playable bits per column. -/
theorem testBit_playfield (i : Nat) :
    (63 * BOTTOM).testBit i = (decide (i < 49) && decide (i % 7 ≠ 6)) := by
  by_cases h : i < 49
  · have H : ∀ j < 49, (63 * BOTTOM).testBit j = decide (j % 7 ≠ 6) := by decide
    rw [H i h, decide_eq_true h, Bool.true_and]
  · have h64 : 63 * BOTTOM < 2 ^ i :=
      lt_of_lt_of_le (by norm_num [BOTTOM]) (Nat.pow_le_pow_right (by norm_num) (le_of_not_lt h))
    rw [Nat.testBit_lt_two_pow h64, decide_eq_false h, Bool.false_and]

theorem ValidBoth.and_playfield {b : Nat} (h : ValidBoth b) : b &&& (63 * BOTTOM) = b := by
  apply Nat.eq_of_testBit_eq
  intro i
  rw [Nat.testBit_and, testBit_playfield]
  by_cases hi : i < 49
  · by_cases hr : i % 7 = 6
    · have hb : b.testBit i = false := by
        have hc : i / 7 < 7 := by omega
        have hi7 : 7 * (i / 7) + i % 7 = i := by omega
        have := testBit_of_valid h hc (r := i % 7) (by omega)
        rw [hi7] at this
        rw [this, hr, decide_eq_false]
        have := (h.height_le hc).1
        omega
      simp [hb, hr]
    · simp [hi, hr]
  · have : b.testBit i = false :=
      Nat.testBit_lt_two_pow
        (lt_of_lt_of_le h.1 (Nat.pow_le_pow_right (by norm_num) (by omega)))
    simp [this]

theorem ValidBoth.le_playfield {b : Nat} (h : ValidBoth b) : b ≤ 63 * BOTTOM := by
  calc b = b &&& (63 * BOTTOM) := h.and_playfield.symm
    _ ≤ 63 * BOTTOM := Nat.and_le_right

theorem colBits_two_pow (k c2 : Nat) :
    colBits (2 ^ k) c2 =
      if 7 * c2 ≤ k ∧ k - 7 * c2 < 7 then 2 ^ (k - 7 * c2) else 0 := by
  unfold colBits
  rw [Nat.shiftRight_eq_div_pow]
  by_cases h1 : 7 * c2 ≤ k
  · have hdiv : 2 ^ k / 2 ^ (7 * c2) = 2 ^ (k - 7 * c2) := by
      rw [Nat.pow_div h1 (by norm_num)]
    rw [hdiv]
    by_cases h2 : k - 7 * c2 < 7
    · rw [if_pos ⟨h1, h2⟩]
      exact Nat.mod_eq_of_lt (by
        calc 2 ^ (k - 7 * c2) < 2 ^ 7 := Nat.pow_lt_pow_right (by norm_num) h2
          _ = 128 := by norm_num)
    · rw [if_neg (by tauto)]
      have : (128 : Nat) ∣ 2 ^ (k - 7 * c2) := by
        have h7 : (128 : Nat) = 2 ^ 7 := by norm_num
        rw [h7]
        exact Nat.pow_dvd_pow 2 (by omega)
      omega
  · rw [if_neg (by tauto), Nat.div_eq_of_lt, Nat.zero_mod]
    exact Nat.pow_lt_pow_right (by norm_num) (by omega)

theorem colBits_bottom (c : Nat) : colBits BOTTOM c = if c < 7 then 1 else 0 := by
  by_cases h : c < 7
  · rw [if_pos h]
    have H : ∀ c2 < 7, colBits BOTTOM c2 = 1 := by decide
    exact H c h
  · rw [if_neg h]
    apply colBits_eq_zero_of_lt
    calc BOTTOM < 2 ^ 49 := by norm_num [BOTTOM]
      _ ≤ 2 ^ (7 * c) := Nat.pow_le_pow_right (by norm_num) (by omega)

theorem colBits_valid_bound {b : Nat} (h : ValidBoth b) (c : Nat) : colBits b c ≤ 63 := by
  by_cases hc : c < 7
  · have h1 := (h.height_le hc).1
    have h2 := (h.height_le hc).2
    have : 2 ^ colHeight b c ≤ 2 ^ 6 := Nat.pow_le_pow_right (by norm_num) h1
    omega
  · have : colBits b c = 0 := colBits_eq_zero_of_lt
      (lt_of_lt_of_le h.1 (Nat.pow_le_pow_right (by norm_num) (by omega)))
    omega

theorem colBits_add_bottom {b : Nat} (h : ValidBoth b) (c : Nat) :
    colBits (b + BOTTOM) c = colBits b c + colBits BOTTOM c := by
  refine colBits_add (fun c2 => ?_) c
  have h1 := colBits_valid_bound h c2
  have h2 := colBits_bottom c2
  by_cases hc : c2 < 7 <;> simp [hc] at h2 <;> omega

theorem testBit_possible_iff {b : Nat} (hV : ValidBoth b) (i : Nat) :
    (possible b).testBit i = true ↔
      ∃ c, c < 7 ∧ colHeight b c < 6 ∧ i = 7 * c + colHeight b c := by
  have hb49 : b < 2 ^ 49 := hV.1
  have hmod : (b + BOTTOM) % 2 ^ 64 = b + BOTTOM := by
    apply Nat.mod_eq_of_lt
    have : BOTTOM < 2 ^ 49 := by norm_num [BOTTOM]
    calc b + BOTTOM < 2 ^ 49 + 2 ^ 49 := by omega
      _ ≤ 2 ^ 64 := by norm_num
  unfold possible
  rw [hmod, Nat.testBit_and, testBit_FULL]
  constructor
  · intro hand
    rw [Bool.and_eq_true, Bool.and_eq_true] at hand
    obtain ⟨hsum, h1, h2⟩ := hand
    have h56 : i < 56 := of_decide_eq_true h1
    have hr7 : i % 7 ≠ 6 := of_decide_eq_true h2
    set c := i / 7 with hcdef
    have hi7 : 7 * c + i % 7 = i := by omega
    have hc8 : c < 8 := by omega
    have htb : (colBits (b + BOTTOM) c).testBit (i % 7) = true := by
      rw [testBit_colBits, hi7, decide_eq_true (by omega : i % 7 < 7), Bool.true_and]
      exact hsum
    by_cases hc : c < 7
    · have hcol : colBits (b + BOTTOM) c = 2 ^ colHeight b c := by
        rw [colBits_add_bottom hV, (hV.height_le hc).2, colBits_bottom, if_pos hc]
        have : (1 : Nat) ≤ 2 ^ colHeight b c := Nat.one_le_two_pow
        omega
      rw [hcol, Nat.testBit_two_pow] at htb
      have hh : colHeight b c = i % 7 := of_decide_eq_true htb
      refine ⟨c, hc, by omega, by omega⟩
    · exfalso
      have hc7 : c = 7 := by omega
      have hcol : colBits (b + BOTTOM) c = 0 := by
        rw [colBits_add_bottom hV, colBits_bottom, if_neg (by omega)]
        have : colBits b c = 0 := colBits_eq_zero_of_lt
          (lt_of_lt_of_le hb49 (Nat.pow_le_pow_right (by norm_num) (by omega)))
        omega
      rw [hcol, Nat.zero_testBit] at htb
      exact Bool.noConfusion htb
  · rintro ⟨c, hc, hh, rfl⟩
    have hle6 := (hV.height_le hc).1
    have hcol : colBits (b + BOTTOM) c = 2 ^ colHeight b c := by
      rw [colBits_add_bottom hV, (hV.height_le hc).2, colBits_bottom, if_pos hc]
      have : (1 : Nat) ≤ 2 ^ colHeight b c := Nat.one_le_two_pow
      omega
    have hsum : (b + BOTTOM).testBit (7 * c + colHeight b c) = true := by
      have ht := testBit_colBits (b + BOTTOM) c (colHeight b c)
      rw [hcol, Nat.testBit_two_pow] at ht
      rw [decide_eq_true rfl, decide_eq_true (show colHeight b c < 7 by omega),
        Bool.true_and] at ht
      exact ht.symm
    rw [hsum, Bool.true_and, Bool.and_eq_true]
    constructor
    · apply decide_eq_true
      omega
    · apply decide_eq_true
      omega

/-! ### Popcount -/

theorem popcount_eq_countP (n : Nat) :
    popcount n = (List.range 64).countP (fun i => n.testBit i) := by
  rw [popcount, List.countP_eq_length_filter]

theorem popcount_eq_zero {m : Nat} (hm : m < 2 ^ 64) : popcount m = 0 ↔ m = 0 := by
  rw [popcount_eq_countP, List.countP_eq_zero]
  constructor
  · intro h
    apply Nat.eq_of_testBit_eq
    intro i
    rw [Nat.zero_testBit]
    by_cases hi : i < 64
    · have hh := h i (List.mem_range.2 hi)
      simp only [Bool.not_eq_true] at hh
      exact hh
    · exact Nat.testBit_lt_two_pow
        (lt_of_lt_of_le hm (Nat.pow_le_pow_right (by norm_num) (by omega)))
  · rintro rfl i -
    simp

theorem popcount_one_exists {m : Nat} (h : popcount m = 1) :
    ∃ x, x < 64 ∧ m.testBit x = true ∧ ∀ y < 64, m.testBit y = true → y = x := by
  rw [popcount] at h
  obtain ⟨a, ha⟩ := List.length_eq_one.1 h
  have hmem : a ∈ List.filter (fun i => m.testBit i) (List.range 64) := by
    rw [ha]; exact List.mem_singleton_self a
  rw [List.mem_filter, List.mem_range] at hmem
  refine ⟨a, hmem.1, hmem.2, fun y hy hty => ?_⟩
  have : y ∈ List.filter (fun i => m.testBit i) (List.range 64) := by
    rw [List.mem_filter, List.mem_range]; exact ⟨hy, hty⟩
  rw [ha, List.mem_singleton] at this
  exact this

theorem popcount_two_exists {m : Nat} (h : 2 ≤ popcount m) :
    ∃ x y, x ≠ y ∧ m.testBit x = true ∧ m.testBit y = true := by
  rw [popcount] at h
  have hnd : (List.filter (fun i => m.testBit i) (List.range 64)).Nodup :=
    (List.nodup_range 64).filter _
  rcases hl : List.filter (fun i => m.testBit i) (List.range 64) with _ | ⟨a, t⟩
  · rw [hl] at h; simp at h
  rcases ht : t with _ | ⟨b, rest⟩
  · rw [hl, ht] at h; simp at h
  have hamem : a ∈ List.filter (fun i => m.testBit i) (List.range 64) := by
    rw [hl]; exact List.mem_cons_self a t
  have hbmem : b ∈ List.filter (fun i => m.testBit i) (List.range 64) := by
    rw [hl, ht]; exact List.mem_cons_of_mem _ (List.mem_cons_self b rest)
  have hab : a ≠ b := by
    rw [hl, ht] at hnd
    intro he
    subst he
    exact (List.nodup_cons.1 hnd).1 (List.mem_cons_self a rest)
  rw [List.mem_filter] at hamem hbmem
  exact ⟨a, b, hab, hamem.2, hbmem.2⟩

theorem countP_or_single {l : List Nat} (hnd : l.Nodup) {j : Nat} (hj : j ∈ l)
    (q : Nat → Bool) (hq : q j = false) :
    l.countP (fun i => q i || decide (j = i)) = l.countP q + 1 := by
  induction l with
  | nil => cases hj
  | cons a t ih =>
    rw [List.countP_cons, List.countP_cons]
    rcases List.mem_cons.1 hj with rfl | hjt
    · have hqa : (q j || decide (j = j)) = true := by simp
      have ht2 : t.countP (fun i => q i || decide (j = i)) = t.countP q := by
        apply List.countP_congr
        intro x hx
        have hne : j ≠ x := by
          rintro rfl
          exact (List.nodup_cons.1 hnd).1 hx
        simp [hne]
      rw [ht2, hqa, hq]
      simp
    · have hne : j ≠ a := by
        rintro rfl
        exact (List.nodup_cons.1 hnd).1 hjt
      rw [ih (List.nodup_cons.1 hnd).2 hjt]
      simp [hne]
      ring

theorem popcount_or_fresh {m j : Nat} (hj : j < 64) (h : m.testBit j = false) :
    popcount (m ||| 2 ^ j) = popcount m + 1 := by
  rw [popcount_eq_countP, popcount_eq_countP]
  have he : ∀ i, (m ||| 2 ^ j).testBit i = (m.testBit i || decide (j = i)) := by
    intro i
    rw [Nat.testBit_or, Nat.testBit_two_pow]
  calc (List.range 64).countP (fun i => (m ||| 2 ^ j).testBit i)
      = (List.range 64).countP (fun i => m.testBit i || decide (j = i)) := by
        apply List.countP_congr
        intro x _hx
        rw [he x]
    _ = (List.range 64).countP (fun i => m.testBit i) + 1 :=
        countP_or_single (List.nodup_range 64) (List.mem_range.2 hj) _ h

theorem popcount_le_of_subset {a m : Nat} (h : a &&& m = a) : popcount a ≤ popcount m := by
  rw [popcount_eq_countP, popcount_eq_countP]
  apply List.countP_mono_left
  intro x _ hx
  have : (a &&& m).testBit x = true := by rw [h]; exact hx
  rw [Nat.testBit_and, Bool.and_eq_true] at this
  exact this.2

/-! ### Disjoint add is or -/

theorem add_two_pow_of_testBit_false {m j : Nat} (h : m.testBit j = false) :
    m + 2 ^ j = m ||| 2 ^ j := by
  have hsplit : m = 2 ^ j * (m / 2 ^ j) + m % 2 ^ j :=
    (Nat.div_add_mod m (2 ^ j)).symm
  have heven : m / 2 ^ j % 2 = 0 := by
    have := Nat.testBit_to_div_mod (i := j) (x := m)
    rw [h] at this
    have h2 : ¬(m / 2 ^ j % 2 = 1) := by
      intro hc
      rw [eq_comm, decide_eq_false_iff_not] at this
      exact this hc
    omega
  apply Nat.eq_of_testBit_eq
  intro i
  rw [Nat.testBit_or, Nat.testBit_two_pow]
  have hmlt : m % 2 ^ j < 2 ^ j := Nat.mod_lt _ (Nat.pos_pow_of_pos j (by norm_num))
  have hadd : m + 2 ^ j = 2 ^ j * (m / 2 ^ j + 1) + m % 2 ^ j := by
    have hd : 2 ^ j * (m / 2 ^ j + 1) = 2 ^ j * (m / 2 ^ j) + 2 ^ j := by ring
    omega
  rw [hadd, Nat.testBit_mul_pow_two_add _ hmlt]
  by_cases hij : i < j
  · rw [if_pos hij]
    have : m.testBit i = (m % 2 ^ j).testBit i := by
      rw [Nat.testBit_mod_two_pow, decide_eq_true hij, Bool.true_and]
    rw [this, decide_eq_false (by omega)]
    simp
  · rw [if_neg hij]
    have hmi : m.testBit i = (m / 2 ^ j).testBit (i - j) := by
      conv_lhs => rw [hsplit]
      rw [Nat.testBit_mul_pow_two_add _ hmlt, if_neg hij]
    rcases he : i - j with - | k
    · have hji : j = i := by omega
      have : (m / 2 ^ j + 1).testBit 0 = true := by
        rw [Nat.testBit_zero]
        apply decide_eq_true
        omega
      rw [this, decide_eq_true hji]
      simp
    · have hji : ¬(j = i) := by omega
      have hdiv : (m / 2 ^ j + 1) / 2 = m / 2 ^ j / 2 := by omega
      rw [Nat.testBit_succ, hdiv, ← Nat.testBit_succ]
      have hsk : Nat.succ k = i - j := by omega
      rw [hsk, ← hmi, decide_eq_false hji]
      simp

/-! ### Inserting a stone -/

theorem colBits_cell0 (c c2 : Nat) :
    colBits (cell 0 c) c2 = if c2 = c then 1 else 0 := by
  have h1 : cell 0 c = 2 ^ (7 * c) := by simp [cell, Nat.shiftLeft_eq]
  rw [h1, colBits_two_pow]
  by_cases h : c2 = c
  · subst h
    rw [if_pos ⟨le_refl _, by omega⟩, Nat.sub_self, pow_zero, if_pos rfl]
  · rw [if_neg h, if_neg]
    rintro ⟨ha, hb⟩
    exact h (by omega)

theorem colBits_two_pow_col {c r : Nat} (c2 : Nat) (hr : r < 7) :
    colBits (2 ^ (7 * c + r)) c2 = if c2 = c then 2 ^ r else 0 := by
  rw [colBits_two_pow]
  by_cases h : c2 = c
  · subst h
    rw [if_pos ⟨by omega, by omega⟩, if_pos rfl]
    congr 1
    omega
  · rw [if_neg h, if_neg]
    rintro ⟨ha, hb⟩
    exact h (by omega)

theorem testBit_eq_true_of_and_eq {a b i : Nat} (h : a &&& b = a)
    (hi : a.testBit i = true) : b.testBit i = true := by
  have : (a &&& b).testBit i = true := by rw [h]; exact hi
  rw [Nat.testBit_and, Bool.and_eq_true] at this
  exact this.2

theorem colBits_add_landing {b c : Nat} (hV : ValidBoth b) (hc : c < 7)
    (hh : colHeight b c < 6) (c2 : Nat) :
    colBits (b + 2 ^ (7 * c + colHeight b c)) c2
      = colBits b c2 + (if c2 = c then 2 ^ colHeight b c else 0) := by
  have hpow6 : (2 : Nat) ^ colHeight b c ≤ 2 ^ 5 :=
    Nat.pow_le_pow_right (by norm_num) (by omega)
  rw [← colBits_two_pow_col c2 (show colHeight b c < 7 by omega)]
  refine colBits_add (fun c3 => ?_) c2
  have hb3 := colBits_valid_bound hV c3
  rw [colBits_two_pow_col _ (show colHeight b c < 7 by omega)]
  by_cases h3 : c3 = c
  · subst h3
    rw [if_pos rfl]
    omega
  · rw [if_neg h3]
    omega

theorem insertStone_eq {b c : Nat} (hV : ValidBoth b) (hc : c < 7)
    (hh : colHeight b c < 6) :
    insertStone b c = b + 2 ^ (7 * c + colHeight b c) := by
  have hPF := hV.le_playfield
  have hcolc := (hV.height_le hc).2
  have hcell : cell 0 c = 2 ^ (7 * c) := by simp [cell, Nat.shiftLeft_eq]
  have hc42 : (2 : Nat) ^ (7 * c) ≤ 2 ^ 42 := Nat.pow_le_pow_right (by norm_num) (by omega)
  have hch47 : (2 : Nat) ^ (7 * c + colHeight b c) ≤ 2 ^ 47 :=
    Nat.pow_le_pow_right (by norm_num) (by omega)
  have hBn : (63 : Nat) * BOTTOM + 2 ^ 47 < 2 ^ 49 := by norm_num [BOTTOM]
  have hsum_lt : b + cell 0 c < 2 ^ 49 := by
    rw [hcell]
    have h42 : (2 : Nat) ^ 42 ≤ 2 ^ 47 := by norm_num
    omega
  have hmod : (b + cell 0 c) % 2 ^ 64 = b + cell 0 c := by
    apply Nat.mod_eq_of_lt
    have : (2 : Nat) ^ 49 ≤ 2 ^ 64 := by norm_num
    omega
  have hadd1 : ∀ c2, colBits (b + cell 0 c) c2 = colBits b c2 + (if c2 = c then 1 else 0) := by
    intro c2
    rw [← colBits_cell0 c c2]
    refine colBits_add (fun c3 => ?_) c2
    have hb3 := colBits_valid_bound hV c3
    rw [colBits_cell0]
    by_cases h3 : c3 = c
    · subst h3
      rw [if_pos rfl]
      omega
    · rw [if_neg h3]
      omega
  have hadd2 := colBits_add_landing hV hc hh
  unfold insertStone
  rw [hmod]
  apply eq_of_colBits
  · exact Nat.or_lt_two_pow hV.1 hsum_lt
  · omega
  · intro c2 hc2
    rw [colBits_or, hadd1 c2, hadd2 c2]
    by_cases h2 : c2 = c
    · subst h2
      rw [hcolc, if_pos (rfl : c2 = c2), if_pos (rfl : c2 = c2)]
      have h1e : 2 ^ colHeight b c2 - 1 + 1 = 2 ^ colHeight b c2 := by
        have := Nat.one_le_two_pow (n := colHeight b c2)
        omega
      rw [h1e]
      have hfree : (2 ^ colHeight b c2 - 1 : Nat).testBit (colHeight b c2) = false := by
        rw [Nat.testBit_two_pow_sub_one]
        simp
      rw [← add_two_pow_of_testBit_false hfree]
    · rw [if_neg h2, if_neg h2, Nat.add_zero, Nat.or_self]

theorem colHeight_of_colBits {v c2 k : Nat} (h : colBits v c2 = 2 ^ k - 1) :
    colHeight v c2 = k := by
  rw [colHeight, h, Nat.sub_add_cancel Nat.one_le_two_pow, Nat.log2_two_pow]

theorem insertStone_colBits {b c : Nat} (hV : ValidBoth b) (hc : c < 7)
    (hh : colHeight b c < 6) (c2 : Nat) :
    colBits (insertStone b c) c2 =
      if c2 = c then 2 ^ (colHeight b c + 1) - 1 else colBits b c2 := by
  rw [insertStone_eq hV hc hh]
  rw [colBits_add_landing hV hc hh c2]
  by_cases h2 : c2 = c
  · subst h2
    rw [if_pos rfl, if_pos rfl, (hV.height_le hc).2]
    have h1 : (1 : Nat) ≤ 2 ^ colHeight b c2 := Nat.one_le_two_pow
    have h2p : (2 : Nat) ^ (colHeight b c2 + 1) = 2 ^ colHeight b c2 * 2 := by
      rw [pow_succ]
    omega
  · rw [if_neg h2, if_neg h2, Nat.add_zero]

theorem insertStone_validBoth {b c : Nat} (hV : ValidBoth b) (hc : c < 7)
    (hh : colHeight b c < 6) : ValidBoth (insertStone b c) := by
  constructor
  · rw [insertStone_eq hV hc hh]
    have hPF := hV.le_playfield
    have hch47 : (2 : Nat) ^ (7 * c + colHeight b c) ≤ 2 ^ 47 :=
      Nat.pow_le_pow_right (by norm_num) (by omega)
    have hBn : (63 : Nat) * BOTTOM + 2 ^ 47 < 2 ^ 49 := by norm_num [BOTTOM]
    omega
  · intro c2 hc2
    rw [insertStone_colBits hV hc hh c2]
    by_cases h2 : c2 = c
    · rw [if_pos h2]
      exact ⟨colHeight b c + 1, by omega, rfl⟩
    · rw [if_neg h2]
      exact ⟨colHeight b c2, (hV.height_le hc2).1, ((hV.height_le hc2).2)⟩

theorem insertStone_colHeight {b c : Nat} (hV : ValidBoth b) (hc : c < 7)
    (hh : colHeight b c < 6) (c2 : Nat) (hc2 : c2 < 7) :
    colHeight (insertStone b c) c2 =
      if c2 = c then colHeight b c + 1 else colHeight b c2 := by
  by_cases h2 : c2 = c
  · rw [if_pos h2]
    exact colHeight_of_colBits (by rw [insertStone_colBits hV hc hh c2, if_pos h2])
  · rw [if_neg h2]
    exact colHeight_of_colBits (by
      rw [insertStone_colBits hV hc hh c2, if_neg h2]
      exact (hV.height_le hc2).2)

theorem insertStone_popcount {b c : Nat} (hV : ValidBoth b) (hc : c < 7)
    (hh : colHeight b c < 6) :
    popcount (insertStone b c) = popcount b + 1 := by
  have hfree : b.testBit (7 * c + colHeight b c) = false := by
    rw [testBit_of_valid hV hc (by omega)]
    simp
  rw [insertStone_eq hV hc hh, add_two_pow_of_testBit_false hfree]
  exact popcount_or_fresh (by omega) hfree

/-! ### Playing a move -/

theorem isLegalMove_iff {g : Game} (hV : Valid g) {c : Nat} (hc : c < 7) :
    g.isLegalMove c = true ↔ colHeight g.both c < 6 := by
  unfold Game.isLegalMove
  rw [isFullCol_eq_of_valid hV.1 hc]
  have := (hV.1.height_le hc).1
  constructor
  · intro h
    simp only [Bool.not_eq_true'] at h
    have := of_decide_eq_false h
    omega
  · intro h
    simp only [Bool.not_eq_true']
    apply decide_eq_false
    omega

theorem play_not_legal {g : Game} {c : Nat} (h : g.isLegalMove c = false) :
    g.play c = (false, g) := by
  unfold Game.play
  unfold Game.isLegalMove at h
  rw [Bool.not_eq_false'] at h
  rw [if_pos h]

theorem play_legal {g : Game} (hV : Valid g) {c : Nat} (hc : c < 7)
    (hleg : g.isLegalMove c = true) :
    g.play c =
      (true, Game.mk (g.me ||| 2 ^ (landingBit g c)) (g.both + 2 ^ (landingBit g c))) := by
  have hh : colHeight g.both c < 6 := (isLegalMove_iff hV hc).1 hleg
  have hnf : isFullCol g.both c = false := by
    unfold Game.isLegalMove at hleg
    rw [Bool.not_eq_true'] at hleg
    exact hleg
  have hins := insertStone_eq hV.1 hc hh
  have hfree : g.both.testBit (landingBit g c) = false := by
    rw [landingBit, testBit_of_valid hV.1 hc (by omega)]
    simp
  have hlastfree : g.last.testBit (landingBit g c) = false := by
    cases hl : g.last.testBit (landingBit g c)
    · rfl
    · have := testBit_eq_true_of_and_eq hV.2 hl
      rw [hfree] at this
      exact Bool.noConfusion this
  unfold Game.play
  rw [if_neg (by rw [hnf]; exact Bool.false_ne_true)]
  have hboth : insertStone g.both c = g.both + 2 ^ landingBit g c := by
    rw [hins, landingBit]
  have hor : g.both + 2 ^ landingBit g c = g.both ||| 2 ^ landingBit g c :=
    add_two_pow_of_testBit_false hfree
  have hlast : flipMask g.last (insertStone g.both c) = g.me ||| 2 ^ landingBit g c := by
    rw [hboth, hor]
    simp only [Game.me, flipMask]
    apply Nat.eq_of_testBit_eq
    intro i
    rw [Nat.testBit_xor, Nat.testBit_or, Nat.testBit_or, Nat.testBit_xor,
      Nat.testBit_two_pow]
    by_cases hij : landingBit g c = i
    · subst hij
      rw [hfree, hlastfree]
      simp
    · rw [decide_eq_false hij]
      simp
  rw [Prod.mk.injEq]
  refine ⟨rfl, ?_⟩
  rw [Game.mk.injEq]
  exact ⟨hlast, hboth⟩

theorem me_and_both {g : Game} (hV : Valid g) : g.me &&& g.both = g.me := by
  apply Nat.eq_of_testBit_eq
  intro i
  have hsub : g.last.testBit i = true → g.both.testBit i = true :=
    testBit_eq_true_of_and_eq hV.2
  simp only [Game.me, flipMask, Nat.testBit_and, Nat.testBit_xor]
  cases hl : g.last.testBit i
  · cases hb : g.both.testBit i <;> rfl
  · rw [hsub hl]
    rfl

theorem landing_both_false {g : Game} (hV : Valid g) {c : Nat} (hc : c < 7) :
    g.both.testBit (landingBit g c) = false := by
  have h7 : colHeight g.both c < 7 := by
    have := (hV.1.height_le hc).1
    omega
  rw [landingBit, testBit_of_valid hV.1 hc h7]
  simp

theorem landing_last_false {g : Game} (hV : Valid g) {c : Nat} (hc : c < 7) :
    g.last.testBit (landingBit g c) = false := by
  cases hl : g.last.testBit (landingBit g c)
  · rfl
  · have := testBit_eq_true_of_and_eq hV.2 hl
    rw [landing_both_false hV hc] at this
    exact Bool.noConfusion this

theorem landing_me_false {g : Game} (hV : Valid g) {c : Nat} (hc : c < 7) :
    g.me.testBit (landingBit g c) = false := by
  simp only [Game.me, flipMask, Nat.testBit_xor]
  rw [landing_both_false hV hc, landing_last_false hV hc]
  rfl

theorem playPos_both {g : Game} (hV : Valid g) {c : Nat} (hc : c < 7)
    (hleg : g.isLegalMove c = true) :
    (g.playPos c).both = g.both + 2 ^ (landingBit g c) := by
  rw [Game.playPos, play_legal hV hc hleg]

theorem playPos_last {g : Game} (hV : Valid g) {c : Nat} (hc : c < 7)
    (hleg : g.isLegalMove c = true) :
    (g.playPos c).last = g.me ||| 2 ^ (landingBit g c) := by
  rw [Game.playPos, play_legal hV hc hleg]

theorem playBool_of_legal {g : Game} {c : Nat} (hleg : g.isLegalMove c = true) :
    g.playBool c = true := by
  unfold Game.playBool Game.play
  unfold Game.isLegalMove at hleg
  rw [Bool.not_eq_true'] at hleg
  rw [if_neg (by rw [hleg]; exact Bool.false_ne_true)]

theorem playPos_me {g : Game} (hV : Valid g) {c : Nat} (hc : c < 7)
    (hleg : g.isLegalMove c = true) : (g.playPos c).me = g.last := by
  have hfb := landing_both_false hV hc
  have hfl := landing_last_false hV hc
  rw [Game.playPos, play_legal hV hc hleg]
  simp only [Game.me, flipMask]
  rw [add_two_pow_of_testBit_false hfb]
  apply Nat.eq_of_testBit_eq
  intro i
  simp only [Nat.testBit_xor, Nat.testBit_or, Nat.testBit_two_pow]
  by_cases hij : landingBit g c = i
  · subst hij
    rw [hfb, hfl]
    simp
  · rw [decide_eq_false hij]
    simp only [Bool.or_false]
    cases hl : g.last.testBit i <;> cases hb : g.both.testBit i <;> rfl

theorem playPos_validBoth {g : Game} (hV : Valid g) {c : Nat} (hc : c < 7)
    (hleg : g.isLegalMove c = true) : ValidBoth (g.playPos c).both := by
  have hh : colHeight g.both c < 6 := (isLegalMove_iff hV hc).1 hleg
  rw [playPos_both hV hc hleg, landingBit, ← insertStone_eq hV.1 hc hh]
  exact insertStone_validBoth hV.1 hc hh

theorem playPos_valid {g : Game} (hV : Valid g) {c : Nat} (hc : c < 7)
    (hleg : g.isLegalMove c = true) : Valid (g.playPos c) := by
  refine ⟨playPos_validBoth hV hc hleg, ?_⟩
  have hfb := landing_both_false hV hc
  have hme := me_and_both hV
  rw [playPos_both hV hc hleg, playPos_last hV hc hleg,
    add_two_pow_of_testBit_false hfb]
  apply Nat.eq_of_testBit_eq
  intro i
  simp only [Nat.testBit_and, Nat.testBit_or, Nat.testBit_two_pow]
  by_cases hij : landingBit g c = i
  · rw [decide_eq_true hij]
    simp
  · rw [decide_eq_false hij]
    simp only [Bool.or_false]
    have hsubme : g.me.testBit i = true → g.both.testBit i = true :=
      testBit_eq_true_of_and_eq hme
    cases hm : g.me.testBit i
    · rfl
    · rw [hsubme hm]
      rfl

theorem playPos_stones {g : Game} (hV : Valid g) {c : Nat} (hc : c < 7)
    (hleg : g.isLegalMove c = true) : (g.playPos c).stones = g.stones + 1 := by
  have hh : colHeight g.both c < 6 := (isLegalMove_iff hV hc).1 hleg
  unfold Game.stones
  rw [playPos_both hV hc hleg, landingBit, ← insertStone_eq hV.1 hc hh]
  exact insertStone_popcount hV.1 hc hh

theorem playPos_colHeight {g : Game} (hV : Valid g) {c : Nat} (hc : c < 7)
    (hleg : g.isLegalMove c = true) (c2 : Nat) (hc2 : c2 < 7) :
    colHeight (g.playPos c).both c2 =
      if c2 = c then colHeight g.both c + 1 else colHeight g.both c2 := by
  have hh : colHeight g.both c < 6 := (isLegalMove_iff hV hc).1 hleg
  rw [playPos_both hV hc hleg, landingBit, ← insertStone_eq hV.1 hc hh]
  exact insertStone_colHeight hV.1 hc hh c2 hc2

theorem stones_le_42 {g : Game} (hV : Valid g) : g.stones ≤ 42 := by
  have h1 : popcount g.both ≤ popcount (63 * BOTTOM) :=
    popcount_le_of_subset hV.1.and_playfield
  have h2 : popcount (63 * BOTTOM) = 42 := by decide
  unfold Game.stones
  omega

theorem stones_lt_42 {g : Game} (hV : Valid g) {c : Nat} (hc : c < 7)
    (hleg : g.isLegalMove c = true) : g.stones < 42 := by
  have h1 := playPos_stones hV hc hleg
  have h2 := stones_le_42 (playPos_valid hV hc hleg)
  omega

theorem exists_legal_of_stones_lt {g : Game} (hV : Valid g) (hs : g.stones < 42) :
    ∃ c, c < 7 ∧ g.isLegalMove c = true := by
  by_contra hno
  push_neg at hno
  have hall : ∀ c, c < 7 → colHeight g.both c = 6 := by
    intro c hc
    have hle := (hV.1.height_le hc).1
    have := hno c hc
    by_contra hne
    have h6 : colHeight g.both c < 6 := by omega
    exact this ((isLegalMove_iff hV hc).2 h6)
  have heq : g.both = 63 * BOTTOM := by
    apply eq_of_colBits hV.1.1 (by norm_num [BOTTOM])
    intro c hc
    have h1 := (hV.1.height_le hc).2
    rw [hall c hc] at h1
    have h2 : ∀ c2 < 7, colBits (63 * BOTTOM) c2 = 63 := by decide
    rw [h1, h2 c hc]
    norm_num
  have : g.stones = 42 := by
    unfold Game.stones
    rw [heq]
    decide
  omega

theorem mem_legalMoves {g : Game} {c : Nat} :
    c ∈ g.legalMoves ↔ c < 7 ∧ g.isLegalMove c = true := by
  unfold Game.legalMoves
  rw [List.mem_filter, List.mem_range]

/-! ### Window characterization of win detection -/

theorem winDir_iff (b s d : Nat) (hd : d = 2 * s) :
    ((b &&& (b >>> s)) &&& ((b &&& (b >>> s)) >>> d) ≠ 0) ↔ ∃ i, winWindow b i s := by
  subst hd
  constructor
  · intro h
    obtain ⟨i, hi⟩ := Nat.ne_zero_implies_bit_true h
    simp only [Nat.testBit_and, Nat.testBit_shiftRight, Bool.and_eq_true] at hi
    obtain ⟨⟨h1, h2⟩, h3, h4⟩ := hi
    refine ⟨i, h1, ?_, ?_, ?_⟩
    · rw [show i + s = s + i by omega]
      exact h2
    · rw [show i + 2 * s = 2 * s + i by omega]
      exact h3
    · rw [show i + 3 * s = s + (2 * s + i) by omega]
      exact h4
  · rintro ⟨i, h1, h2, h3, h4⟩
    apply ne_zero_of_testBit (i := i)
    simp only [Nat.testBit_and, Nat.testBit_shiftRight, Bool.and_eq_true]
    refine ⟨⟨h1, ?_⟩, ?_, ?_⟩
    · rw [show s + i = i + s by omega]
      exact h2
    · rw [show 2 * s + i = i + 2 * s by omega]
      exact h3
    · rw [show s + (2 * s + i) = i + 3 * s by omega]
      exact h4

theorem isWin_iff (b : Nat) :
    isWin b = true ↔
      ∃ i, winWindow b i 6 ∨ winWindow b i 7 ∨ winWindow b i 8 ∨ winWindow b i 1 := by
  unfold isWin
  simp only [Bool.or_eq_true, bne_iff_ne, ne_eq]
  constructor
  · rintro (((h | h) | h) | h)
    · obtain ⟨i, hw⟩ := (winDir_iff b 6 12 (by norm_num)).1 h
      exact ⟨i, Or.inl hw⟩
    · obtain ⟨i, hw⟩ := (winDir_iff b 7 14 (by norm_num)).1 h
      exact ⟨i, Or.inr (Or.inl hw)⟩
    · obtain ⟨i, hw⟩ := (winDir_iff b 8 16 (by norm_num)).1 h
      exact ⟨i, Or.inr (Or.inr (Or.inl hw))⟩
    · obtain ⟨i, hw⟩ := (winDir_iff b 1 2 (by norm_num)).1 h
      exact ⟨i, Or.inr (Or.inr (Or.inr hw))⟩
  · rintro ⟨i, h | h | h | h⟩
    · exact Or.inl (Or.inl (Or.inl ((winDir_iff b 6 12 (by norm_num)).2 ⟨i, h⟩)))
    · exact Or.inl (Or.inl (Or.inr ((winDir_iff b 7 14 (by norm_num)).2 ⟨i, h⟩)))
    · exact Or.inl (Or.inr ((winDir_iff b 8 16 (by norm_num)).2 ⟨i, h⟩))
    · exact Or.inr ((winDir_iff b 1 2 (by norm_num)).2 ⟨i, h⟩)

theorem dirProp_iff (p x s : Nat) (hx : x < 64) :
    ((((((x < 64 ∧ s ≤ x) ∧ p.testBit (x - s) = true) ∧
            (x < 64 ∧ 2 * s ≤ x) ∧ p.testBit (x - 2 * s) = true) ∧
          (x < 64 ∧ 3 * s ≤ x) ∧ p.testBit (x - 3 * s) = true ∨
        (((x < 64 ∧ s ≤ x) ∧ p.testBit (x - s) = true) ∧
            (x < 64 ∧ 2 * s ≤ x) ∧ p.testBit (x - 2 * s) = true) ∧
          p.testBit (s + x) = true) ∨
      (p.testBit (s + x) = true ∧ p.testBit (2 * s + x) = true) ∧
        (x < 64 ∧ s ≤ x) ∧ p.testBit (x - s) = true) ∨
    (p.testBit (s + x) = true ∧ p.testBit (2 * s + x) = true) ∧
      p.testBit (3 * s + x) = true) ↔ wpPattern p x s := by
  unfold wpPattern
  constructor
  · rintro (((⟨⟨⟨⟨-, hsx⟩, h1⟩, ⟨-, h2x⟩, h2⟩, ⟨-, h3x⟩, h3⟩ |
        ⟨⟨⟨⟨-, hsx⟩, h1⟩, ⟨-, h2x⟩, h2⟩, h4⟩) |
      ⟨⟨h4, h5⟩, ⟨-, hsx⟩, h1⟩) | ⟨⟨h4, h5⟩, h6⟩)
    · exact Or.inl ⟨h3x, h1, h2, h3⟩
    · exact Or.inr (Or.inl ⟨h2x, h1, h2, h4⟩)
    · exact Or.inr (Or.inr (Or.inl ⟨hsx, h4, h5, h1⟩))
    · exact Or.inr (Or.inr (Or.inr ⟨h4, h5, h6⟩))
  · rintro (⟨h3x, h1, h2, h3⟩ | ⟨h2x, h1, h2, h4⟩ | ⟨hsx, h4, h5, h1⟩ | ⟨h4, h5, h6⟩)
    · exact Or.inl (Or.inl (Or.inl ⟨⟨⟨⟨hx, by omega⟩, h1⟩, ⟨hx, by omega⟩, h2⟩, ⟨hx, h3x⟩, h3⟩))
    · exact Or.inl (Or.inl (Or.inr ⟨⟨⟨⟨hx, by omega⟩, h1⟩, ⟨hx, h2x⟩, h2⟩, h4⟩))
    · exact Or.inl (Or.inr ⟨⟨h4, h5⟩, ⟨hx, hsx⟩, h1⟩)
    · exact Or.inr ⟨⟨h4, h5⟩, h6⟩

theorem testBit_FULL_true {x : Nat} (h : FULL.testBit x = true) : x < 56 ∧ x % 7 ≠ 6 := by
  rw [testBit_FULL, Bool.and_eq_true, decide_eq_true_eq, decide_eq_true_eq] at h
  exact h

theorem testBit_wp_iff (p x : Nat) :
    (winningPositions p).testBit x = true ↔
      FULL.testBit x = true ∧
        (vertPattern p x ∨ wpPattern p x 7 ∨ wpPattern p x 8 ∨ wpPattern p x 6) := by
  unfold winningPositions
  simp only [Nat.testBit_and, Nat.testBit_or, testBit_shl64, Nat.testBit_shiftRight,
    Bool.and_eq_true, Bool.or_eq_true, decide_eq_true_eq]
  constructor
  · rintro ⟨hw, hfull⟩
    have hx : x < 64 := by
      have := testBit_FULL_true hfull
      omega
    refine ⟨hfull, ?_⟩
    rcases hw with ((hv | h7) | h8) | h6
    · obtain ⟨⟨⟨-, h1⟩, ⟨-, h2x⟩, h2⟩, ⟨-, h3x⟩, h3⟩ := hv
      exact Or.inl ⟨h3x, h1, h2, h3⟩
    · exact Or.inr (Or.inl ((dirProp_iff p x 7 hx).1 h7))
    · exact Or.inr (Or.inr (Or.inl ((dirProp_iff p x 8 hx).1 h8)))
    · exact Or.inr (Or.inr (Or.inr ((dirProp_iff p x 6 hx).1 h6)))
  · rintro ⟨hfull, hp⟩
    have hx : x < 64 := by
      have := testBit_FULL_true hfull
      omega
    refine ⟨?_, hfull⟩
    rcases hp with hv | h7 | h8 | h6
    · obtain ⟨h3x, h1, h2, h3⟩ := hv
      exact Or.inl (Or.inl (Or.inl ⟨⟨⟨⟨hx, by omega⟩, h1⟩, ⟨hx, by omega⟩, h2⟩, ⟨hx, h3x⟩, h3⟩))
    · exact Or.inl (Or.inl (Or.inr ((dirProp_iff p x 7 hx).2 h7)))
    · exact Or.inl (Or.inr ((dirProp_iff p x 8 hx).2 h8))
    · exact Or.inr ((dirProp_iff p x 6 hx).2 h6)

/-! ### Completing a four-in-a-row on a landing square -/

theorem testBit_or_two_pow (p x i : Nat) :
    (p ||| 2 ^ x).testBit i = (p.testBit i || decide (x = i)) := by
  rw [Nat.testBit_or, Nat.testBit_two_pow]

theorem wpPattern_window {p x s : Nat} (hp : wpPattern p x s) :
    ∃ i, winWindow (p ||| 2 ^ x) i s := by
  have hq : ∀ i, p.testBit i = true → (p ||| 2 ^ x).testBit i = true := by
    intro i hi
    rw [testBit_or_two_pow, hi, Bool.true_or]
  have hqx : (p ||| 2 ^ x).testBit x = true := by
    rw [testBit_or_two_pow]
    simp
  simp only [winWindow]
  rcases hp with ⟨h3x, h1, h2, h3⟩ | ⟨h2x, h1, h2, h4⟩ | ⟨hsx, h4, h5, h1⟩ | ⟨h4, h5, h6⟩
  · refine ⟨x - 3 * s, hq _ h3, ?_, ?_, ?_⟩
    · rw [show x - 3 * s + s = x - 2 * s by omega]
      exact hq _ h2
    · rw [show x - 3 * s + 2 * s = x - s by omega]
      exact hq _ h1
    · rw [show x - 3 * s + 3 * s = x by omega]
      exact hqx
  · refine ⟨x - 2 * s, hq _ h2, ?_, ?_, ?_⟩
    · rw [show x - 2 * s + s = x - s by omega]
      exact hq _ h1
    · rw [show x - 2 * s + 2 * s = x by omega]
      exact hqx
    · rw [show x - 2 * s + 3 * s = s + x by omega]
      exact hq _ h4
  · refine ⟨x - s, hq _ h1, ?_, ?_, ?_⟩
    · rw [show x - s + s = x by omega]
      exact hqx
    · rw [show x - s + 2 * s = s + x by omega]
      exact hq _ h4
    · rw [show x - s + 3 * s = 2 * s + x by omega]
      exact hq _ h5
  · refine ⟨x, hqx, ?_, ?_, ?_⟩
    · rw [show x + s = s + x by omega]
      exact hq _ h4
    · rw [show x + 2 * s = 2 * s + x by omega]
      exact hq _ h5
    · rw [show x + 3 * s = 3 * s + x by omega]
      exact hq _ h6

theorem vertPattern_window {p x : Nat} (h3x : 3 ≤ x)
    (h1 : p.testBit (x - 1) = true) (h2 : p.testBit (x - 2) = true)
    (h3 : p.testBit (x - 3) = true) :
    ∃ i, winWindow (p ||| 2 ^ x) i 1 := by
  have hq : ∀ i, p.testBit i = true → (p ||| 2 ^ x).testBit i = true := by
    intro i hi
    rw [testBit_or_two_pow, hi, Bool.true_or]
  have hqx : (p ||| 2 ^ x).testBit x = true := by
    rw [testBit_or_two_pow]
    simp
  simp only [winWindow]
  refine ⟨x - 3, hq _ h3, ?_, ?_, ?_⟩
  · rw [show x - 3 + 1 = x - 2 by omega]
    exact hq _ h2
  · rw [show x - 3 + 2 * 1 = x - 1 by omega]
    exact hq _ h1
  · rw [show x - 3 + 3 * 1 = x by omega]
    exact hqx

theorem wp_implies_win {p x : Nat} (h : (winningPositions p).testBit x = true) :
    isWin (p ||| 2 ^ x) = true := by
  obtain ⟨hfull, hp⟩ := (testBit_wp_iff p x).1 h
  rw [isWin_iff]
  rcases hp with ⟨h3x, h1, h2, h3⟩ | hp7 | hp8 | hp6
  · obtain ⟨i, hw⟩ := vertPattern_window h3x h1 h2 h3
    exact ⟨i, Or.inr (Or.inr (Or.inr hw))⟩
  · obtain ⟨i, hw⟩ := wpPattern_window hp7
    exact ⟨i, Or.inr (Or.inl hw)⟩
  · obtain ⟨i, hw⟩ := wpPattern_window hp8
    exact ⟨i, Or.inr (Or.inr (Or.inl hw))⟩
  · obtain ⟨i, hw⟩ := wpPattern_window hp6
    exact ⟨i, Or.inl hw⟩

theorem window_insert_cases {p x i s : Nat} (hs : 1 ≤ s)
    (hw : winWindow (p ||| 2 ^ x) i s) (hno : ¬ winWindow p i s) :
    (x = i ∧ p.testBit (i + s) = true ∧ p.testBit (i + 2 * s) = true ∧
        p.testBit (i + 3 * s) = true) ∨
    (x = i + s ∧ p.testBit i = true ∧ p.testBit (i + 2 * s) = true ∧
        p.testBit (i + 3 * s) = true) ∨
    (x = i + 2 * s ∧ p.testBit i = true ∧ p.testBit (i + s) = true ∧
        p.testBit (i + 3 * s) = true) ∨
    (x = i + 3 * s ∧ p.testBit i = true ∧ p.testBit (i + s) = true ∧
        p.testBit (i + 2 * s) = true) := by
  simp only [winWindow, testBit_or_two_pow, Bool.or_eq_true, decide_eq_true_eq] at hw
  simp only [winWindow] at hno
  obtain ⟨c0, c1, c2, c3⟩ := hw
  rcases c0 with h0 | e0
  · rcases c1 with h1 | e1
    · rcases c2 with h2 | e2
      · rcases c3 with h3 | e3
        · exact absurd ⟨h0, h1, h2, h3⟩ hno
        · exact Or.inr (Or.inr (Or.inr ⟨e3, h0, h1, h2⟩))
      · have h3 := c3.resolve_right (fun e => by omega)
        exact Or.inr (Or.inr (Or.inl ⟨e2, h0, h1, h3⟩))
    · have h2 := c2.resolve_right (fun e => by omega)
      have h3 := c3.resolve_right (fun e => by omega)
      exact Or.inr (Or.inl ⟨e1, h0, h2, h3⟩)
  · have h1 := c1.resolve_right (fun e => by omega)
    have h2 := c2.resolve_right (fun e => by omega)
    have h3 := c3.resolve_right (fun e => by omega)
    exact Or.inl ⟨e0, h1, h2, h3⟩

theorem insert_cases_to_wpPattern {p x i s : Nat}
    (hc : (x = i ∧ p.testBit (i + s) = true ∧ p.testBit (i + 2 * s) = true ∧
        p.testBit (i + 3 * s) = true) ∨
      (x = i + s ∧ p.testBit i = true ∧ p.testBit (i + 2 * s) = true ∧
        p.testBit (i + 3 * s) = true) ∨
      (x = i + 2 * s ∧ p.testBit i = true ∧ p.testBit (i + s) = true ∧
        p.testBit (i + 3 * s) = true) ∨
      (x = i + 3 * s ∧ p.testBit i = true ∧ p.testBit (i + s) = true ∧
        p.testBit (i + 2 * s) = true)) :
    wpPattern p x s := by
  unfold wpPattern
  rcases hc with ⟨e, a, b, c⟩ | ⟨e, a, b, c⟩ | ⟨e, a, b, c⟩ | ⟨e, a, b, c⟩
  · refine Or.inr (Or.inr (Or.inr ⟨?_, ?_, ?_⟩))
    · rw [show s + x = i + s by omega]
      exact a
    · rw [show 2 * s + x = i + 2 * s by omega]
      exact b
    · rw [show 3 * s + x = i + 3 * s by omega]
      exact c
  · refine Or.inr (Or.inr (Or.inl ⟨by omega, ?_, ?_, ?_⟩))
    · rw [show s + x = i + 2 * s by omega]
      exact b
    · rw [show 2 * s + x = i + 3 * s by omega]
      exact c
    · rw [show x - s = i by omega]
      exact a
  · refine Or.inr (Or.inl ⟨by omega, ?_, ?_, ?_⟩)
    · rw [show x - s = i + s by omega]
      exact b
    · rw [show x - 2 * s = i by omega]
      exact a
    · rw [show s + x = i + 3 * s by omega]
      exact c
  · refine Or.inl ⟨by omega, ?_, ?_, ?_⟩
    · rw [show x - s = i + 2 * s by omega]
      exact c
    · rw [show x - 2 * s = i + s by omega]
      exact b
    · rw [show x - 3 * s = i by omega]
      exact a

theorem no_window_of_isWin_false {p : Nat} (hnw : isWin p = false) (j s : Nat)
    (hss : s = 6 ∨ s = 7 ∨ s = 8 ∨ s = 1) : ¬ winWindow p j s := by
  intro hwj
  have : isWin p = true := by
    rw [isWin_iff]
    rcases hss with rfl | rfl | rfl | rfl
    · exact ⟨j, Or.inl hwj⟩
    · exact ⟨j, Or.inr (Or.inl hwj)⟩
    · exact ⟨j, Or.inr (Or.inr (Or.inl hwj))⟩
    · exact ⟨j, Or.inr (Or.inr (Or.inr hwj))⟩
  rw [hnw] at this
  exact Bool.noConfusion this

theorem win_insert_implies_wp {p x : Nat} (hw : isWin (p ||| 2 ^ x) = true)
    (hnw : isWin p = false) (habove : p.testBit (x + 1) = false)
    (hfull : FULL.testBit x = true) : (winningPositions p).testBit x = true := by
  rw [testBit_wp_iff]
  refine ⟨hfull, ?_⟩
  obtain ⟨i, hcase⟩ := (isWin_iff _).1 hw
  rcases hcase with h6 | h7 | h8 | h1
  · have hc := window_insert_cases (by norm_num) h6
      (no_window_of_isWin_false hnw i 6 (by norm_num))
    exact Or.inr (Or.inr (Or.inr (insert_cases_to_wpPattern hc)))
  · have hc := window_insert_cases (by norm_num) h7
      (no_window_of_isWin_false hnw i 7 (by norm_num))
    exact Or.inr (Or.inl (insert_cases_to_wpPattern hc))
  · have hc := window_insert_cases (by norm_num) h8
      (no_window_of_isWin_false hnw i 8 (by norm_num))
    exact Or.inr (Or.inr (Or.inl (insert_cases_to_wpPattern hc)))
  · have hc := window_insert_cases (by norm_num) h1
      (no_window_of_isWin_false hnw i 1 (by norm_num))
    rcases hc with ⟨e, a, b, c⟩ | ⟨e, a, b, c⟩ | ⟨e, a, b, c⟩ | ⟨e, a, b, c⟩
    · exfalso
      rw [show i + 1 = x + 1 by omega] at a
      rw [habove] at a
      exact Bool.noConfusion a
    · exfalso
      rw [show i + 2 * 1 = x + 1 by omega] at b
      rw [habove] at b
      exact Bool.noConfusion b
    · exfalso
      rw [show i + 3 * 1 = x + 1 by omega] at c
      rw [habove] at c
      exact Bool.noConfusion c
    · refine Or.inl ⟨by omega, ?_, ?_, ?_⟩
      · rw [show x - 1 = i + 2 * 1 by omega]
        exact c
      · rw [show x - 2 = i + 1 by omega]
        exact b
      · rw [show x - 3 = i by omega]
        exact a

/-! ###`can_win_in_next_move` names exactly the winning columns -/

theorem playPos_isVictory_eq {g : Game} (hV : Valid g) {c : Nat} (hc : c < 7)
    (hleg : g.isLegalMove c = true) :
    (g.playPos c).isVictory = isWin (g.me ||| 2 ^ (landingBit g c)) := by
  rw [Game.isVictory, playPos_last hV hc hleg]

theorem me_above_landing_false {g : Game} (hV : Valid g) {c : Nat} (hc : c < 7)
    (hh : colHeight g.both c < 6) :
    g.me.testBit (landingBit g c + 1) = false := by
  have hb : g.both.testBit (landingBit g c + 1) = false := by
    rw [show landingBit g c + 1 = 7 * c + (colHeight g.both c + 1) by
      rw [landingBit]
      omega]
    rw [testBit_of_valid hV.1 hc (by omega)]
    simp
  cases hm : g.me.testBit (landingBit g c + 1)
  · rfl
  · have := testBit_eq_true_of_and_eq (me_and_both hV) hm
    rw [hb] at this
    exact Bool.noConfusion this

theorem landing_full {g : Game} (hV : Valid g) {c : Nat} (hc : c < 7)
    (hh : colHeight g.both c < 6) : FULL.testBit (landingBit g c) = true := by
  rw [landingBit, testBit_FULL]
  have h1 : 7 * c + colHeight g.both c < 56 := by omega
  have h2 : (7 * c + colHeight g.both c) % 7 ≠ 6 := by omega
  rw [decide_eq_true h1, decide_eq_true h2]
  rfl

theorem canWin_iff {g : Game} (hV : Valid g) (hme : isWin g.me = false) :
    g.canWinInNextMove = true ↔
      ∃ c, c < 7 ∧ g.isLegalMove c = true ∧ (g.playPos c).isVictory = true := by
  unfold Game.canWinInNextMove
  simp only [bne_iff_ne, ne_eq, decide_eq_true_eq]
  constructor
  · intro hne
    obtain ⟨x, hx⟩ := Nat.ne_zero_implies_bit_true hne
    rw [Nat.testBit_and, Bool.and_eq_true] at hx
    obtain ⟨hposs, hwp⟩ := hx
    obtain ⟨c, hc, hh, hxe⟩ := (testBit_possible_iff hV.1 x).1 hposs
    have hleg := (isLegalMove_iff hV hc).2 hh
    refine ⟨c, hc, hleg, ?_⟩
    rw [playPos_isVictory_eq hV hc hleg]
    have hxl : x = landingBit g c := by rw [landingBit, hxe]
    rw [← hxl]
    exact wp_implies_win hwp
  · rintro ⟨c, hc, hleg, hvic⟩
    have hh := (isLegalMove_iff hV hc).1 hleg
    have hwin : isWin (g.me ||| 2 ^ (landingBit g c)) = true := by
      rw [← playPos_isVictory_eq hV hc hleg]
      exact hvic
    have hwp := win_insert_implies_wp hwin hme (me_above_landing_false hV hc hh)
      (landing_full hV hc hh)
    apply ne_zero_of_testBit (i := landingBit g c)
    rw [Nat.testBit_and, hwp]
    have hposs : (possible g.both).testBit (landingBit g c) = true :=
      (testBit_possible_iff hV.1 _).2 ⟨c, hc, hh, by rw [landingBit]⟩
    rw [hposs]
    rfl

theorem playPos_not_victory {g : Game} (hV : Valid g) (hme : isWin g.me = false)
    (hcw : g.canWinInNextMove = false) {c : Nat} (hc : c < 7)
    (hleg : g.isLegalMove c = true) : (g.playPos c).isVictory = false := by
  cases hv : (g.playPos c).isVictory
  · rfl
  · have := (canWin_iff hV hme).2 ⟨c, hc, hleg, hv⟩
    rw [hcw] at this
    exact Bool.noConfusion this

theorem playPos_live {g : Game} (hL : Live g) (hcw : g.canWinInNextMove = false)
    {c : Nat} (hc : c < 7) (hleg : g.isLegalMove c = true) : Live (g.playPos c) := by
  obtain ⟨hV, hlast, hme⟩ := hL
  refine ⟨playPos_valid hV hc hleg, ?_, ?_⟩
  · have := playPos_not_victory hV hme hcw hc hleg
    rw [Game.isVictory] at this
    exact this
  · rw [playPos_me hV hc hleg]
    exact hlast

/-! ### Non-losing moves: helper characterizations -/

theorem wp_bit_full {p x : Nat} (h : (winningPositions p).testBit x = true) :
    x < 56 ∧ x % 7 ≠ 6 := by
  obtain ⟨hfull, -⟩ := (testBit_wp_iff p x).1 h
  exact testBit_FULL_true hfull

theorem nlmContains_iff_exists (m c : Nat) :
    nlmContains m c = true ↔
      ∃ x, m.testBit x = true ∧ 7 * c ≤ x ∧ x < 7 * c + 7 := by
  unfold nlmContains
  simp only [bne_iff_ne, ne_eq, decide_eq_true_eq]
  constructor
  · intro hne
    obtain ⟨x, hx⟩ := Nat.ne_zero_implies_bit_true hne
    rw [Nat.testBit_and, Bool.and_eq_true, testBit_columnMask,
      Bool.and_eq_true, decide_eq_true_eq, decide_eq_true_eq] at hx
    exact ⟨x, hx.1, hx.2.1, by omega⟩
  · rintro ⟨x, hb, h1, h2⟩
    apply ne_zero_of_testBit (i := x)
    rw [Nat.testBit_and, hb, testBit_columnMask, decide_eq_true h1,
      decide_eq_true (show x - 7 * c < 7 by omega)]
    rfl

theorem and_eq_zero_iff_all (a b : Nat) :
    a &&& b = 0 ↔ ∀ x, a.testBit x = true → b.testBit x = false := by
  constructor
  · intro h x hx
    cases hb : b.testBit x
    · rfl
    · exfalso
      apply ne_zero_of_testBit (i := x) _ h
      rw [Nat.testBit_and, hx, hb]
      rfl
  · intro h
    apply Nat.eq_of_testBit_eq
    intro i
    rw [Nat.testBit_and, Nat.zero_testBit]
    cases ha : a.testBit i
    · rfl
    · rw [h i ha]
      rfl

theorem canWin_eq_false_iff (g : Game) :
    g.canWinInNextMove = false ↔
      ∀ x, (possible g.both).testBit x = true →
        (winningPositions g.me).testBit x = false := by
  unfold Game.canWinInNextMove
  rw [← and_eq_zero_iff_all]
  simp only [bne_eq_false_iff_eq, decide_eq_true_eq]

theorem canWin_child_iff {g : Game} (hV : Valid g) {c : Nat} (hc : c < 7)
    (hleg : g.isLegalMove c = true) :
    (g.playPos c).canWinInNextMove = false ↔
      (∀ c2, c2 < 7 → c2 ≠ c → colHeight g.both c2 < 6 →
          (winningPositions g.last).testBit (7 * c2 + colHeight g.both c2) = false) ∧
      (colHeight g.both c + 1 < 6 →
          (winningPositions g.last).testBit (7 * c + (colHeight g.both c + 1)) = false) := by
  have hVq := playPos_validBoth hV hc hleg
  have hme := playPos_me hV hc hleg
  rw [canWin_eq_false_iff, hme]
  constructor
  · intro hall
    constructor
    · intro c2 hc2 hne hh2
      apply hall
      apply (testBit_possible_iff hVq _).2
      refine ⟨c2, hc2, ?_, ?_⟩
      · rw [playPos_colHeight hV hc hleg c2 hc2, if_neg hne]
        exact hh2
      · rw [playPos_colHeight hV hc hleg c2 hc2, if_neg hne]
    · intro hh1
      apply hall
      apply (testBit_possible_iff hVq _).2
      refine ⟨c, hc, ?_, ?_⟩
      · rw [playPos_colHeight hV hc hleg c hc, if_pos rfl]
        exact hh1
      · rw [playPos_colHeight hV hc hleg c hc, if_pos rfl]
  · rintro ⟨hother, hown⟩ x hx
    obtain ⟨c2, hc2, hh2, hxe⟩ := (testBit_possible_iff hVq x).1 hx
    rw [playPos_colHeight hV hc hleg c2 hc2] at hh2 hxe
    by_cases he : c2 = c
    · rw [if_pos he] at hh2 hxe
      subst he
      subst hxe
      exact hown hh2
    · rw [if_neg he] at hh2 hxe
      subst hxe
      exact hother c2 hc2 he hh2

theorem forced_bit_iff {g : Game} (hV : Valid g) (x : Nat) :
    (winningPositions g.last &&& possible g.both).testBit x = true ↔
      ∃ c2, c2 < 7 ∧ colHeight g.both c2 < 6 ∧
        x = 7 * c2 + colHeight g.both c2 ∧
        (winningPositions g.last).testBit x = true := by
  rw [Nat.testBit_and, Bool.and_eq_true]
  constructor
  · rintro ⟨hT, hL⟩
    obtain ⟨c2, hc2, hh2, hxe⟩ := (testBit_possible_iff hV.1 x).1 hL
    exact ⟨c2, hc2, hh2, hxe, hT⟩
  · rintro ⟨c2, hc2, hh2, hxe, hT⟩
    exact ⟨hT, (testBit_possible_iff hV.1 x).2 ⟨c2, hc2, hh2, hxe⟩⟩

theorem forced_lt {g : Game} :
    winningPositions g.last &&& possible g.both < 2 ^ 64 := by
  have h1 : winningPositions g.last &&& possible g.both ≤ possible g.both :=
    Nat.and_le_right
  have h2 : possible g.both ≤ FULL := Nat.and_le_right
  have h3 : FULL < 2 ^ 64 := by norm_num [FULL]
  omega

theorem popcount_one_pow {m : Nat} (hm : m < 2 ^ 64) (h : popcount m = 1) :
    ∃ x, x < 64 ∧ m = 2 ^ x ∧ m.testBit x = true := by
  obtain ⟨x, hx64, hbx, huniq⟩ := popcount_one_exists h
  refine ⟨x, hx64, ?_, hbx⟩
  apply Nat.eq_of_testBit_eq
  intro i
  rw [Nat.testBit_two_pow]
  by_cases he : x = i
  · rw [decide_eq_true he, ← he, hbx]
  · rw [decide_eq_false he]
    cases hbi : m.testBit i
    · rfl
    · exfalso
      have hi64 : i < 64 := by
        by_contra hge
        rw [Nat.testBit_lt_two_pow
          (lt_of_lt_of_le hm (Nat.pow_le_pow_right (by norm_num) (by omega)))] at hbi
        exact Bool.noConfusion hbi
      exact he (huniq i hi64 hbi).symm

theorem nlm_mask_A {g : Game}
    (hF2 : 2 ≤ popcount (winningPositions g.last &&& possible g.both)) :
    nonLoosingMovesMask g = 0 := by
  unfold nonLoosingMovesMask
  rw [if_pos hF2]

theorem nlm_mask_B1 {g : Game}
    (hF2 : ¬ 2 ≤ popcount (winningPositions g.last &&& possible g.both))
    (hF1 : popcount (winningPositions g.last &&& possible g.both) = 1)
    (hup : (((winningPositions g.last &&& possible g.both) <<< 1) &&&
      winningPositions g.last != 0) = true) :
    nonLoosingMovesMask g = 0 := by
  unfold nonLoosingMovesMask
  rw [if_neg hF2, if_pos hF1, if_pos hup]

theorem nlm_mask_B2 {g : Game}
    (hF2 : ¬ 2 ≤ popcount (winningPositions g.last &&& possible g.both))
    (hF1 : popcount (winningPositions g.last &&& possible g.both) = 1)
    (hup : ¬ ((((winningPositions g.last &&& possible g.both) <<< 1) &&&
      winningPositions g.last != 0) = true)) :
    nonLoosingMovesMask g = winningPositions g.last &&& possible g.both := by
  unfold nonLoosingMovesMask
  rw [if_neg hF2, if_pos hF1, if_neg hup]

theorem nlm_mask_C {g : Game}
    (hF2 : ¬ 2 ≤ popcount (winningPositions g.last &&& possible g.both))
    (hF1 : ¬ popcount (winningPositions g.last &&& possible g.both) = 1) :
    nonLoosingMovesMask g =
      eraseBits (possible g.both) (winningPositions g.last >>> 1) := by
  unfold nonLoosingMovesMask
  rw [if_neg hF2, if_neg hF1]

theorem forced_eq_zero {g : Game}
    (hF2 : ¬ 2 ≤ popcount (winningPositions g.last &&& possible g.both))
    (hF1 : ¬ popcount (winningPositions g.last &&& possible g.both) = 1) :
    winningPositions g.last &&& possible g.both = 0 := by
  have h0 : popcount (winningPositions g.last &&& possible g.both) = 0 := by omega
  exact (popcount_eq_zero forced_lt).1 h0

theorem testBit_eraseBits (a b x : Nat) :
    (eraseBits a b).testBit x = (a.testBit x && !(b.testBit x)) := by
  unfold eraseBits
  rw [Nat.testBit_xor, Nat.testBit_and]
  cases ha : a.testBit x <;> cases hb : b.testBit x <;> rfl

theorem up_iff {g : Game} {f : Nat}
    (hE : winningPositions g.last &&& possible g.both = 2 ^ f) :
    ((((winningPositions g.last &&& possible g.both) <<< 1) &&&
        winningPositions g.last != 0) = true) ↔
      (winningPositions g.last).testBit (f + 1) = true := by
  rw [hE]
  have hsl : (2 : Nat) ^ f <<< 1 = 2 ^ (f + 1) := by
    rw [Nat.shiftLeft_eq, pow_succ]
    ring
  rw [hsl]
  simp only [bne_iff_ne, ne_eq]
  constructor
  · intro hne
    cases hb : (winningPositions g.last).testBit (f + 1)
    · exact absurd ((and_two_pow_eq_zero_iff _ _).2 hb) hne
    · rfl
  · intro hb h0
    rw [(and_two_pow_eq_zero_iff _ _).1 h0] at hb
    exact Bool.noConfusion hb

theorem nlm_contains_iff {g : Game} (hV : Valid g) {c : Nat} (hc : c < 7) :
    nlmContains (nonLoosingMovesMask g) c = true ↔
      g.isLegalMove c = true ∧ (g.playPos c).canWinInNextMove = false := by
  have h0 : ∀ c2, nlmContains 0 c2 = false := by
    intro c2
    unfold nlmContains
    simp
  by_cases hF2 : 2 ≤ popcount (winningPositions g.last &&& possible g.both)
  · rw [nlm_mask_A hF2]
    apply iff_of_false
    · rw [h0 c]
      exact Bool.false_ne_true
    · rintro ⟨hleg, hcw⟩
      obtain ⟨x1, x2, hne, hb1, hb2⟩ := popcount_two_exists hF2
      obtain ⟨c1, hc1, hh1, hx1, hT1⟩ := (forced_bit_iff hV x1).1 hb1
      obtain ⟨c2, hc2, hh2, hx2, hT2⟩ := (forced_bit_iff hV x2).1 hb2
      have hcc : c1 ≠ c2 := by
        rintro rfl
        exact hne (by omega)
      obtain ⟨hother, -⟩ := (canWin_child_iff hV hc hleg).1 hcw
      by_cases he1 : c1 = c
      · have hne2 : c2 ≠ c := by omega
        have hfb := hother c2 hc2 hne2 hh2
        rw [← hx2] at hfb
        rw [hfb] at hT2
        exact Bool.noConfusion hT2
      · have hfb := hother c1 hc1 he1 hh1
        rw [← hx1] at hfb
        rw [hfb] at hT1
        exact Bool.noConfusion hT1
  · by_cases hF1 : popcount (winningPositions g.last &&& possible g.both) = 1
    · obtain ⟨f, hf64, hE, hbf⟩ := popcount_one_pow forced_lt hF1
      obtain ⟨cf, hcf, hhf, hxf, hTf⟩ := (forced_bit_iff hV f).1 hbf
      by_cases hup : (((winningPositions g.last &&& possible g.both) <<< 1) &&&
          winningPositions g.last != 0) = true
      · rw [nlm_mask_B1 hF2 hF1 hup]
        have hTf1 : (winningPositions g.last).testBit (f + 1) = true := (up_iff hE).1 hup
        apply iff_of_false
        · rw [h0 c]
          exact Bool.false_ne_true
        · rintro ⟨hleg, hcw⟩
          obtain ⟨hother, hown⟩ := (canWin_child_iff hV hc hleg).1 hcw
          by_cases he : c = cf
          · subst he
            have hmod := wp_bit_full hTf1
            have hh1 : colHeight g.both c + 1 < 6 := by omega
            have hfb := hown hh1
            rw [show 7 * c + (colHeight g.both c + 1) = f + 1 by omega] at hfb
            rw [hfb] at hTf1
            exact Bool.noConfusion hTf1
          · have hfb := hother cf hcf (fun he2 => he he2.symm) hhf
            rw [← hxf] at hfb
            rw [hfb] at hTf
            exact Bool.noConfusion hTf
      · rw [nlm_mask_B2 hF2 hF1 hup]
        have hTf1 : (winningPositions g.last).testBit (f + 1) = false := by
          cases hb : (winningPositions g.last).testBit (f + 1)
          · rfl
          · exact absurd ((up_iff hE).2 hb) hup
        constructor
        · intro hcont
          obtain ⟨x, hbx, hxc1, hxc2⟩ := (nlmContains_iff_exists _ c).1 hcont
          rw [hE, Nat.testBit_two_pow] at hbx
          have hxef : f = x := of_decide_eq_true hbx
          have hccf : c = cf := by omega
          subst hccf
          have hleg := (isLegalMove_iff hV hc).2 hhf
          refine ⟨hleg, ?_⟩
          apply (canWin_child_iff hV hc hleg).2
          constructor
          · intro c2 hc2 hne hh2
            cases hb : (winningPositions g.last).testBit (7 * c2 + colHeight g.both c2)
            · rfl
            · exfalso
              have hbF : (winningPositions g.last &&& possible g.both).testBit
                  (7 * c2 + colHeight g.both c2) = true :=
                (forced_bit_iff hV _).2 ⟨c2, hc2, hh2, rfl, hb⟩
              rw [hE, Nat.testBit_two_pow] at hbF
              have hfe : f = 7 * c2 + colHeight g.both c2 := of_decide_eq_true hbF
              have hle6 : colHeight g.both c2 < 6 := hh2
              exact hne (by omega)
          · intro hh1
            rw [show 7 * c + (colHeight g.both c + 1) = f + 1 by omega]
            exact hTf1
        · rintro ⟨hleg, hcw⟩
          obtain ⟨hother, hown⟩ := (canWin_child_iff hV hc hleg).1 hcw
          have hccf : c = cf := by
            by_contra hne
            have hfb := hother cf hcf (fun he2 => hne he2.symm) hhf
            rw [← hxf] at hfb
            rw [hfb] at hTf
            exact Bool.noConfusion hTf
          subst hccf
          apply (nlmContains_iff_exists _ c).2
          refine ⟨f, ?_, by omega, by omega⟩
          rw [hE, Nat.testBit_two_pow]
          exact decide_eq_true rfl
    · have hF0 := forced_eq_zero hF2 hF1
      rw [nlm_mask_C hF2 hF1]
      constructor
      · intro hcont
        obtain ⟨x, hbx, hxc1, hxc2⟩ := (nlmContains_iff_exists _ c).1 hcont
        rw [testBit_eraseBits, Bool.and_eq_true] at hbx
        obtain ⟨hbL, hbNT⟩ := hbx
        obtain ⟨c2, hc2, hh2, hxe⟩ := (testBit_possible_iff hV.1 x).1 hbL
        have hc2c : c2 = c := by omega
        subst hc2c
        have hleg := (isLegalMove_iff hV hc2).2 hh2
        refine ⟨hleg, ?_⟩
        apply (canWin_child_iff hV hc2 hleg).2
        constructor
        · intro c3 hc3 hne hh3
          cases hb : (winningPositions g.last).testBit (7 * c3 + colHeight g.both c3)
          · rfl
          · exfalso
            have hbF : (winningPositions g.last &&& possible g.both).testBit
                (7 * c3 + colHeight g.both c3) = true :=
              (forced_bit_iff hV _).2 ⟨c3, hc3, hh3, rfl, hb⟩
            rw [hF0, Nat.zero_testBit] at hbF
            exact Bool.noConfusion hbF
        · intro hh1
          rw [Bool.not_eq_true'] at hbNT
          rw [hxe] at hbNT
          rw [Nat.testBit_shiftRight] at hbNT
          rw [show 7 * c2 + (colHeight g.both c2 + 1) =
            1 + (7 * c2 + colHeight g.both c2) by omega]
          exact hbNT
      · rintro ⟨hleg, hcw⟩
        obtain ⟨-, hown⟩ := (canWin_child_iff hV hc hleg).1 hcw
        have hh := (isLegalMove_iff hV hc).1 hleg
        apply (nlmContains_iff_exists _ c).2
        refine ⟨7 * c + colHeight g.both c, ?_, by omega, by omega⟩
        rw [testBit_eraseBits]
        have hbL : (possible g.both).testBit (7 * c + colHeight g.both c) = true :=
          (testBit_possible_iff hV.1 _).2 ⟨c, hc, hh, rfl⟩
        rw [hbL, Bool.true_and, Bool.not_eq_true', Nat.testBit_shiftRight]
        by_cases hh1 : colHeight g.both c + 1 < 6
        · have hfb := hown hh1
          rw [show 1 + (7 * c + colHeight g.both c) =
            7 * c + (colHeight g.both c + 1) by omega]
          exact hfb
        · cases hb : (winningPositions g.last).testBit (1 + (7 * c + colHeight g.both c))
          · rfl
          · exfalso
            have hmod := wp_bit_full hb
            omega

/-- C5: for every valid position in which the side to move cannot win at
once, `nonLoosingMoves` yields exactly the legal columns whose resulting
position does not allow the opponent an immediate winning reply. -/
theorem claim_C5 {g : Game} (hV : Valid g) (hncw : g.canWinInNextMove = false)
    (c : Nat) :
    c ∈ g.nonLoosingMoves ↔
      c < 7 ∧ g.isLegalMove c = true ∧ (g.playPos c).canWinInNextMove = false := by
  clear hncw
  unfold Game.nonLoosingMoves
  rw [List.mem_filter, List.mem_range]
  constructor
  · rintro ⟨hc, hcont⟩
    obtain ⟨h1, h2⟩ := (nlm_contains_iff hV hc).1 hcont
    exact ⟨hc, h1, h2⟩
  · rintro ⟨hc, hleg, hcw⟩
    exact ⟨hc, (nlm_contains_iff hV hc).2 ⟨hleg, hcw⟩⟩

/-- Witness for C5 at the spec example "123242" with column 1. -/
theorem claim_C5_witness :
    Valid g5 ∧ g5.canWinInNextMove = false ∧
      ((1 : Nat) ∈ g5.nonLoosingMoves ↔
        1 < 7 ∧ g5.isLegalMove 1 = true ∧
          (g5.playPos 1).canWinInNextMove = false) :=
  ⟨by decide, by decide, claim_C5 (by decide) (by decide) 1⟩

theorem entryBoard_new (k : Nat) (s : Int) (hk : k < 2 ^ 56) :
    entryBoard (entryNew k s) = k := by
  unfold entryBoard entryNew
  have ht : (0 : Int) ≤ s % 256 := Int.emod_nonneg s (by norm_num)
  have ht2 : s % 256 < 256 := Int.emod_lt_of_pos s (by norm_num)
  omega

theorem entryScore_new (k : Nat) (s : Int) (hs1 : -128 ≤ s) (hs2 : s < 128) :
    entryScore (entryNew k s) = s := by
  simp only [entryScore, entryNew]
  have ht : (0 : Int) ≤ s % 256 := Int.emod_nonneg s (by norm_num)
  have ht2 : s % 256 < 256 := Int.emod_lt_of_pos s (by norm_num)
  have h1 : (s % 256).toNat < 256 := by omega
  have h2 : (k % 2 ^ 56 + 2 ^ 56 * (s % 256).toNat) / 2 ^ 56 = (s % 256).toNat := by
    omega
  rw [h2, Nat.mod_eq_of_lt h1]
  split
  · omega
  · omega

theorem flip_landing {g : Game} (hV : Valid g) {c : Nat} (hc : c < 7)
    (hleg : g.isLegalMove c = true) :
    flipMask g.last (g.both + 2 ^ landingBit g c) = g.me ||| 2 ^ landingBit g c := by
  have hfree : g.both.testBit (landingBit g c) = false := by
    have hh : colHeight g.both c < 6 := (isLegalMove_iff hV hc).1 hleg
    rw [landingBit, testBit_of_valid hV.1 hc (show colHeight g.both c < 7 by omega)]
    simp
  have hlastfree : g.last.testBit (landingBit g c) = false := by
    cases hl : g.last.testBit (landingBit g c)
    · rfl
    · have hx := testBit_eq_true_of_and_eq hV.2 hl
      rw [hfree] at hx
      exact Bool.noConfusion hx
  rw [add_two_pow_of_testBit_false hfree]
  simp only [Game.me, flipMask]
  apply Nat.eq_of_testBit_eq
  intro i
  rw [Nat.testBit_xor, Nat.testBit_or, Nat.testBit_or, Nat.testBit_xor,
    Nat.testBit_two_pow]
  by_cases hij : landingBit g c = i
  · subst hij
    rw [hfree, hlastfree]
    simp
  · rw [decide_eq_false hij]
    simp

/-- C6 (amended): the stored partial key is the FULL lower 56 bits
`k mod 2 ^ 56` (equal to `k` for 49-bit keys), not `k mod 2 ^ 32`; `put`
writes to the slot at index `k mod N`, and `get` returns `Some` of the
stored score iff the stored key of that slot equals the queried key under
the full 56-bit comparison. -/
theorem claim_C6 (t : Table) (k : Nat) (s : Int) (hk : k < 2 ^ 56) :
    entryBoard ((t.put k s).data (k % t.capacity)) = k ∧
      (∀ k2 : Nat,
        t.get k2 =
          if entryBoard (t.data (k2 % t.capacity)) = k2 then
            some (entryScore (t.data (k2 % t.capacity)))
          else none) := by
  constructor
  · show entryBoard (if k % t.capacity = t.index k then entryNew k s
      else t.data (k % t.capacity)) = k
    rw [if_pos (show k % t.capacity = t.index k from rfl)]
    exact entryBoard_new k s hk
  · intro k2
    rfl

/-- Witness for the amended C6 on a concrete table and key. -/
theorem claim_C6_witness :
    (3 : Nat) < 2 ^ 56 ∧
      (entryBoard (((Table.new 7).put 3 5).data (3 % (Table.new 7).capacity)) = 3 ∧
        (∀ k2 : Nat,
          (Table.new 7).get k2 =
            if entryBoard ((Table.new 7).data (k2 % (Table.new 7).capacity)) = k2 then
              some (entryScore ((Table.new 7).data (k2 % (Table.new 7).capacity)))
            else none)) :=
  ⟨by decide, claim_C6 (Table.new 7) 3 5 (by decide)⟩

/-- Counterexample to C6 as stated: the keys `3` and `3 + 7 * 2 ^ 32` agree
modulo `2 ^ 32` (and modulo the capacity 7), so under the claimed 32-bit
partial-key comparison `get` would hit, yet the code returns `none`. -/
theorem claim_C6_counterexample :
    ((Table.new 7).put 3 5).get (3 + 7 * 2 ^ 32) = none ∧
      (3 + 7 * 2 ^ 32) % 2 ^ 32 = 3 % 2 ^ 32 ∧
      (3 + 7 * 2 ^ 32) % 7 = 3 % 7 ∧
      3 + 7 * 2 ^ 32 < 2 ^ 49 ∧
      ((Table.new 7).put 3 5).get 3 = some 5 := by
  refine ⟨?_, by decide, by decide, by decide, ?_⟩
  · decide
  · decide

/-- C7: on a fresh table of any positive capacity, after `put k s` the query
`get k` returns `some s`, and `get k2` returns `none` for every 49-bit key
`k2` whose low 32 bits differ from those of `k`, whether or not `k2` maps to
the same slot. -/
theorem claim_C7 (N k k2 : Nat) (s : Int) (hN : 0 < N) (hk : k < 2 ^ 49)
    (hk2 : k2 < 2 ^ 49) (hs1 : -128 ≤ s) (hs2 : s < 128)
    (hne : k2 % 2 ^ 32 ≠ k % 2 ^ 32) :
    ((Table.new N).put k s).get k = some s ∧
      ((Table.new N).put k s).get k2 = none := by
  have hkk2 : k2 ≠ k := fun he => hne (by rw [he])
  have hb : entryBoard (entryNew k s) = k := entryBoard_new k s (by omega)
  constructor
  · show (if entryBoard (((Table.new N).put k s).data
        (((Table.new N).put k s).index k)) = k then
      some (entryScore (((Table.new N).put k s).data
        (((Table.new N).put k s).index k))) else none) = some s
    have hdata : ((Table.new N).put k s).data (((Table.new N).put k s).index k) =
        entryNew k s := by
      show (if k % N = k % N then entryNew k s else ENTRY_EMPTY) = entryNew k s
      rw [if_pos rfl]
    rw [hdata, hb, if_pos rfl, entryScore_new k s hs1 hs2]
  · show (if entryBoard (((Table.new N).put k s).data
        (((Table.new N).put k s).index k2)) = k2 then
      some (entryScore (((Table.new N).put k s).data
        (((Table.new N).put k s).index k2))) else none) = none
    have hemp : entryBoard ENTRY_EMPTY = 2 ^ 56 - 1 := by
      show entryBoard (entryNew ENTRY_MASK_BOARD 0) = 2 ^ 56 - 1
      rw [entryBoard_new _ _ (by norm_num [ENTRY_MASK_BOARD])]
      norm_num [ENTRY_MASK_BOARD]
    by_cases hslot : k2 % N = k % N
    · have hdata : ((Table.new N).put k s).data (((Table.new N).put k s).index k2) =
          entryNew k s := by
        show (if k2 % N = k % N then entryNew k s else ENTRY_EMPTY) = entryNew k s
        rw [if_pos hslot]
      rw [hdata, hb, if_neg (fun he => hkk2 he.symm)]
    · have hdata : ((Table.new N).put k s).data (((Table.new N).put k s).index k2) =
          ENTRY_EMPTY := by
        show (if k2 % N = k % N then entryNew k s else ENTRY_EMPTY) = ENTRY_EMPTY
        rw [if_neg hslot]
      rw [hdata, hemp, if_neg (by omega)]

/-- Witness for C7 on a fresh capacity-7 table with keys 3 and 4. -/
theorem claim_C7_witness :
    0 < 7 ∧ (3 : Nat) < 2 ^ 49 ∧ (4 : Nat) < 2 ^ 49 ∧ (-128 : Int) ≤ 5 ∧
      (5 : Int) < 128 ∧ (4 : Nat) % 2 ^ 32 ≠ 3 % 2 ^ 32 ∧
      (((Table.new 7).put 3 5).get 3 = some 5 ∧
        ((Table.new 7).put 3 5).get 4 = none) :=
  ⟨by decide, by decide, by decide, by decide, by decide, by decide,
    claim_C7 7 3 4 5 (by decide) (by decide) (by decide) (by decide) (by decide)
      (by decide)⟩

/-- C9: for every valid position and column below seven, `play` on a full
column returns `false` with the position unchanged; on a non-full column it
returns `true`, adds exactly the lowest clear bit of that column to the
occupancy mask, and flips the complement mask against the new occupancy. -/
theorem claim_C9 {g : Game} (hV : Valid g) {c : Nat} (hc : c < 7) :
    (g.isLegalMove c = false → g.play c = (false, g)) ∧
      (g.isLegalMove c = true →
        g.both.testBit (landingBit g c) = false ∧
          (∀ j, 7 * c ≤ j → j < landingBit g c → g.both.testBit j = true) ∧
          g.play c =
            (true, Game.mk (flipMask g.last (g.both + 2 ^ landingBit g c))
              (g.both + 2 ^ landingBit g c))) := by
  constructor
  · exact play_not_legal
  · intro hleg
    have hh : colHeight g.both c < 6 := (isLegalMove_iff hV hc).1 hleg
    refine ⟨?_, ?_, ?_⟩
    · rw [landingBit, testBit_of_valid hV.1 hc (show colHeight g.both c < 7 by omega)]
      simp
    · intro j hj1 hj2
      rw [landingBit] at hj2
      have hje : j = 7 * c + (j - 7 * c) := by omega
      rw [hje, testBit_of_valid hV.1 hc (show j - 7 * c < 7 by omega)]
      exact decide_eq_true (by omega)
    · rw [flip_landing hV hc hleg]
      exact play_legal hV hc hleg

/-- Witness for C9 on the empty board with column 0. -/
theorem claim_C9_witness :
    Valid Game.new ∧ (0 : Nat) < 7 ∧
      ((Game.new.isLegalMove 0 = false → Game.new.play 0 = (false, Game.new)) ∧
        (Game.new.isLegalMove 0 = true →
          Game.new.both.testBit (landingBit Game.new 0) = false ∧
            (∀ j, 7 * 0 ≤ j → j < landingBit Game.new 0 →
              Game.new.both.testBit j = true) ∧
            Game.new.play 0 =
              (true, Game.mk
                (flipMask Game.new.last (Game.new.both + 2 ^ landingBit Game.new 0))
                (Game.new.both + 2 ^ landingBit Game.new 0)))) :=
  ⟨by decide, by decide, claim_C9 (by decide) (by decide)⟩

/-- C10: playing a non-full column of a position that is already won still
returns `true` and inserts a stone; nothing in `play` checks `isVictory`. -/
theorem claim_C10 {g : Game} (hV : Valid g) (hvic : g.isVictory = true) {c : Nat}
    (hc : c < 7) (hleg : g.isLegalMove c = true) :
    g.playBool c = true ∧
      (g.playPos c).both = g.both + 2 ^ landingBit g c ∧
      (g.playPos c).stones = g.stones + 1 := by
  clear hvic
  exact ⟨playBool_of_legal hleg, playPos_both hV hc hleg, playPos_stones hV hc hleg⟩

/-- Witness for C10 on the won position `g10` with column 0. -/
theorem claim_C10_witness :
    Valid g10 ∧ g10.isVictory = true ∧ (0 : Nat) < 7 ∧
      g10.isLegalMove 0 = true ∧
      (g10.playBool 0 = true ∧
        (g10.playPos 0).both = g10.both + 2 ^ landingBit g10 0 ∧
        (g10.playPos 0).stones = g10.stones + 1) :=
  ⟨by decide, by decide, by decide, by decide,
    claim_C10 (by decide) (by decide) (by decide) (by decide)⟩

/-! ### Score arithmetic -/

theorem tdiv_two_eq (a : Int) : a.tdiv 2 = if 0 ≤ a then a / 2 else -(-a / 2) := by
  split
  · exact Int.tdiv_eq_ediv (by assumption) (by norm_num)
  · have h1 : a.tdiv 2 = (-(-a)).tdiv 2 := by rw [Int.neg_neg]
    rw [h1, Int.neg_tdiv, Int.tdiv_eq_ediv (by omega) (by norm_num)]

theorem sFNS_eq (x : Int) : scoreFromNumStones x =
    -((if 0 ≤ 42 - x then (42 - x) / 2 else -(-(42 - x) / 2)) + 1) := by
  unfold scoreFromNumStones
  rw [tdiv_two_eq]

theorem sFNS_mono {x y : Int} (h : x ≤ y) :
    scoreFromNumStones x ≤ scoreFromNumStones y := by
  rw [sFNS_eq, sFNS_eq]
  split <;> split <;> omega

theorem sFNS_le_neg_one {x : Int} (h : x ≤ 42) : scoreFromNumStones x ≤ -1 := by
  rw [sFNS_eq]
  split <;> omega

theorem sFNS_nonpos {x : Int} (h : x ≤ 44) : scoreFromNumStones x ≤ 0 := by
  rw [sFNS_eq]
  split <;> omega

theorem sFNS_forty_four : scoreFromNumStones 44 = 0 := by decide

theorem sFNS_forty_two : scoreFromNumStones 42 = -1 := by decide

/-! ### Minimum of a score list -/

theorem listMin_le_init (a : Int) (l : List Int) : listMin a l ≤ a := by
  induction l generalizing a with
  | nil => exact le_refl a
  | cons x xs ih =>
    have h1 : listMin a (x :: xs) = listMin (min a x) xs := rfl
    rw [h1]
    exact le_trans (ih (min a x)) (min_le_left a x)

theorem listMin_le_mem {x : Int} {l : List Int} (h : x ∈ l) (a : Int) :
    listMin a l ≤ x := by
  induction l generalizing a with
  | nil => exact absurd h (List.not_mem_nil x)
  | cons y ys ih =>
    have h1 : listMin a (y :: ys) = listMin (min a y) ys := rfl
    rw [h1]
    rcases List.mem_cons.1 h with he | hm
    · subst he
      exact le_trans (listMin_le_init _ ys) (min_le_right a x)
    · exact ih hm (min a y)

theorem le_listMin {b a : Int} {l : List Int} (ha : b ≤ a) (h : ∀ x ∈ l, b ≤ x) :
    b ≤ listMin a l := by
  induction l generalizing a with
  | nil => exact ha
  | cons y ys ih =>
    have h1 : listMin a (y :: ys) = listMin (min a y) ys := rfl
    rw [h1]
    exact ih (le_min ha (h y (List.mem_cons_self y ys))) fun x hx =>
      h x (List.mem_cons_of_mem y hx)

theorem listMin_eq_init_or_mem (a : Int) (l : List Int) :
    listMin a l = a ∨ listMin a l ∈ l := by
  induction l generalizing a with
  | nil => exact Or.inl rfl
  | cons y ys ih =>
    have h1 : listMin a (y :: ys) = listMin (min a y) ys := rfl
    rw [h1]
    rcases ih (min a y) with he | hm
    · rcases le_total a y with hay | hya
      · rw [min_eq_left hay] at he ⊢
        exact Or.inl he
      · rw [min_eq_right hya] at he ⊢
        rw [he]
        exact Or.inr (List.mem_cons_self y ys)
    · exact Or.inr (List.mem_cons_of_mem y hm)

/-! ### The reference score: fuel invariance and the negamax step -/

theorem trueScore_fuel_eq (f1 : Nat) : ∀ (g : Game) (f2 : Nat), Valid g →
    43 - g.stones ≤ f1 → 43 - g.stones ≤ f2 → trueScore f1 g = trueScore f2 g := by
  induction f1 with
  | zero =>
    intro g f2 hV h1 h2
    have := stones_le_42 hV
    omega
  | succ k ih =>
    intro g f2 hV h1 h2
    have hs42 := stones_le_42 hV
    cases f2 with
    | zero => omega
    | succ m =>
      simp only [trueScore]
      by_cases hvic : g.isVictory = true
      · rw [if_pos hvic, if_pos hvic]
      · rw [Bool.not_eq_true] at hvic
        have hnv : ¬(g.isVictory = true) := by rw [hvic]; exact Bool.false_ne_true
        rw [if_neg hnv, if_neg hnv]
        by_cases hs : 42 ≤ g.stones
        · rw [if_pos hs, if_pos hs]
        · rw [if_neg hs, if_neg hs]
          have hmap : g.legalMoves.map (fun c => trueScore k (g.playPos c)) =
              g.legalMoves.map (fun c => trueScore m (g.playPos c)) := by
            apply List.map_congr_left
            intro c hcmem
            obtain ⟨hc7, hcleg⟩ := mem_legalMoves.1 hcmem
            have hVq := playPos_valid hV hc7 hcleg
            have hsq := playPos_stones hV hc7 hcleg
            exact ih (g.playPos c) m hVq (by omega) (by omega)
          rw [hmap]

theorem tScore_victory {g : Game} (hV : Valid g) (hvic : g.isVictory = true) :
    tScore g = scoreFromNumStones (g.stones : Int) := by
  have hs42 := stones_le_42 hV
  have h1 : 43 - g.stones = (42 - g.stones) + 1 := by omega
  unfold tScore
  rw [h1]
  simp only [trueScore]
  rw [if_pos hvic]

theorem tScore_draw {g : Game} (hV : Valid g) (hvic : g.isVictory = false)
    (hs : g.stones = 42) : tScore g = 0 := by
  have h1 : 43 - g.stones = 0 + 1 := by omega
  unfold tScore
  rw [h1]
  simp only [trueScore]
  have hnv : ¬(g.isVictory = true) := by rw [hvic]; exact Bool.false_ne_true
  rw [if_neg hnv, if_pos (by omega : 42 ≤ g.stones)]

theorem tScore_unfold {g : Game} (hV : Valid g) (hvic : g.isVictory = false)
    (hs : g.stones < 42) :
    ∃ v vs, g.legalMoves.map (fun c => tScore (g.playPos c)) = v :: vs ∧
      tScore g = -(listMin v vs) := by
  have h1 : 43 - g.stones = (42 - g.stones) + 1 := by omega
  have hmap : g.legalMoves.map (fun c => trueScore (42 - g.stones) (g.playPos c)) =
      g.legalMoves.map (fun c => tScore (g.playPos c)) := by
    apply List.map_congr_left
    intro c hcmem
    obtain ⟨hc7, hcleg⟩ := mem_legalMoves.1 hcmem
    have hVq := playPos_valid hV hc7 hcleg
    have hsq := playPos_stones hV hc7 hcleg
    exact trueScore_fuel_eq (42 - g.stones) (g.playPos c) (43 - (g.playPos c).stones)
      hVq (by omega) (by omega)
  have hrec : tScore g =
      (match g.legalMoves.map (fun c => tScore (g.playPos c)) with
        | [] => (0 : Int)
        | v :: vs => -(listMin v vs)) := by
    unfold tScore
    rw [h1]
    simp only [trueScore]
    have hnv : ¬(g.isVictory = true) := by rw [hvic]; exact Bool.false_ne_true
    rw [if_neg hnv, if_neg (by omega : ¬42 ≤ g.stones), hmap]
    rfl
  obtain ⟨c, hc7, hleg⟩ := exists_legal_of_stones_lt hV hs
  have hmem : c ∈ g.legalMoves := mem_legalMoves.2 ⟨hc7, hleg⟩
  cases hl : g.legalMoves.map (fun c => tScore (g.playPos c)) with
  | nil =>
    rw [List.map_eq_nil_iff] at hl
    rw [hl] at hmem
    exact absurd hmem (List.not_mem_nil c)
  | cons v vs =>
    refine ⟨v, vs, rfl, ?_⟩
    rw [hrec, hl]

theorem neg_tScore_child_le {g : Game} (hV : Valid g) (hvic : g.isVictory = false)
    {c : Nat} (hc : c < 7) (hleg : g.isLegalMove c = true) :
    -(tScore (g.playPos c)) ≤ tScore g := by
  have hs : g.stones < 42 := stones_lt_42 hV hc hleg
  obtain ⟨v, vs, hmap, heq⟩ := tScore_unfold hV hvic hs
  rw [heq]
  have hmem : tScore (g.playPos c) ∈ v :: vs := by
    rw [← hmap]
    exact List.mem_map_of_mem _ (mem_legalMoves.2 ⟨hc, hleg⟩)
  have hle : listMin v vs ≤ tScore (g.playPos c) := by
    rcases List.mem_cons.1 hmem with he | hm
    · rw [← he]
      exact listMin_le_init _ _
    · exact listMin_le_mem hm v
  omega

theorem tScore_eq_some_child {g : Game} (hV : Valid g) (hvic : g.isVictory = false)
    (hs : g.stones < 42) :
    ∃ c, c < 7 ∧ g.isLegalMove c = true ∧ tScore g = -(tScore (g.playPos c)) := by
  obtain ⟨v, vs, hmap, heq⟩ := tScore_unfold hV hvic hs
  have hmem : listMin v vs ∈ v :: vs := by
    rcases listMin_eq_init_or_mem v vs with he | hm
    · rw [he]
      exact List.mem_cons_self v vs
    · exact List.mem_cons_of_mem v hm
  rw [← hmap] at hmem
  obtain ⟨c, hcmem, hce⟩ := List.mem_map.1 hmem
  obtain ⟨hc7, hcleg⟩ := mem_legalMoves.1 hcmem
  exact ⟨c, hc7, hcleg, by rw [heq, hce]⟩

theorem tScore_le_of_children {g : Game} (hV : Valid g) (hvic : g.isVictory = false)
    (hs : g.stones < 42) {b : Int}
    (h : ∀ c, c < 7 → g.isLegalMove c = true → b ≤ tScore (g.playPos c)) :
    tScore g ≤ -b := by
  obtain ⟨v, vs, hmap, heq⟩ := tScore_unfold hV hvic hs
  rw [heq]
  have hble : b ≤ listMin v vs := by
    have hall : ∀ x ∈ v :: vs, b ≤ x := by
      intro x hx
      rw [← hmap] at hx
      obtain ⟨c, hcmem, hce⟩ := List.mem_map.1 hx
      obtain ⟨hc7, hcleg⟩ := mem_legalMoves.1 hcmem
      rw [← hce]
      exact h c hc7 hcleg
    exact le_listMin (hall v (List.mem_cons_self v vs))
      fun x hx => hall x (List.mem_cons_of_mem v hx)
  omega

/-! ### Bounds on the reference score -/

theorem tScore_bounds (n : Nat) : ∀ g : Game, Valid g → 43 - g.stones ≤ n →
    scoreFromNumStones (g.stones : Int) ≤ tScore g ∧
      tScore g ≤ -(scoreFromNumStones ((g.stones : Int) + 1)) := by
  induction n with
  | zero =>
    intro g hV hn
    have := stones_le_42 hV
    omega
  | succ k ih =>
    intro g hV hn
    have hs42 := stones_le_42 hV
    by_cases hvic : g.isVictory = true
    · rw [tScore_victory hV hvic]
      refine ⟨le_refl _, ?_⟩
      have h1 : scoreFromNumStones ((g.stones : Int)) ≤ -1 :=
        sFNS_le_neg_one (by omega)
      have h2 : scoreFromNumStones ((g.stones : Int) + 1) ≤ 0 :=
        sFNS_nonpos (by omega)
      omega
    · rw [Bool.not_eq_true] at hvic
      by_cases hs : g.stones = 42
      · rw [tScore_draw hV hvic hs, hs]
        constructor
        · rw [show ((42 : Nat) : Int) = (42 : Int) from rfl]
          have := sFNS_le_neg_one (le_refl (42 : Int))
          omega
        · rw [show ((42 : Nat) : Int) + 1 = (43 : Int) from rfl]
          have := sFNS_nonpos (show (43 : Int) ≤ 44 by omega)
          omega
      · have hslt : g.stones < 42 := by omega
        obtain ⟨c0, hc0, hleg0, heq⟩ := tScore_eq_some_child hV hvic hslt
        have hVq := playPos_valid hV hc0 hleg0
        have hsq := playPos_stones hV hc0 hleg0
        have hch := ih (g.playPos c0) hVq (by omega)
        rw [hsq] at hch
        rw [heq]
        push_cast at hch ⊢
        constructor
        · have h3 : scoreFromNumStones ((g.stones : Int)) ≤
              scoreFromNumStones ((g.stones : Int) + 1 + 1) := sFNS_mono (by omega)
          omega
        · omega

theorem tScore_le_zero_42 {g : Game} (hV : Valid g) (hs : g.stones = 42) :
    tScore g ≤ 0 := by
  by_cases hvic : g.isVictory = true
  · rw [tScore_victory hV hvic, hs]
    exact sFNS_nonpos (by omega)
  · rw [Bool.not_eq_true] at hvic
    rw [tScore_draw hV hvic hs]

theorem tScore_lower_notVic {g : Game} (hV : Valid g) (hvic : g.isVictory = false) :
    scoreFromNumStones ((g.stones : Int) + 2) ≤ tScore g := by
  have hs42 := stones_le_42 hV
  by_cases hs : g.stones = 42
  · rw [tScore_draw hV hvic hs, hs]
    rw [show ((42 : Nat) : Int) + 2 = (44 : Int) from rfl, sFNS_forty_four]
  · have hslt : g.stones < 42 := by omega
    obtain ⟨c0, hc0, hleg0, heq⟩ := tScore_eq_some_child hV hvic hslt
    have hVq := playPos_valid hV hc0 hleg0
    have hsq := playPos_stones hV hc0 hleg0
    have hch := (tScore_bounds (43 - (g.playPos c0).stones) (g.playPos c0) hVq
      (le_refl _)).2
    rw [hsq] at hch
    push_cast at hch
    rw [show (g.stones : Int) + 1 + 1 = (g.stones : Int) + 2 by ring] at hch
    rw [heq]
    omega

theorem tScore_canWin {g : Game} (hV : Valid g) (hme : isWin g.me = false)
    (hvic : g.isVictory = false) (hcw : g.canWinInNextMove = true) :
    tScore g = -(scoreFromNumStones ((g.stones : Int) + 1)) := by
  obtain ⟨c, hc, hleg, hwin⟩ := (canWin_iff hV hme).1 hcw
  have hVq := playPos_valid hV hc hleg
  have hsq := playPos_stones hV hc hleg
  have hchild : tScore (g.playPos c) = scoreFromNumStones ((g.stones : Int) + 1) := by
    rw [tScore_victory hVq hwin, hsq]
    push_cast
    rfl
  have hlow : -(scoreFromNumStones ((g.stones : Int) + 1)) ≤ tScore g := by
    have := neg_tScore_child_le hV hvic hc hleg
    rw [hchild] at this
    exact this
  have hup := (tScore_bounds (43 - g.stones) g hV (le_refl _)).2
  omega

theorem tScore_notCanWin_upper {g : Game} (hL : Live g)
    (hcw : g.canWinInNextMove = false) (hs : g.stones < 42) :
    tScore g ≤ -(scoreFromNumStones ((g.stones : Int) + 3)) := by
  obtain ⟨hV, hlast, hme⟩ := hL
  have hvic : g.isVictory = false := hlast
  obtain ⟨c0, hc0, hleg0, heq⟩ := tScore_eq_some_child hV hvic hs
  have hVq := playPos_valid hV hc0 hleg0
  have hsq := playPos_stones hV hc0 hleg0
  have hnv : (g.playPos c0).isVictory = false :=
    playPos_not_victory hV hme hcw hc0 hleg0
  have hch := tScore_lower_notVic hVq hnv
  rw [hsq] at hch
  push_cast at hch
  rw [show (g.stones : Int) + 1 + 2 = (g.stones : Int) + 3 by ring] at hch
  rw [heq]
  omega

/-! ### Structure of the non-losing-move mask -/

theorem mask_subset_possible (g : Game) :
    nonLoosingMovesMask g &&& possible g.both = nonLoosingMovesMask g := by
  by_cases hA : 2 ≤ popcount (winningPositions g.last &&& possible g.both)
  · rw [nlm_mask_A hA, Nat.zero_and]
  · by_cases hB : popcount (winningPositions g.last &&& possible g.both) = 1
    · by_cases hup : ((((winningPositions g.last &&& possible g.both) <<< 1) &&&
          winningPositions g.last != 0) = true)
      · rw [nlm_mask_B1 hA hB hup, Nat.zero_and]
      · rw [nlm_mask_B2 hA hB hup, Nat.and_assoc, Nat.and_self]
    · rw [nlm_mask_C hA hB]
      apply Nat.eq_of_testBit_eq
      intro i
      rw [Nat.testBit_and, testBit_eraseBits]
      cases hL : (possible g.both).testBit i <;>
        cases hw : (winningPositions g.last >>> 1).testBit i <;> rfl

theorem mask_ne_exists {g : Game} (hV : Valid g)
    (hmask : nonLoosingMovesMask g ≠ 0) :
    ∃ c, c < 7 ∧ g.isLegalMove c = true ∧
      (g.playPos c).canWinInNextMove = false := by
  obtain ⟨x, hx⟩ := Nat.ne_zero_implies_bit_true hmask
  have hposs : (possible g.both).testBit x = true :=
    testBit_eq_true_of_and_eq (mask_subset_possible g) hx
  obtain ⟨c, hc, hh, hxe⟩ := (testBit_possible_iff hV.1 x).1 hposs
  have hcont : nlmContains (nonLoosingMovesMask g) c = true :=
    (nlmContains_iff_exists _ c).2 ⟨x, hx, by omega, by omega⟩
  obtain ⟨hleg, hcw⟩ := (nlm_contains_iff hV hc).1 hcont
  exact ⟨c, hc, hleg, hcw⟩

theorem tScore_mask_ne_lower {g : Game} (hL : Live g)
    (hcw : g.canWinInNextMove = false) (hmask : nonLoosingMovesMask g ≠ 0)
    (hs : g.stones < 41) :
    scoreFromNumStones ((g.stones : Int) + 4) ≤ tScore g := by
  obtain ⟨hV, hlast, hme⟩ := hL
  obtain ⟨c, hc, hleg, hqcw⟩ := mask_ne_exists hV hmask
  have hLq : Live (g.playPos c) := playPos_live ⟨hV, hlast, hme⟩ hcw hc hleg
  have hsq := playPos_stones hV hc hleg
  have hch := tScore_notCanWin_upper hLq hqcw (by omega)
  rw [hsq] at hch
  push_cast at hch
  rw [show (g.stones : Int) + 1 + 3 = (g.stones : Int) + 4 by ring] at hch
  have := neg_tScore_child_le hV hlast hc hleg
  omega

/-! ### A position with 41 stones always keeps a non-losing move -/

theorem popcount_le_forty {b x1 x2 : Nat} (hV : ValidBoth b) (hne : x1 ≠ x2)
    (h1p : (63 * BOTTOM).testBit x1 = true) (h2p : (63 * BOTTOM).testBit x2 = true)
    (h1 : b.testBit x1 = false) (h2 : b.testBit x2 = false) : popcount b ≤ 40 := by
  have h1c : x1 < 49 := by
    rw [testBit_playfield, Bool.and_eq_true, decide_eq_true_eq, decide_eq_true_eq] at h1p
    exact h1p.1
  have h2c : x2 < 49 := by
    rw [testBit_playfield, Bool.and_eq_true, decide_eq_true_eq, decide_eq_true_eq] at h2p
    exact h2p.1
  have hsub : b &&& eraseBits (63 * BOTTOM) (2 ^ x1 ||| 2 ^ x2) = b := by
    apply Nat.eq_of_testBit_eq
    intro i
    rw [Nat.testBit_and, testBit_eraseBits, Nat.testBit_or, Nat.testBit_two_pow,
      Nat.testBit_two_pow]
    cases hbi : b.testBit i
    · simp
    · have hPi : (63 * BOTTOM).testBit i = true :=
        testBit_eq_true_of_and_eq hV.and_playfield hbi
      have hne1 : x1 ≠ i := fun he => by rw [← he, h1] at hbi; exact Bool.noConfusion hbi
      have hne2 : x2 ≠ i := fun he => by rw [← he, h2] at hbi; exact Bool.noConfusion hbi
      rw [hPi, decide_eq_false hne1, decide_eq_false hne2]
      rfl
  have hb1 : (eraseBits (63 * BOTTOM) (2 ^ x1 ||| 2 ^ x2)).testBit x1 = false := by
    rw [testBit_eraseBits, Nat.testBit_or, Nat.testBit_two_pow, decide_eq_true rfl]
    simp
  have hb2 : (eraseBits (63 * BOTTOM) (2 ^ x1 ||| 2 ^ x2) ||| 2 ^ x1).testBit x2 = false := by
    rw [Nat.testBit_or, testBit_eraseBits, Nat.testBit_or, Nat.testBit_two_pow,
      Nat.testBit_two_pow, decide_eq_true rfl, decide_eq_false hne]
    simp
  have hPeq : eraseBits (63 * BOTTOM) (2 ^ x1 ||| 2 ^ x2) ||| 2 ^ x1 ||| 2 ^ x2 =
      63 * BOTTOM := by
    apply Nat.eq_of_testBit_eq
    intro i
    rw [Nat.testBit_or, Nat.testBit_or, testBit_eraseBits, Nat.testBit_or,
      Nat.testBit_two_pow, Nat.testBit_two_pow]
    by_cases he1 : x1 = i
    · rw [decide_eq_true he1, ← he1, h1p]
      simp
    · by_cases he2 : x2 = i
      · rw [decide_eq_true he2, ← he2, h2p]
        simp
      · rw [decide_eq_false he1, decide_eq_false he2]
        simp
  have hc1 : popcount (eraseBits (63 * BOTTOM) (2 ^ x1 ||| 2 ^ x2) ||| 2 ^ x1) =
      popcount (eraseBits (63 * BOTTOM) (2 ^ x1 ||| 2 ^ x2)) + 1 :=
    popcount_or_fresh (by omega) hb1
  have hc2 : popcount (eraseBits (63 * BOTTOM) (2 ^ x1 ||| 2 ^ x2) ||| 2 ^ x1 ||| 2 ^ x2) =
      popcount (eraseBits (63 * BOTTOM) (2 ^ x1 ||| 2 ^ x2) ||| 2 ^ x1) + 1 :=
    popcount_or_fresh (by omega) hb2
  have hP42 : popcount (63 * BOTTOM) = 42 := by decide
  have hle := popcount_le_of_subset hsub
  rw [hPeq] at hc2
  omega

theorem mask41_ne {g : Game} (hV : Valid g) (hs : g.stones = 41) :
    nonLoosingMovesMask g ≠ 0 := by
  obtain ⟨c, hc, hleg⟩ := exists_legal_of_stones_lt hV (by omega)
  have hh : colHeight g.both c < 6 := (isLegalMove_iff hV hc).1 hleg
  have hfree : ∀ r, colHeight g.both c ≤ r → r < 7 → g.both.testBit (7 * c + r) = false := by
    intro r hr1 hr2
    rw [testBit_of_valid hV.1 hc hr2]
    exact decide_eq_false (by omega)
  have hplay : ∀ r, r < 6 → (63 * BOTTOM).testBit (7 * c + r) = true := by
    intro r hr
    rw [testBit_playfield, decide_eq_true (by omega : 7 * c + r < 49),
      decide_eq_true (by omega : (7 * c + r) % 7 ≠ 6)]
    rfl
  have hh5 : colHeight g.both c = 5 := by
    by_contra hne5
    have hle4 : colHeight g.both c ≤ 4 := by omega
    have := popcount_le_forty hV.1
      (show 7 * c + colHeight g.both c ≠ 7 * c + (colHeight g.both c + 1) by omega)
      (hplay _ (by omega)) (hplay _ (by omega))
      (hfree _ (le_refl _) (by omega)) (hfree _ (by omega) (by omega))
    unfold Game.stones at hs
    omega
  have huniq : ∀ c2, c2 < 7 → c2 ≠ c → colHeight g.both c2 = 6 := by
    intro c2 hc2 hnec
    by_contra hne6
    have hle5 : colHeight g.both c2 < 6 :=
      lt_of_le_of_ne (hV.1.height_le hc2).1 hne6
    have hfree2 : g.both.testBit (7 * c2 + colHeight g.both c2) = false := by
      rw [testBit_of_valid hV.1 hc2 (by omega)]
      exact decide_eq_false (by omega)
    have hplay2 : (63 * BOTTOM).testBit (7 * c2 + colHeight g.both c2) = true := by
      rw [testBit_playfield, decide_eq_true (by omega : 7 * c2 + colHeight g.both c2 < 49),
        decide_eq_true (by omega : (7 * c2 + colHeight g.both c2) % 7 ≠ 6)]
      rfl
    have := popcount_le_forty hV.1
      (show 7 * c + colHeight g.both c ≠ 7 * c2 + colHeight g.both c2 by
        have h6 : colHeight g.both c2 < 7 := by omega
        omega)
      (hplay _ (by omega)) hplay2
      (hfree _ (le_refl _) (by omega)) hfree2
    unfold Game.stones at hs
    omega
  have hposs : possible g.both = 2 ^ (7 * c + 5) := by
    apply Nat.eq_of_testBit_eq
    intro i
    rw [Nat.testBit_two_pow]
    cases hpi : (possible g.both).testBit i
    · cases hd : decide (7 * c + 5 = i)
      · rfl
      · exfalso
        have hie : 7 * c + 5 = i := of_decide_eq_true hd
        have : (possible g.both).testBit i = true := by
          apply (testBit_possible_iff hV.1 i).2
          exact ⟨c, hc, by omega, by omega⟩
        rw [this] at hpi
        exact Bool.noConfusion hpi
    · obtain ⟨c2, hc2, hh2, hie⟩ := (testBit_possible_iff hV.1 i).1 hpi
      by_cases hec : c2 = c
      · subst hec
        rw [decide_eq_true (by omega : 7 * c2 + 5 = i)]
      · rw [huniq c2 hc2 hec] at hh2
        omega
  have hroof : (winningPositions g.last).testBit (7 * c + 5 + 1) = false := by
    cases hb : (winningPositions g.last).testBit (7 * c + 5 + 1)
    · rfl
    · exfalso
      have := wp_bit_full hb
      omega
  by_cases hT : (winningPositions g.last).testBit (7 * c + 5) = true
  · have hE : winningPositions g.last &&& possible g.both = 2 ^ (7 * c + 5) := by
      rw [hposs]
      apply Nat.eq_of_testBit_eq
      intro i
      rw [Nat.testBit_and, Nat.testBit_two_pow]
      by_cases he : 7 * c + 5 = i
      · rw [decide_eq_true he, ← he, hT]
        rfl
      · rw [decide_eq_false he]
        simp
    have hpc1 : popcount (winningPositions g.last &&& possible g.both) = 1 := by
      rw [hE]
      have h0 : (0 : Nat).testBit (7 * c + 5) = false := Nat.zero_testBit _
      have := popcount_or_fresh (by omega : 7 * c + 5 < 64) h0
      rw [Nat.zero_or] at this
      rw [this]
      decide
    have hup : ¬ ((((winningPositions g.last &&& possible g.both) <<< 1) &&&
        winningPositions g.last != 0) = true) := by
      intro hcontra
      have := (up_iff hE).1 hcontra
      rw [hroof] at this
      exact Bool.noConfusion this
    rw [nlm_mask_B2 (by omega) hpc1 hup, hE]
    exact ne_zero_of_testBit (i := 7 * c + 5)
      (by rw [Nat.testBit_two_pow, decide_eq_true rfl])
  · have hE0 : winningPositions g.last &&& possible g.both = 0 := by
      rw [hposs]
      apply Nat.eq_of_testBit_eq
      intro i
      rw [Nat.testBit_and, Nat.testBit_two_pow, Nat.zero_testBit]
      by_cases he : 7 * c + 5 = i
      · rw [decide_eq_true he]
        rw [Bool.not_eq_true] at hT
        rw [← he, hT]
        rfl
      · rw [decide_eq_false he]
        simp
    have hpc0 : popcount (winningPositions g.last &&& possible g.both) = 0 := by
      rw [hE0]
      decide
    rw [nlm_mask_C (by omega) (by omega)]
    apply ne_zero_of_testBit (i := 7 * c + 5)
    rw [testBit_eraseBits, hposs, Nat.testBit_two_pow, decide_eq_true rfl,
      Nat.testBit_shiftRight,
      show 1 + (7 * c + 5) = 7 * c + 5 + 1 by omega, hroof]
    rfl

theorem tScore_forty {g : Game} (hL : Live g) (hcw : g.canWinInNextMove = false)
    (hmask : nonLoosingMovesMask g ≠ 0) (hs40 : 40 ≤ g.stones)
    (hs42 : g.stones < 42) : tScore g = 0 := by
  obtain ⟨hV, hlast, hme⟩ := hL
  have hup : tScore g ≤ 0 := by
    have := tScore_le_of_children hV hlast hs42 (b := 0) ?_
    · omega
    · intro c hc hcleg
      have hVq := playPos_valid hV hc hcleg
      have hsq := playPos_stones hV hc hcleg
      have hnvq := playPos_not_victory hV hme hcw hc hcleg
      by_cases hq42 : (g.playPos c).stones = 42
      · rw [tScore_draw hVq hnvq hq42]
      · obtain ⟨c2, hc2, hleg2, heq2⟩ := tScore_eq_some_child hVq hnvq (by omega)
        have hVqq := playPos_valid hVq hc2 hleg2
        have hsqq := playPos_stones hVq hc2 hleg2
        have := tScore_le_zero_42 hVqq (by omega)
        rw [heq2]
        omega
  have hlow : 0 ≤ tScore g := by
    obtain ⟨c, hc, hcleg, hqcw⟩ := mask_ne_exists hV hmask
    obtain ⟨hVq, hqlast, hqme⟩ := playPos_live ⟨hV, hlast, hme⟩ hcw hc hcleg
    have hsq := playPos_stones hV hc hcleg
    have hqle : tScore (g.playPos c) ≤ 0 := by
      by_cases hq42 : (g.playPos c).stones = 42
      · rw [tScore_draw hVq hqlast hq42]
      · have := tScore_le_of_children hVq hqlast (by omega) (b := 0) ?_
        · omega
        · intro c2 hc2 hleg2
          have hVqq := playPos_valid hVq hc2 hleg2
          have hsqq := playPos_stones hVq hc2 hleg2
          have hnvqq := playPos_not_victory hVq hqme hqcw hc2 hleg2
          rw [tScore_draw hVqq hnvqq (by omega)]
    have := neg_tScore_child_le hV hlast hc hcleg
    omega
  omega

theorem tScore_mask_zero {g : Game} (hL : Live g)
    (hcw : g.canWinInNextMove = false) (hmask : nonLoosingMovesMask g = 0) :
    tScore g = scoreFromNumStones ((g.stones : Int) + 2) := by
  obtain ⟨hV, hlast, hme⟩ := hL
  have hs42 := stones_le_42 hV
  by_cases hseq : g.stones = 42
  · rw [tScore_draw hV hlast hseq, hseq]
    rw [show ((42 : Nat) : Int) + 2 = (44 : Int) from rfl, sFNS_forty_four]
  · have hs41 : g.stones ≠ 41 := by
      intro h41
      exact mask41_ne hV h41 hmask
    have hallcw : ∀ c, c < 7 → g.isLegalMove c = true →
        (g.playPos c).canWinInNextMove = true := by
      intro c hc hcleg
      by_contra hn
      rw [Bool.not_eq_true] at hn
      have hcont := (nlm_contains_iff hV hc).2 ⟨hcleg, hn⟩
      rw [hmask] at hcont
      unfold nlmContains at hcont
      simp at hcont
    obtain ⟨c0, hc0, hleg0, heq0⟩ := tScore_eq_some_child hV hlast (by omega)
    have hVq := playPos_valid hV hc0 hleg0
    have hsq := playPos_stones hV hc0 hleg0
    have hnvq := playPos_not_victory hV hme hcw hc0 hleg0
    have hqme : isWin (g.playPos c0).me = false := by
      rw [playPos_me hV hc0 hleg0]
      exact hlast
    have hqcw := hallcw c0 hc0 hleg0
    have hqscore := tScore_canWin hVq hqme hnvq hqcw
    rw [hsq] at hqscore
    push_cast at hqscore
    rw [show (g.stones : Int) + 1 + 1 = (g.stones : Int) + 2 by ring] at hqscore
    rw [heq0, hqscore]
    ring

/-! ### Uniqueness of the board key -/

theorem last_le_both {g : Game} (hV : Valid g) : g.last ≤ g.both := by
  have hx : g.last &&& g.both ≤ g.both := Nat.and_le_right
  rw [hV.2] at hx
  exact hx

theorem encode_eq {g : Game} (hV : Valid g) : g.encode = g.last + g.both := by
  have h1 := last_le_both hV
  have h2 := hV.1.1
  unfold Game.encode keyOf
  exact Nat.mod_eq_of_lt (by omega)

theorem encode_lt {g : Game} (hV : Valid g) : g.encode < 2 ^ 50 := by
  have h1 := last_le_both hV
  have h2 := hV.1.1
  rw [encode_eq hV]
  omega

theorem colBits_last_le {g : Game} (hV : Valid g) (c : Nat) :
    colBits g.last c ≤ colBits g.both c := by
  have h1 : colBits (g.last &&& g.both) c = colBits g.last c := by rw [hV.2]
  rw [colBits_and] at h1
  rw [← h1]
  exact Nat.and_le_right

theorem encode_colBits {g : Game} (hV : Valid g) (c : Nat) :
    colBits g.encode c = colBits g.last c + colBits g.both c := by
  rw [encode_eq hV]
  apply colBits_add
  intro c2
  have hb := colBits_valid_bound hV.1 c2
  have hl := colBits_last_le hV c2
  omega

theorem encode_inj {g1 g2 : Game} (h1 : Valid g1) (h2 : Valid g2)
    (he : g1.encode = g2.encode) : g1 = g2 := by
  have hcol : ∀ c, c < 7 →
      colBits g1.last c = colBits g2.last c ∧
        colBits g1.both c = colBits g2.both c := by
    intro c hc
    have e1 := encode_colBits h1 c
    have e2 := encode_colBits h2 c
    rw [he, e2] at e1
    obtain ⟨k1, hk1le, hk1⟩ := h1.1.2 c hc
    obtain ⟨k2, hk2le, hk2⟩ := h2.1.2 c hc
    have hll1 := colBits_last_le h1 c
    have hll2 := colBits_last_le h2 c
    rw [hk1] at e1 hll1
    rw [hk2] at e1 hll2
    have hkk : k1 = k2 := by
      interval_cases k1 <;> interval_cases k2 <;> omega
    subst hkk
    rw [hk1, hk2]
    omega
  have hlast_lt1 : g1.last < 2 ^ 49 := lt_of_le_of_lt (last_le_both h1) h1.1.1
  have hlast_lt2 : g2.last < 2 ^ 49 := lt_of_le_of_lt (last_le_both h2) h2.1.1
  have hlast : g1.last = g2.last :=
    eq_of_colBits hlast_lt1 hlast_lt2 fun c hc => (hcol c hc).1
  have hboth : g1.both = g2.both :=
    eq_of_colBits h1.1.1 h2.1.1 fun c hc => (hcol c hc).2
  obtain ⟨l1, b1⟩ := g1
  obtain ⟨l2, b2⟩ := g2
  rw [Game.mk.injEq]
  exact ⟨hlast, hboth⟩

/-! ### Soundness of the transposition table -/

theorem entryScore_range (e : Nat) : -128 ≤ entryScore e ∧ entryScore e < 128 := by
  simp only [entryScore]
  have hb : e / 2 ^ 56 % 256 < 256 := Nat.mod_lt _ (by norm_num)
  split <;> omega

theorem get_range {t : Table} {k : Nat} {v : Int} (h : t.get k = some v) :
    -128 ≤ v ∧ v < 128 := by
  have h2 : (if entryBoard (t.data (t.index k)) = k then
      some (entryScore (t.data (t.index k))) else none) = some v := h
  by_cases hc : entryBoard (t.data (t.index k)) = k
  · rw [if_pos hc] at h2
    have hv : entryScore (t.data (t.index k)) = v := Option.some.injEq _ _ ▸ h2
    rw [← hv]
    exact entryScore_range _
  · rw [if_neg hc] at h2
    exact Option.noConfusion h2

theorem entryBoard_empty : entryBoard ENTRY_EMPTY = 2 ^ 56 - 1 := by decide

theorem tableInv_new (N : Nat) : TableInv (Table.new N) := by
  intro k v hget g hLg hgcw hk
  exfalso
  have hget2 : (if entryBoard ENTRY_EMPTY = k then
      some (entryScore ENTRY_EMPTY) else none) = some v := hget
  by_cases hc : entryBoard ENTRY_EMPTY = k
  · rw [entryBoard_empty] at hc
    have := encode_lt hLg.1
    omega
  · rw [if_neg hc] at hget2
    exact Option.noConfusion hget2

theorem get_put (t : Table) (k k2 : Nat) (v : Int) :
    (t.put k v).get k2 =
      if k2 % t.capacity = k % t.capacity then
        (if entryBoard (entryNew k v) = k2 then
          some (entryScore (entryNew k v)) else none)
      else t.get k2 := by
  show (if entryBoard (if k2 % t.capacity = k % t.capacity then entryNew k v
      else t.data (k2 % t.capacity)) = k2 then
    some (entryScore (if k2 % t.capacity = k % t.capacity then entryNew k v
      else t.data (k2 % t.capacity))) else none) = _
  by_cases hslot : k2 % t.capacity = k % t.capacity
  · rw [if_pos hslot, if_pos hslot]
  · rw [if_neg hslot, if_neg hslot]
    rfl

theorem tableInv_put {t : Table} (hT : TableInv t) {g : Game} (hLg : Live g)
    (hgcw : g.canWinInNextMove = false) {v : Int} (hv : tScore g ≤ v)
    (hr1 : -128 ≤ v) (hr2 : v < 128) : TableInv (t.put g.encode v) := by
  intro k2 w hget g2 hL2 hcw2 hk2
  rw [get_put] at hget
  by_cases hslot : k2 % t.capacity = g.encode % t.capacity
  · rw [if_pos hslot] at hget
    by_cases hb : entryBoard (entryNew g.encode v) = k2
    · rw [if_pos hb] at hget
      have hwv : entryScore (entryNew g.encode v) = w := by
        cases hget
        rfl
      rw [entryScore_new _ _ hr1 hr2] at hwv
      have hek : g.encode = k2 := by
        rw [← hb, entryBoard_new _ _ (by have := encode_lt hLg.1; omega)]
      have hg2g : g2 = g := encode_inj hL2.1 hLg.1 (by rw [hk2, ← hek])
      rw [hg2g, ← hwv]
      exact hv
    · rw [if_neg hb] at hget
      exact Option.noConfusion hget
  · rw [if_neg hslot] at hget
    exact hT k2 w hget g2 hL2 hcw2 hk2

/-! ### The explored children of a node -/

theorem mem_nextPositions {g : Game} {q : Game} :
    q ∈ nextPositions g ↔
      ∃ c, c < 7 ∧ nlmContains (nonLoosingMovesMask g) c = true ∧
        q = g.playPos c := by
  unfold nextPositions sortExplorer
  rw [List.mem_map]
  constructor
  · rintro ⟨e, he, hpos⟩
    have he2 : e ∈ explorerEntries g :=
      (List.perm_insertionSort expRel _).mem_iff.1 he
    unfold explorerEntries at he2
    rw [List.mem_map] at he2
    obtain ⟨c, hc, hce⟩ := he2
    rw [List.mem_filter, List.mem_range] at hc
    refine ⟨c, hc.1, hc.2, ?_⟩
    rw [← hpos, ← hce]
    rfl
  · rintro ⟨c, hc, hcont, hq⟩
    refine ⟨expEntryOf g c, ?_, by rw [hq]; rfl⟩
    apply (List.perm_insertionSort expRel _).mem_iff.2
    unfold explorerEntries
    rw [List.mem_map]
    exact ⟨c, List.mem_filter.2 ⟨List.mem_range.2 hc, hcont⟩, rfl⟩

theorem nextPositions_facts {g : Game} (hL : Live g)
    (hcw : g.canWinInNextMove = false) {q : Game} (hq : q ∈ nextPositions g) :
    Live q ∧ q.canWinInNextMove = false ∧ q.stones = g.stones + 1 ∧
      -(tScore q) ≤ tScore g := by
  obtain ⟨c, hc, hcont, hqe⟩ := mem_nextPositions.1 hq
  obtain ⟨hleg, hqcw⟩ := (nlm_contains_iff hL.1 hc).1 hcont
  subst hqe
  exact ⟨playPos_live hL hcw hc hleg, hqcw,
    playPos_stones hL.1 hc hleg, neg_tScore_child_le hL.1 hL.2.1 hc hleg⟩

/-! ### The child loop of alpha-beta -/

theorem abChildren_spec (fuel : Nat)
    (IH : ∀ (q : Game) (a b : Int) (t : Table), Live q →
      q.canWinInNextMove = false → a < b → TableInv t → 41 - q.stones ≤ fuel →
      TableInv (alphaBeta fuel q a b t).2 ∧
        (a < (alphaBeta fuel q a b t).1 → (alphaBeta fuel q a b t).1 ≤ tScore q) ∧
        ((alphaBeta fuel q a b t).1 < b → tScore q ≤ (alphaBeta fuel q a b t).1))
    (g : Game) (beta1 : Int) (hfuel : 40 - g.stones ≤ fuel) :
    ∀ (L : List Game) (alpha : Int) (t : Table),
      (∀ q ∈ L, Live q ∧ q.canWinInNextMove = false ∧
        q.stones = g.stones + 1 ∧ -(tScore q) ≤ tScore g) →
      alpha < beta1 → TableInv t →
      TableInv (abChildren (alphaBeta fuel) beta1 L alpha t).2.2 ∧
        (∀ s, (abChildren (alphaBeta fuel) beta1 L alpha t).1 = some s →
          beta1 ≤ s ∧ s ≤ tScore g) ∧
        ((abChildren (alphaBeta fuel) beta1 L alpha t).1 = none →
          alpha ≤ (abChildren (alphaBeta fuel) beta1 L alpha t).2.1 ∧
            (abChildren (alphaBeta fuel) beta1 L alpha t).2.1 < beta1 ∧
            (alpha < (abChildren (alphaBeta fuel) beta1 L alpha t).2.1 →
              (abChildren (alphaBeta fuel) beta1 L alpha t).2.1 ≤ tScore g) ∧
            (∀ q ∈ L, -(tScore q) ≤
              (abChildren (alphaBeta fuel) beta1 L alpha t).2.1)) := by
  intro L
  induction L with
  | nil =>
    intro alpha t hqs hab hT
    refine ⟨hT, ?_, ?_⟩
    · intro s hs
      exact Option.noConfusion hs
    · intro _hnone
      refine ⟨le_refl _, hab, ?_, ?_⟩
      · intro h
        exact absurd h (lt_irrefl alpha)
      · intro q hq
        exact absurd hq (List.not_mem_nil q)
  | cons q rest ihL =>
    intro alpha t hqs hab hT
    obtain ⟨hLq, hqcw, hqst, hqle⟩ := hqs q (List.mem_cons_self q rest)
    have hchild := IH q (-beta1) (-alpha) t hLq hqcw (by omega) hT (by omega)
    obtain ⟨hT0, hlow0, hup0⟩ := hchild
    have hstep : abChildren (alphaBeta fuel) beta1 (q :: rest) alpha t =
        (if beta1 ≤ -(alphaBeta fuel q (-beta1) (-alpha) t).1 then
          (some (-(alphaBeta fuel q (-beta1) (-alpha) t).1), alpha,
            (alphaBeta fuel q (-beta1) (-alpha) t).2)
        else abChildren (alphaBeta fuel) beta1 rest
          (max alpha (-(alphaBeta fuel q (-beta1) (-alpha) t).1))
          (alphaBeta fuel q (-beta1) (-alpha) t).2) := rfl
    rw [hstep]
    by_cases hcut : beta1 ≤ -(alphaBeta fuel q (-beta1) (-alpha) t).1
    · rw [if_pos hcut]
      refine ⟨hT0, ?_, ?_⟩
      · intro s hs
        have hse : -(alphaBeta fuel q (-beta1) (-alpha) t).1 = s := by
          cases hs
          rfl
        have hr : (alphaBeta fuel q (-beta1) (-alpha) t).1 < -alpha := by omega
        have := hup0 hr
        omega
      · intro hnone
        exact Option.noConfusion hnone
    · rw [if_neg hcut]
      have hmaxlt : max alpha (-(alphaBeta fuel q (-beta1) (-alpha) t).1) < beta1 := by
        rcases max_cases alpha (-(alphaBeta fuel q (-beta1) (-alpha) t).1) with
          ⟨he, _⟩ | ⟨he, _⟩ <;> omega
      have hrest := ihL (max alpha (-(alphaBeta fuel q (-beta1) (-alpha) t).1))
        (alphaBeta fuel q (-beta1) (-alpha) t).2
        (fun q2 hq2 => hqs q2 (List.mem_cons_of_mem q hq2)) hmaxlt hT0
      obtain ⟨hT1, hsome1, hnone1⟩ := hrest
      refine ⟨hT1, hsome1, ?_⟩
      intro hnone
      obtain ⟨hge1, hlt1, hsc1, hall1⟩ := hnone1 hnone
      have hchildlow : (alphaBeta fuel q (-beta1) (-alpha) t).1 ≤ tScore q :=
        hlow0 (by omega)
      refine ⟨?_, hlt1, ?_, ?_⟩
      · have := le_max_left alpha (-(alphaBeta fuel q (-beta1) (-alpha) t).1)
        omega
      · intro hastrict
        by_cases hmax : max alpha (-(alphaBeta fuel q (-beta1) (-alpha) t).1) <
            (abChildren (alphaBeta fuel) beta1 rest
              (max alpha (-(alphaBeta fuel q (-beta1) (-alpha) t).1))
              (alphaBeta fuel q (-beta1) (-alpha) t).2).2.1
        · exact hsc1 hmax
        · have heq1 : (abChildren (alphaBeta fuel) beta1 rest
              (max alpha (-(alphaBeta fuel q (-beta1) (-alpha) t).1))
              (alphaBeta fuel q (-beta1) (-alpha) t).2).2.1 =
              max alpha (-(alphaBeta fuel q (-beta1) (-alpha) t).1) := by omega
          rcases max_cases alpha (-(alphaBeta fuel q (-beta1) (-alpha) t).1) with
            ⟨he, hge⟩ | ⟨he, hge⟩
          · rw [he] at heq1
            omega
          · rw [he] at heq1
            have hr : (alphaBeta fuel q (-beta1) (-alpha) t).1 < -alpha := by omega
            have := hup0 hr
            omega
      · intro q2 hq2
        rcases List.mem_cons.1 hq2 with he | hm
        · rw [he]
          have := le_max_right alpha (-(alphaBeta fuel q (-beta1) (-alpha) t).1)
          omega
        · exact hall1 q2 hm

theorem sFNS_ge_neg22 {x : Int} (h : 0 ≤ x) : -22 ≤ scoreFromNumStones x := by
  rw [sFNS_eq]
  split <;> omega

theorem alphaBeta_spec (fuel : Nat) : ∀ (g : Game) (a b : Int) (t : Table),
    Live g → g.canWinInNextMove = false → a < b → TableInv t →
    41 - g.stones ≤ fuel →
    TableInv (alphaBeta fuel g a b t).2 ∧
      (a < (alphaBeta fuel g a b t).1 → (alphaBeta fuel g a b t).1 ≤ tScore g) ∧
      ((alphaBeta fuel g a b t).1 < b → tScore g ≤ (alphaBeta fuel g a b t).1) := by
  induction fuel with
  | zero =>
    intro g a b t hL hcw hab hT hf
    have hs42 := stones_le_42 hL.1
    have ht0 : tScore g = 0 := by
      by_cases h42 : g.stones = 42
      · exact tScore_draw hL.1 hL.2.1 h42
      · have h41 : g.stones = 41 := by omega
        exact tScore_forty hL hcw (mask41_ne hL.1 h41) (by omega) (by omega)
    refine ⟨hT, fun _h => ?_, fun _h => ?_⟩
    · rw [ht0]
      exact le_refl 0
    · rw [ht0]
      exact le_refl 0
  | succ F ih =>
    intro g a b t hL hcw hab hT hf
    obtain ⟨hV, hlast, hme⟩ := hL
    have hs42 := stones_le_42 hV
    have hdef : alphaBeta (F + 1) g a b t =
        (if nonLoosingMovesMask g = 0 then
          (scoreFromNumStones ((g.stones : Int) + 2), t)
        else if 42 - 2 ≤ g.stones then (0, t)
        else if b ≤ max a (scoreFromNumStones ((g.stones : Int) + 4)) then
          (max a (scoreFromNumStones ((g.stones : Int) + 4)), t)
        else if min b ((t.get g.encode).getD
              (-(scoreFromNumStones ((g.stones : Int) + 3)))) ≤
            max a (scoreFromNumStones ((g.stones : Int) + 4)) then
          (min b ((t.get g.encode).getD
            (-(scoreFromNumStones ((g.stones : Int) + 3)))), t)
        else
          match (abChildren (alphaBeta F)
              (min b ((t.get g.encode).getD
                (-(scoreFromNumStones ((g.stones : Int) + 3)))))
              (nextPositions g)
              (max a (scoreFromNumStones ((g.stones : Int) + 4))) t).1 with
          | some s =>
            (s, (abChildren (alphaBeta F)
              (min b ((t.get g.encode).getD
                (-(scoreFromNumStones ((g.stones : Int) + 3)))))
              (nextPositions g)
              (max a (scoreFromNumStones ((g.stones : Int) + 4))) t).2.2)
          | none =>
            ((abChildren (alphaBeta F)
              (min b ((t.get g.encode).getD
                (-(scoreFromNumStones ((g.stones : Int) + 3)))))
              (nextPositions g)
              (max a (scoreFromNumStones ((g.stones : Int) + 4))) t).2.1,
              ((abChildren (alphaBeta F)
                (min b ((t.get g.encode).getD
                  (-(scoreFromNumStones ((g.stones : Int) + 3)))))
                (nextPositions g)
                (max a (scoreFromNumStones ((g.stones : Int) + 4))) t).2.2.put
                g.encode
                ((abChildren (alphaBeta F)
                  (min b ((t.get g.encode).getD
                    (-(scoreFromNumStones ((g.stones : Int) + 3)))))
                  (nextPositions g)
                  (max a (scoreFromNumStones ((g.stones : Int) + 4))) t).2.1)))) := rfl
    rw [hdef]
    by_cases hmask : nonLoosingMovesMask g = 0
    · rw [if_pos hmask]
      have hts := tScore_mask_zero ⟨hV, hlast, hme⟩ hcw hmask
      refine ⟨hT, fun _h => ?_, fun _h => ?_⟩
      · exact le_of_eq hts.symm
      · exact le_of_eq hts
    · rw [if_neg hmask]
      by_cases hs40 : 42 - 2 ≤ g.stones
      · rw [if_pos hs40]
        have hslt : g.stones < 42 := by
          obtain ⟨c, hc, hleg, -⟩ := mask_ne_exists hV hmask
          exact stones_lt_42 hV hc hleg
        have hts := tScore_forty ⟨hV, hlast, hme⟩ hcw hmask (by omega) hslt
        refine ⟨hT, fun _h => ?_, fun _h => ?_⟩
        · exact le_of_eq hts.symm
        · exact le_of_eq hts
      · rw [if_neg hs40]
        have hs39 : g.stones ≤ 39 := by omega
        have hcast : (0 : Int) ≤ (g.stones : Int) := Int.natCast_nonneg _
        have hub1 : tScore g ≤ (t.get g.encode).getD
            (-(scoreFromNumStones ((g.stones : Int) + 3))) := by
          cases hget : t.get g.encode with
          | none =>
            exact tScore_notCanWin_upper ⟨hV, hlast, hme⟩ hcw (by omega)
          | some u =>
            exact hT g.encode u hget g ⟨hV, hlast, hme⟩ hcw rfl
        have hub2 : (t.get g.encode).getD
            (-(scoreFromNumStones ((g.stones : Int) + 3))) < 128 := by
          cases hget : t.get g.encode with
          | none =>
            have := sFNS_ge_neg22 (show (0 : Int) ≤ (g.stones : Int) + 3 by omega)
            show -(scoreFromNumStones ((g.stones : Int) + 3)) < 128
            omega
          | some u =>
            exact (get_range hget).2
        by_cases hba : b ≤ max a (scoreFromNumStones ((g.stones : Int) + 4))
        · rw [if_pos hba]
          refine ⟨hT, fun hav => ?_, fun hvb => ?_⟩
          · rcases max_cases a (scoreFromNumStones ((g.stones : Int) + 4)) with
              ⟨he, hx⟩ | ⟨he, hx⟩
            · omega
            · have hlow := tScore_mask_ne_lower ⟨hV, hlast, hme⟩ hcw hmask (by omega)
              omega
          · omega
        · rw [if_neg hba]
          by_cases hb1a : min b ((t.get g.encode).getD
                (-(scoreFromNumStones ((g.stones : Int) + 3)))) ≤
              max a (scoreFromNumStones ((g.stones : Int) + 4))
          · rw [if_pos hb1a]
            refine ⟨hT, fun hav => ?_, fun hvb => ?_⟩
            · rcases max_cases a (scoreFromNumStones ((g.stones : Int) + 4)) with
                ⟨he, hx⟩ | ⟨he, hx⟩
              · omega
              · have hlow := tScore_mask_ne_lower ⟨hV, hlast, hme⟩ hcw hmask (by omega)
                omega
            · rcases min_cases b ((t.get g.encode).getD
                  (-(scoreFromNumStones ((g.stones : Int) + 3)))) with
                ⟨he, hx⟩ | ⟨he, hx⟩
              · omega
              · omega
          · rw [if_neg hb1a]
            have hloop := abChildren_spec F ih g
              (min b ((t.get g.encode).getD
                (-(scoreFromNumStones ((g.stones : Int) + 3)))))
              (by omega)
              (nextPositions g)
              (max a (scoreFromNumStones ((g.stones : Int) + 4))) t
              (fun q hq => nextPositions_facts ⟨hV, hlast, hme⟩ hcw hq)
              (by omega) hT
            obtain ⟨hTstep, hsome, hnone⟩ := hloop
            cases hstep : (abChildren (alphaBeta F)
                (min b ((t.get g.encode).getD
                  (-(scoreFromNumStones ((g.stones : Int) + 3)))))
                (nextPositions g)
                (max a (scoreFromNumStones ((g.stones : Int) + 4))) t).1 with
            | some s1 =>
              obtain ⟨hbs, hstg⟩ := hsome s1 hstep
              refine ⟨hTstep, fun _hav => hstg, fun hvb => ?_⟩
              have hvb2 : s1 < b := hvb
              show tScore g ≤ s1
              rcases min_cases b ((t.get g.encode).getD
                  (-(scoreFromNumStones ((g.stones : Int) + 3)))) with
                ⟨he, hx⟩ | ⟨he, hx⟩
              · omega
              · omega
            | none =>
              obtain ⟨hge, hlt, hsc, hall⟩ := hnone hstep
              have hslt42 : g.stones < 42 := by omega
              have htle : tScore g ≤ (abChildren (alphaBeta F)
                  (min b ((t.get g.encode).getD
                    (-(scoreFromNumStones ((g.stones : Int) + 3)))))
                  (nextPositions g)
                  (max a (scoreFromNumStones ((g.stones : Int) + 4))) t).2.1 := by
                obtain ⟨c0, hc0, hleg0, heq0⟩ := tScore_eq_some_child hV hlast hslt42
                by_cases hcont : nlmContains (nonLoosingMovesMask g) c0 = true
                · have hmem : g.playPos c0 ∈ nextPositions g :=
                    mem_nextPositions.2 ⟨c0, hc0, hcont, rfl⟩
                  have := hall (g.playPos c0) hmem
                  omega
                · have hcw0 : (g.playPos c0).canWinInNextMove = true := by
                    by_contra hn
                    rw [Bool.not_eq_true] at hn
                    exact hcont ((nlm_contains_iff hV hc0).2 ⟨hleg0, hn⟩)
                  have hVq := playPos_valid hV hc0 hleg0
                  have hnvq := playPos_not_victory hV hme hcw hc0 hleg0
                  have hqme : isWin (g.playPos c0).me = false := by
                    rw [playPos_me hV hc0 hleg0]
                    exact hlast
                  have hq := tScore_canWin hVq hqme hnvq hcw0
                  rw [playPos_stones hV hc0 hleg0] at hq
                  push_cast at hq
                  rw [show (g.stones : Int) + 1 + 1 = (g.stones : Int) + 2 by ring]
                    at hq
                  have hm1 : scoreFromNumStones ((g.stones : Int) + 2) ≤
                      scoreFromNumStones ((g.stones : Int) + 4) :=
                    sFNS_mono (by omega)
                  have hm2 := le_max_right a (scoreFromNumStones ((g.stones : Int) + 4))
                  omega
              have hr1 : -128 ≤ (abChildren (alphaBeta F)
                  (min b ((t.get g.encode).getD
                    (-(scoreFromNumStones ((g.stones : Int) + 3)))))
                  (nextPositions g)
                  (max a (scoreFromNumStones ((g.stones : Int) + 4))) t).2.1 := by
                have h1 := sFNS_ge_neg22 (show (0 : Int) ≤ (g.stones : Int) + 4 by omega)
                have h2 := le_max_right a (scoreFromNumStones ((g.stones : Int) + 4))
                omega
              have hr2 : (abChildren (alphaBeta F)
                  (min b ((t.get g.encode).getD
                    (-(scoreFromNumStones ((g.stones : Int) + 3)))))
                  (nextPositions g)
                  (max a (scoreFromNumStones ((g.stones : Int) + 4))) t).2.1 < 128 := by
                have := min_le_right b ((t.get g.encode).getD
                  (-(scoreFromNumStones ((g.stones : Int) + 3))))
                omega
              refine ⟨tableInv_put hTstep ⟨hV, hlast, hme⟩ hcw htle hr1 hr2,
                fun hav => ?_, fun _hvb => htle⟩
              have hav2 : a < (abChildren (alphaBeta F)
                  (min b ((t.get g.encode).getD
                    (-(scoreFromNumStones ((g.stones : Int) + 3)))))
                  (nextPositions g)
                  (max a (scoreFromNumStones ((g.stones : Int) + 4))) t).2.1 := hav
              show (abChildren (alphaBeta F)
                  (min b ((t.get g.encode).getD
                    (-(scoreFromNumStones ((g.stones : Int) + 3)))))
                  (nextPositions g)
                  (max a (scoreFromNumStones ((g.stones : Int) + 4))) t).2.1 ≤ tScore g
              by_cases hstrict : max a (scoreFromNumStones ((g.stones : Int) + 4)) <
                  (abChildren (alphaBeta F)
                    (min b ((t.get g.encode).getD
                      (-(scoreFromNumStones ((g.stones : Int) + 3)))))
                    (nextPositions g)
                    (max a (scoreFromNumStones ((g.stones : Int) + 4))) t).2.1
              · exact hsc hstrict
              · rcases max_cases a (scoreFromNumStones ((g.stones : Int) + 4)) with
                  ⟨he, hx⟩ | ⟨he, hx⟩
                · omega
                · have hlow := tScore_mask_ne_lower ⟨hV, hlast, hme⟩ hcw hmask
                    (by omega)
                  omega

/-! ### The iterative-deepening loop -/

theorem tdiv_two_spec (a : Int) :
    (0 ≤ a → (a = 2 * a.tdiv 2 ∨ a = 2 * a.tdiv 2 + 1) ∧ 0 ≤ a.tdiv 2) ∧
      (a < 0 → (a = 2 * a.tdiv 2 ∨ a = 2 * a.tdiv 2 - 1) ∧ a.tdiv 2 ≤ 0) := by
  rcases le_or_lt 0 a with h | h
  · rw [tdiv_two_eq, if_pos h]
    omega
  · rw [tdiv_two_eq, if_neg (by omega)]
    omega

set_option maxHeartbeats 2000000 in
theorem deepenLoop_spec (fuel : Nat) : ∀ (g : Game) (mn mx : Int) (t : Table),
    Live g → g.canWinInNextMove = false → TableInv t →
    mn ≤ tScore g → tScore g ≤ mx → (mx - mn).toNat ≤ fuel →
    (deepenLoop fuel g mn mx t).1 = tScore g ∧
      TableInv (deepenLoop fuel g mn mx t).2 := by
  induction fuel with
  | zero =>
    intro g mn mx t hL hcw hT h1 h2 hw
    refine ⟨?_, hT⟩
    show mn = tScore g
    omega
  | succ F ih =>
    intro g mn mx t hL hcw hT h1 h2 hw
    by_cases hlt : mn < mx
    · have h0 : deepenLoop (F + 1) g mn mx t =
          (if mn < mx then
            (if (alphaBeta 64 g
                (if mn + Int.tdiv (mx - mn) 2 ≤ 0 ∧
                    Int.tdiv mn 2 < mn + Int.tdiv (mx - mn) 2 then Int.tdiv mn 2
                  else if 0 ≤ mn + Int.tdiv (mx - mn) 2 ∧
                      mn + Int.tdiv (mx - mn) 2 < Int.tdiv mx 2 then Int.tdiv mx 2
                  else mn + Int.tdiv (mx - mn) 2)
                ((if mn + Int.tdiv (mx - mn) 2 ≤ 0 ∧
                    Int.tdiv mn 2 < mn + Int.tdiv (mx - mn) 2 then Int.tdiv mn 2
                  else if 0 ≤ mn + Int.tdiv (mx - mn) 2 ∧
                      mn + Int.tdiv (mx - mn) 2 < Int.tdiv mx 2 then Int.tdiv mx 2
                  else mn + Int.tdiv (mx - mn) 2) + 1) t).1 ≤
                (if mn + Int.tdiv (mx - mn) 2 ≤ 0 ∧
                    Int.tdiv mn 2 < mn + Int.tdiv (mx - mn) 2 then Int.tdiv mn 2
                  else if 0 ≤ mn + Int.tdiv (mx - mn) 2 ∧
                      mn + Int.tdiv (mx - mn) 2 < Int.tdiv mx 2 then Int.tdiv mx 2
                  else mn + Int.tdiv (mx - mn) 2) then
              deepenLoop F g mn
                (alphaBeta 64 g
                  (if mn + Int.tdiv (mx - mn) 2 ≤ 0 ∧
                      Int.tdiv mn 2 < mn + Int.tdiv (mx - mn) 2 then Int.tdiv mn 2
                    else if 0 ≤ mn + Int.tdiv (mx - mn) 2 ∧
                        mn + Int.tdiv (mx - mn) 2 < Int.tdiv mx 2 then Int.tdiv mx 2
                    else mn + Int.tdiv (mx - mn) 2)
                  ((if mn + Int.tdiv (mx - mn) 2 ≤ 0 ∧
                      Int.tdiv mn 2 < mn + Int.tdiv (mx - mn) 2 then Int.tdiv mn 2
                    else if 0 ≤ mn + Int.tdiv (mx - mn) 2 ∧
                        mn + Int.tdiv (mx - mn) 2 < Int.tdiv mx 2 then Int.tdiv mx 2
                    else mn + Int.tdiv (mx - mn) 2) + 1) t).1
                (alphaBeta 64 g
                  (if mn + Int.tdiv (mx - mn) 2 ≤ 0 ∧
                      Int.tdiv mn 2 < mn + Int.tdiv (mx - mn) 2 then Int.tdiv mn 2
                    else if 0 ≤ mn + Int.tdiv (mx - mn) 2 ∧
                        mn + Int.tdiv (mx - mn) 2 < Int.tdiv mx 2 then Int.tdiv mx 2
                    else mn + Int.tdiv (mx - mn) 2)
                  ((if mn + Int.tdiv (mx - mn) 2 ≤ 0 ∧
                      Int.tdiv mn 2 < mn + Int.tdiv (mx - mn) 2 then Int.tdiv mn 2
                    else if 0 ≤ mn + Int.tdiv (mx - mn) 2 ∧
                        mn + Int.tdiv (mx - mn) 2 < Int.tdiv mx 2 then Int.tdiv mx 2
                    else mn + Int.tdiv (mx - mn) 2) + 1) t).2
            else
              deepenLoop F g
                (alphaBeta 64 g
                  (if mn + Int.tdiv (mx - mn) 2 ≤ 0 ∧
                      Int.tdiv mn 2 < mn + Int.tdiv (mx - mn) 2 then Int.tdiv mn 2
                    else if 0 ≤ mn + Int.tdiv (mx - mn) 2 ∧
                        mn + Int.tdiv (mx - mn) 2 < Int.tdiv mx 2 then Int.tdiv mx 2
                    else mn + Int.tdiv (mx - mn) 2)
                  ((if mn + Int.tdiv (mx - mn) 2 ≤ 0 ∧
                      Int.tdiv mn 2 < mn + Int.tdiv (mx - mn) 2 then Int.tdiv mn 2
                    else if 0 ≤ mn + Int.tdiv (mx - mn) 2 ∧
                        mn + Int.tdiv (mx - mn) 2 < Int.tdiv mx 2 then Int.tdiv mx 2
                    else mn + Int.tdiv (mx - mn) 2) + 1) t).1 mx
                (alphaBeta 64 g
                  (if mn + Int.tdiv (mx - mn) 2 ≤ 0 ∧
                      Int.tdiv mn 2 < mn + Int.tdiv (mx - mn) 2 then Int.tdiv mn 2
                    else if 0 ≤ mn + Int.tdiv (mx - mn) 2 ∧
                        mn + Int.tdiv (mx - mn) 2 < Int.tdiv mx 2 then Int.tdiv mx 2
                    else mn + Int.tdiv (mx - mn) 2)
                  ((if mn + Int.tdiv (mx - mn) 2 ≤ 0 ∧
                      Int.tdiv mn 2 < mn + Int.tdiv (mx - mn) 2 then Int.tdiv mn 2
                    else if 0 ≤ mn + Int.tdiv (mx - mn) 2 ∧
                        mn + Int.tdiv (mx - mn) 2 < Int.tdiv mx 2 then Int.tdiv mx 2
                    else mn + Int.tdiv (mx - mn) 2) + 1) t).2)
          else (mn, t)) := rfl
      rw [h0, if_pos hlt]
      clear h0
      generalize hA : (if mn + Int.tdiv (mx - mn) 2 ≤ 0 ∧
            Int.tdiv mn 2 < mn + Int.tdiv (mx - mn) 2 then Int.tdiv mn 2
          else if 0 ≤ mn + Int.tdiv (mx - mn) 2 ∧
              mn + Int.tdiv (mx - mn) 2 < Int.tdiv mx 2 then Int.tdiv mx 2
          else mn + Int.tdiv (mx - mn) 2) = A
      have hqmn := tdiv_two_spec mn
      have hqmx := tdiv_two_spec mx
      have hqd := tdiv_two_spec (mx - mn)
      have hbounds : mn ≤ A ∧ A < mx := by
        rw [← hA]
        by_cases hC1 : mn + Int.tdiv (mx - mn) 2 ≤ 0 ∧
            Int.tdiv mn 2 < mn + Int.tdiv (mx - mn) 2
        · rw [if_pos hC1]
          omega
        · rw [if_neg hC1]
          by_cases hC2 : 0 ≤ mn + Int.tdiv (mx - mn) 2 ∧
              mn + Int.tdiv (mx - mn) 2 < Int.tdiv mx 2
          · rw [if_pos hC2]
            omega
          · rw [if_neg hC2]
            omega
      obtain ⟨hTr, hlowr, hupr⟩ :=
        alphaBeta_spec 64 g A (A + 1) t hL hcw (by omega) hT
          (by
            have := stones_le_42 hL.1
            omega)
      generalize hR : alphaBeta 64 g A (A + 1) t = R at hTr hlowr hupr ⊢
      by_cases hres : R.1 ≤ A
      · rw [if_pos hres]
        have htup : tScore g ≤ R.1 := hupr (by omega)
        exact ih g mn R.1 R.2 hL hcw hTr h1 htup (by omega)
      · rw [if_neg hres]
        have htlo : R.1 ≤ tScore g := hlowr (by omega)
        exact ih g R.1 mx R.2 hL hcw hTr htlo h2 (by omega)
    · have h0 : deepenLoop (F + 1) g mn mx t = (mn, t) := by
        simp only [deepenLoop]
        rw [if_neg hlt]
      rw [h0]
      refine ⟨?_, hT⟩
      show mn = tScore g
      omega

/-! ### Full-solve correctness -/

theorem sWP_correct {g : Game} (hL : Live g) (t : Table) (hT : TableInv t) :
    (scoreWithoutPrecalculated g t).1 = tScore g ∧
      TableInv (scoreWithoutPrecalculated g t).2 := by
  obtain ⟨hV, hlast, hme⟩ := hL
  have hs42 := stones_le_42 hV
  have hvic : g.isVictory = false := hlast
  have hnv : ¬(g.isVictory = true) := by
    rw [hvic]
    exact Bool.false_ne_true
  unfold scoreWithoutPrecalculated
  rw [if_neg hnv]
  by_cases hcw : g.canWinInNextMove = true
  · rw [if_pos hcw]
    exact ⟨(tScore_canWin hV hme hvic hcw).symm, hT⟩
  · rw [if_neg hcw]
    rw [Bool.not_eq_true] at hcw
    have hcast : (g.stones : Int) ≤ 42 := by exact_mod_cast hs42
    have hcast0 : (0 : Int) ≤ (g.stones : Int) := Int.natCast_nonneg _
    have hmn : Int.tdiv (-(42 - (g.stones : Int))) 2 ≤ tScore g := by
      by_cases hs41 : 41 ≤ g.stones
      · have ht0 : tScore g = 0 := by
          by_cases h42 : g.stones = 42
          · exact tScore_draw hV hvic h42
          · exact tScore_forty ⟨hV, hlast, hme⟩ hcw (mask41_ne hV (by omega))
              (by omega) (by omega)
        rw [ht0]
        have hq := tdiv_two_spec (-(42 - (g.stones : Int)))
        have hc41 : (41 : Int) ≤ (g.stones : Int) := by exact_mod_cast hs41
        omega
      · have hlow := tScore_lower_notVic hV hvic
        rw [sFNS_eq] at hlow
        have hc40 : (g.stones : Int) ≤ 40 := by
          have : g.stones ≤ 40 := by omega
          exact_mod_cast this
        rw [if_pos (by omega : (0 : Int) ≤ 42 - ((g.stones : Int) + 2))] at hlow
        have hq := tdiv_two_spec (-(42 - (g.stones : Int)))
        omega
    have hmx : tScore g ≤ Int.tdiv (42 + 1 - (g.stones : Int)) 2 := by
      have hq := tdiv_two_spec (42 + 1 - (g.stones : Int))
      by_cases h42 : g.stones = 42
      · rw [tScore_draw hV hvic h42]
        have : (g.stones : Int) = 42 := by exact_mod_cast h42
        omega
      · have hup := (tScore_bounds (43 - g.stones) g hV (le_refl _)).2
        rw [sFNS_eq] at hup
        have hc41 : (g.stones : Int) ≤ 41 := by
          have : g.stones ≤ 41 := by omega
          exact_mod_cast this
        rw [if_pos (by omega : (0 : Int) ≤ 42 - ((g.stones : Int) + 1))] at hup
        omega
    have hwin : (Int.tdiv (42 + 1 - (g.stones : Int)) 2 -
        Int.tdiv (-(42 - (g.stones : Int))) 2).toNat ≤ 64 := by
      have hq1 := tdiv_two_spec (42 + 1 - (g.stones : Int))
      have hq2 := tdiv_two_spec (-(42 - (g.stones : Int)))
      omega
    exact deepenLoop_spec 64 g _ _ t ⟨hV, hlast, hme⟩ hcw hT hmn hmx hwin

theorem solverScore_correct {g : Game} (hL : Live g) (t : Table)
    (hT : TableInv t) :
    (solverScore g t).1 = tScore g ∧ TableInv (solverScore g t).2 := by
  unfold solverScore precalculatedScore
  by_cases hs : NUM_STONES_PRECALCULATED_UP_TO ≤ g.stones
  · rw [if_pos hs]
    exact sWP_correct hL t hT
  · rw [if_neg hs]
    have hfresh := sWP_correct hL (Table.new 16777213) (tableInv_new _)
    exact ⟨hfresh.1, hT⟩

theorem score_correct {g : Game} (hL : Live g) : score g = tScore g := by
  unfold score
  exact (solverScore_correct hL (Table.new 16777213) (tableInv_new _)).1

/-! ### Claims on the solver -/

theorem score_eq_sWP (g : Game) :
    score g = (scoreWithoutPrecalculated g (Table.new 16777213)).1 := by
  unfold score solverScore precalculatedScore
  by_cases hs : NUM_STONES_PRECALCULATED_UP_TO ≤ g.stones
  · rw [if_pos hs]
  · rw [if_neg hs]

/-- C3: at a victory position the solver returns the loser-perspective score
`-((42 - stones) / 2 + 1)` (Rust `i8` division, truncation toward zero); at a
non-victory position where the side to move can complete four at once it
returns `(42 - (stones + 1)) / 2 + 1`. -/
theorem claim_C3 (g : Game) :
    (g.isVictory = true →
      score g = -(Int.tdiv (42 - (g.stones : Int)) 2 + 1)) ∧
    (g.isVictory = false → g.canWinInNextMove = true →
      score g = Int.tdiv (42 - ((g.stones : Int) + 1)) 2 + 1) := by
  constructor
  · intro hvic
    rw [score_eq_sWP]
    unfold scoreWithoutPrecalculated
    rw [if_pos hvic]
    show scoreFromNumStones ((g.stones : Int)) = _
    unfold scoreFromNumStones
    rfl
  · intro hvic hcw
    rw [score_eq_sWP]
    unfold scoreWithoutPrecalculated
    rw [if_neg (by rw [hvic]; exact Bool.false_ne_true), if_pos hcw]
    show -(scoreFromNumStones ((g.stones : Int) + 1)) = _
    unfold scoreFromNumStones
    ring

/-- Witness for C3: the won test position `g10` and the can-win-at-once test
position `gCW`. -/
theorem claim_C3_witness :
    g10.isVictory = true ∧ gCW.isVictory = false ∧
      gCW.canWinInNextMove = true ∧
      score g10 = -(Int.tdiv (42 - (g10.stones : Int)) 2 + 1) ∧
      score gCW = Int.tdiv (42 - ((gCW.stones : Int) + 1)) 2 + 1 :=
  ⟨by decide, by decide, by decide, (claim_C3 g10).1 (by decide),
    (claim_C3 gCW).2 (by decide) (by decide)⟩

/-- C1 (amended): the negamax identity holds for every LIVE position with
fewer than 42 stones — valid, and neither player has completed four in a row
yet.  The liveness condition is necessary; see the counterexample. -/
theorem claim_C1 {g : Game} (hL : Live g) (hs : g.stones < 42) :
    score g = negaOfChildren g := by
  obtain ⟨hV, hlast, hme⟩ := hL
  obtain ⟨v, vs, hmap, heq⟩ := tScore_unfold hV hlast hs
  have hmap2 : g.legalMoves.map (fun c => score (g.playPos c)) =
      g.legalMoves.map (fun c => tScore (g.playPos c)) := by
    apply List.map_congr_left
    intro c hcmem
    obtain ⟨hc7, hcleg⟩ := mem_legalMoves.1 hcmem
    have hVq := playPos_valid hV hc7 hcleg
    by_cases hqvic : (g.playPos c).isVictory = true
    · rw [score_eq_sWP]
      unfold scoreWithoutPrecalculated
      rw [if_pos hqvic]
      show scoreFromNumStones (((g.playPos c).stones : Int)) = _
      exact (tScore_victory hVq hqvic).symm
    · rw [Bool.not_eq_true] at hqvic
      have hqme : isWin (g.playPos c).me = false := by
        rw [playPos_me hV hc7 hcleg]
        exact hlast
      exact score_correct ⟨hVq, hqvic, hqme⟩
  unfold negaOfChildren
  rw [score_correct ⟨hV, hlast, hme⟩, hmap2, hmap, heq]

/-- Witness for C1 at the empty board. -/
theorem claim_C1_witness :
    Live Game.new ∧ Game.new.stones < 42 ∧
      score Game.new = negaOfChildren Game.new :=
  ⟨by decide, by decide, claim_C1 (by decide) (by decide)⟩

/-- Counterexample to C1 as stated: `gX` is reachable (it is played out from
the empty board), not a victory (the LAST mover has no four) and not full,
yet the solver gives `-1` while the negamax right-hand side is `1`: the side
to move already holds a completed four, which the claim fails to exclude. -/
theorem claim_C1_counterexample :
    gX.isVictory = false ∧ gX.stones < 42 ∧ isWin gX.me = true ∧
      score gX = -1 ∧ negaOfChildren gX = 1 := by
  refine ⟨by decide, by decide, by decide, by decide, by decide⟩

/-- C2 (amended): with the preconditions the code actually relies on made
explicit — the position is LIVE and the table sound — `alpha_beta` satisfies
the fail-soft contract of the spec against the reference score `tScore`. -/
theorem claim_C2 {g : Game} (hL : Live g) (hvic : g.isVictory = false)
    (hcw : g.canWinInNextMove = false) {a b : Int} (hab : a < b) {t : Table}
    (hT : TableInv t) {fuel : Nat} (hfuel : 41 - g.stones ≤ fuel) :
    (tScore g ≤ a → tScore g ≤ (alphaBeta fuel g a b t).1 ∧
      (alphaBeta fuel g a b t).1 ≤ a) ∧
    (b ≤ tScore g → b ≤ (alphaBeta fuel g a b t).1) ∧
    (a < tScore g → tScore g < b → (alphaBeta fuel g a b t).1 = tScore g) := by
  obtain ⟨-, hlow, hup⟩ := alphaBeta_spec fuel g a b t hL hcw hab hT hfuel
  refine ⟨fun h1 => ⟨?_, ?_⟩, fun h2 => ?_, fun h3 h4 => ?_⟩
  · by_cases hvb : (alphaBeta fuel g a b t).1 < b
    · exact hup hvb
    · omega
  · by_contra hgt
    have := hlow (by omega)
    omega
  · by_contra hlt
    have := hup (by omega)
    omega
  · have h5 : a < (alphaBeta fuel g a b t).1 := by
      by_contra hle
      have := hup (by omega)
      omega
    have h6 := hlow h5
    have h7 : (alphaBeta fuel g a b t).1 < b := by omega
    have := hup h7
    omega

/-- Witness for C2 at the empty board with a null window. -/
theorem claim_C2_witness :
    Live Game.new ∧ Game.new.isVictory = false ∧
      Game.new.canWinInNextMove = false ∧ ((0 : Int) < 1) ∧
      (41 - Game.new.stones ≤ 64) ∧
      ((tScore Game.new ≤ 0 →
          tScore Game.new ≤ (alphaBeta 64 Game.new 0 1 (Table.new 7)).1 ∧
            (alphaBeta 64 Game.new 0 1 (Table.new 7)).1 ≤ 0) ∧
        (1 ≤ tScore Game.new →
          (1 : Int) ≤ (alphaBeta 64 Game.new 0 1 (Table.new 7)).1) ∧
        (0 < tScore Game.new → tScore Game.new < 1 →
          (alphaBeta 64 Game.new 0 1 (Table.new 7)).1 = tScore Game.new)) :=
  ⟨by decide, by decide, by decide, by decide, by decide,
    claim_C2 (by decide) (by decide) (by decide) (by decide) (tableInv_new 7)
      (by decide)⟩

/-- Counterexample to C2 as stated: `gX` meets every precondition the claim
lists (alpha < beta, no victory, cannot win next move), but its true score is
`1 ≥ beta = 1`, for which the claim demands a return value of at least `1`;
`alpha_beta` returns `-1`.  The unstated precondition is that the side to
move must not already hold a four-in-a-row. -/
theorem claim_C2_counterexample :
    gX.isVictory = false ∧ gX.canWinInNextMove = false ∧ ((0 : Int) < 1) ∧
      tScore gX = 1 ∧ (alphaBeta 64 gX 0 1 (Table.new 7)).1 = -1 ∧
      isWin gX.me = true := by
  refine ⟨by decide, by decide, by decide, by decide, by decide, by decide⟩

/-! ### The move-ordering sort -/

instance : IsTotal ExpEntry expRel := ⟨by
  intro x y
  unfold expRel
  rcases lt_trichotomy x.hscore y.hscore with h | h | h
  · right
    left
    exact h
  · rcases le_total (COLUMN_PRIORITY.getD x.col 0) (COLUMN_PRIORITY.getD y.col 0)
      with hp | hp
    · left
      right
      exact ⟨h, hp⟩
    · right
      right
      exact ⟨h.symm, hp⟩
  · left
    left
    exact h⟩

instance : IsTrans ExpEntry expRel := ⟨by
  intro x y z hxy hyz
  unfold expRel at hxy hyz ⊢
  rcases hxy with h1 | ⟨h1, h1p⟩ <;> rcases hyz with h2 | ⟨h2, h2p⟩
  · left
    omega
  · left
    omega
  · left
    omega
  · right
    exact ⟨by omega, le_trans h1p h2p⟩⟩

/-- C8 (amended): `alpha_beta` explores the sorted explorer entries; the sort
is a permutation of the children ordered by descending heuristic with ties
broken by ascending `COLUMN_PRIORITY` value `[6, 4, 2, 0, 1, 3, 5]`, which on
an all-tie list yields the column order `[3, 4, 2, 5, 1, 6, 0]` (center
first), not `[3, 2, 4, 1, 5, 0, 6]`. -/
theorem claim_C8 (g : Game) (l : List ExpEntry) :
    nextPositions g = (sortExplorer (explorerEntries g)).map ExpEntry.pos ∧
      (sortExplorer l).Perm l ∧ List.Sorted expRel (sortExplorer l) ∧
      (sortExplorer tieEntries).map ExpEntry.col = [3, 4, 2, 5, 1, 6, 0] :=
  ⟨rfl, List.perm_insertionSort expRel l, List.sorted_insertionSort expRel l,
    by decide⟩

/-- Counterexample to C8 as stated: on seven tied entries the exploration
order is `[3, 4, 2, 5, 1, 6, 0]`, which differs from the claimed priority
order `[3, 2, 4, 1, 5, 0, 6]` from its second element on. -/
theorem claim_C8_counterexample :
    (∀ e ∈ tieEntries, e.hscore = 0) ∧
      (sortExplorer tieEntries).map ExpEntry.col ≠ [3, 2, 4, 1, 5, 0, 6] := by
  refine ⟨by decide, by decide⟩

/-! ### Best-move enumeration -/

theorem sWP_victory {q : Game} (t : Table) (hvic : q.isVictory = true) :
    scoreWithoutPrecalculated q t = (scoreFromNumStones (q.stones : Int), t) := by
  unfold scoreWithoutPrecalculated
  rw [if_pos hvic]

theorem solverScore_val {q : Game} (hq : Live q ∨ q.isVictory = true) (t : Table)
    (hT : TableInv t) :
    (solverScore q t).1 = score q ∧ TableInv (solverScore q t).2 := by
  rcases hq with hLq | hvic
  · obtain ⟨h1, h2⟩ := solverScore_correct hLq t hT
    rw [score_correct hLq]
    exact ⟨h1, h2⟩
  · constructor
    · rw [score_eq_sWP]
      unfold solverScore precalculatedScore
      by_cases hsp : NUM_STONES_PRECALCULATED_UP_TO ≤ q.stones
      · rw [if_pos hsp]
        rw [sWP_victory t hvic, sWP_victory (Table.new 16777213) hvic]
      · rw [if_neg hsp]
    · unfold solverScore precalculatedScore
      by_cases hsp : NUM_STONES_PRECALCULATED_UP_TO ≤ q.stones
      · rw [if_pos hsp, sWP_victory t hvic]
        exact hT
      · rw [if_neg hsp]
        exact hT

theorem child_live_or_vic {g : Game} (hV : Valid g)
    (hvic : isWin g.last = false) {c : Nat} (hc : c < 7)
    (hleg : g.isLegalMove c = true) :
    Live (g.playPos c) ∨ (g.playPos c).isVictory = true := by
  by_cases hqvic : (g.playPos c).isVictory = true
  · exact Or.inr hqvic
  · left
    rw [Bool.not_eq_true] at hqvic
    refine ⟨playPos_valid hV hc hleg, hqvic, ?_⟩
    rw [playPos_me hV hc hleg]
    exact hvic

theorem score_lt_127 {q : Game} (hq : Live q ∨ q.isVictory = true)
    (hV : Valid q) : score q < 127 := by
  have hs42 := stones_le_42 hV
  have hc42 : (q.stones : Int) ≤ 42 := by exact_mod_cast hs42
  rcases hq with hLq | hvic
  · rw [score_correct hLq]
    have hup := (tScore_bounds (43 - q.stones) q hV (le_refl _)).2
    have hlow := sFNS_ge_neg22 (show (0 : Int) ≤ (q.stones : Int) + 1 by
      have := Int.natCast_nonneg q.stones
      omega)
    omega
  · rw [score_eq_sWP, sWP_victory _ hvic]
    show scoreFromNumStones ((q.stones : Int)) < 127
    have h1 := sFNS_nonpos (show (q.stones : Int) ≤ 44 by omega)
    omega

theorem bestMoves_fold {g : Game} (hV : Valid g)
    (hvic : isWin g.last = false) :
    ∀ (rest : List Nat) (m : Int) (lst : List Nat) (t : Table),
      (∀ c ∈ rest, c < 7 ∧ g.isLegalMove c = true) → TableInv t →
      (List.foldl (fun acc c => bestMovesStep acc g c) (m, lst, t) rest).1 =
          listMin m (rest.map (fun c => score (g.playPos c))) ∧
        TableInv
          (List.foldl (fun acc c => bestMovesStep acc g c) (m, lst, t) rest).2.2 ∧
        (List.foldl (fun acc c => bestMovesStep acc g c) (m, lst, t) rest).2.1 =
          (if (List.foldl (fun acc c => bestMovesStep acc g c)
                (m, lst, t) rest).1 = m then lst else []) ++
            rest.filter (fun c => decide (score (g.playPos c) =
              (List.foldl (fun acc c => bestMovesStep acc g c)
                (m, lst, t) rest).1)) := by
  intro rest
  induction rest with
  | nil =>
    intro m lst t hmem hT
    refine ⟨rfl, hT, ?_⟩
    show lst = (if m = m then lst else []) ++ []
    rw [if_pos rfl, List.append_nil]
  | cons c cs ih =>
    intro m lst t hmem hT
    obtain ⟨hc7, hcleg⟩ := hmem c (List.mem_cons_self c cs)
    obtain ⟨hval, hTi⟩ := solverScore_val (child_live_or_vic hV hvic hc7 hcleg) t hT
    have hfold : List.foldl (fun acc c => bestMovesStep acc g c)
        (m, lst, t) (c :: cs) =
        List.foldl (fun acc c => bestMovesStep acc g c)
          (bestMovesStep (m, lst, t) g c) cs := rfl
    have hstep : bestMovesStep (m, lst, t) g c =
        (if (solverScore (g.playPos c) t).1 < m then
          ((solverScore (g.playPos c) t).1, [c], (solverScore (g.playPos c) t).2)
        else if (solverScore (g.playPos c) t).1 = m then
          (m, lst ++ [c], (solverScore (g.playPos c) t).2)
        else (m, lst, (solverScore (g.playPos c) t).2)) := rfl
    rw [hval] at hstep
    have hmap : (c :: cs).map (fun c => score (g.playPos c)) =
        score (g.playPos c) :: cs.map (fun c => score (g.playPos c)) := rfl
    have hlm : ∀ x : Int,
        listMin m (x :: cs.map (fun c => score (g.playPos c))) =
          listMin (min m x) (cs.map (fun c => score (g.playPos c))) :=
      fun x => rfl
    rw [hfold, hstep, hmap]
    by_cases hlt : score (g.playPos c) < m
    · rw [if_pos hlt]
      obtain ⟨ih1, ih2, ih3⟩ := ih (score (g.playPos c)) [c]
        (solverScore (g.playPos c) t).2
        (fun c2 hc2 => hmem c2 (List.mem_cons_of_mem c hc2)) hTi
      generalize hRR : List.foldl (fun acc c => bestMovesStep acc g c)
        (score (g.playPos c), [c], (solverScore (g.playPos c) t).2) cs = RR
        at ih1 ih2 ih3 ⊢
      refine ⟨?_, ih2, ?_⟩
      · rw [ih1, hlm, min_eq_right (le_of_lt hlt)]
      · have hRle : RR.1 ≤ score (g.playPos c) := by
          rw [ih1]
          exact listMin_le_init _ _
        have hne : ¬(RR.1 = m) := by omega
        rw [ih3, if_neg hne, List.filter_cons]
        by_cases hR : score (g.playPos c) = RR.1
        · rw [if_pos (show decide (score (g.playPos c) = RR.1) = true from
              decide_eq_true hR),
            if_pos (show RR.1 = score (g.playPos c) from hR.symm)]
          try rfl
        · rw [if_neg (show ¬(decide (score (g.playPos c) = RR.1) = true) from
              fun h => hR (of_decide_eq_true h)),
            if_neg (show ¬(RR.1 = score (g.playPos c)) from fun h => hR h.symm)]
          try rfl
    · rw [if_neg hlt]
      by_cases heq : score (g.playPos c) = m
      · rw [if_pos heq]
        obtain ⟨ih1, ih2, ih3⟩ := ih m (lst ++ [c]) (solverScore (g.playPos c) t).2
          (fun c2 hc2 => hmem c2 (List.mem_cons_of_mem c hc2)) hTi
        generalize hRR : List.foldl (fun acc c => bestMovesStep acc g c)
          (m, lst ++ [c], (solverScore (g.playPos c) t).2) cs = RR
          at ih1 ih2 ih3 ⊢
        refine ⟨?_, ih2, ?_⟩
        · rw [ih1, hlm, heq, min_self]
        · rw [ih3, List.filter_cons]
          by_cases hR : RR.1 = m
          · rw [if_pos (show decide (score (g.playPos c) = RR.1) = true from
                decide_eq_true (by omega)),
              if_pos hR, if_pos hR, List.append_assoc]
            try rfl
          · rw [if_neg (show ¬(decide (score (g.playPos c) = RR.1) = true) from
                fun h => hR (by
                  have := of_decide_eq_true h
                  omega)),
              if_neg hR, if_neg hR]
            try rfl
      · rw [if_neg heq]
        obtain ⟨ih1, ih2, ih3⟩ := ih m lst (solverScore (g.playPos c) t).2
          (fun c2 hc2 => hmem c2 (List.mem_cons_of_mem c hc2)) hTi
        generalize hRR : List.foldl (fun acc c => bestMovesStep acc g c)
          (m, lst, (solverScore (g.playPos c) t).2) cs = RR
          at ih1 ih2 ih3 ⊢
        refine ⟨?_, ih2, ?_⟩
        · rw [ih1, hlm, min_eq_left (by omega)]
        · have hRle : RR.1 ≤ m := by
            rw [ih1]
            exact listMin_le_init _ _
          rw [ih3, List.filter_cons]
          rw [if_neg (show ¬(decide (score (g.playPos c) = RR.1) = true) from
            fun h => by
              have := of_decide_eq_true h
              omega)]
          try rfl

theorem exists_argmin {α : Type} (f : α → Int) :
    ∀ (l : List α), l ≠ [] → ∃ c ∈ l, ∀ c2 ∈ l, f c ≤ f c2 := by
  intro l
  induction l with
  | nil =>
    intro h
    exact absurd rfl h
  | cons x xs ih =>
    intro _
    by_cases hxs : xs = []
    · subst hxs
      refine ⟨x, List.mem_cons_self x [], ?_⟩
      intro c2 hc2
      rcases List.mem_cons.1 hc2 with rfl | hm
      · exact le_refl _
      · exact absurd hm (List.not_mem_nil c2)
    · obtain ⟨c, hcmem, hcmin⟩ := ih hxs
      rcases le_total (f x) (f c) with hle | hle
      · refine ⟨x, List.mem_cons_self x xs, ?_⟩
        intro c2 hc2
        rcases List.mem_cons.1 hc2 with rfl | hm
        · exact le_refl _
        · exact le_trans hle (hcmin c2 hm)
      · refine ⟨c, List.mem_cons_of_mem x hcmem, ?_⟩
        intro c2 hc2
        rcases List.mem_cons.1 hc2 with rfl | hm
        · exact hle
        · exact hcmin c2 hm

/-- C4 (amended): for every valid position that is not over (`is_over` false,
the only exclusion the code forces) and any sound table, `best_moves`
produces exactly the legal columns whose child attains the minimum `score`,
in ascending column order; for over positions it produces nothing even when
legal argmin columns exist (see the counterexample). -/
theorem claim_C4 {g : Game} (hV : Valid g) (hov : g.isOver = false) {t : Table}
    (hT : TableInv t) :
    (bestMoves g t).1 = g.legalMoves.filter
      (fun c => decide (∀ c2 ∈ g.legalMoves,
        score (g.playPos c) ≤ score (g.playPos c2))) := by
  have hvic : isWin g.last = false := by
    unfold Game.isOver Game.isVictory at hov
    cases hw : isWin g.last
    · rfl
    · rw [hw, Bool.or_true] at hov
      exact Bool.noConfusion hov
  have hnov : ¬(g.isOver = true) := by
    rw [hov]
    exact Bool.false_ne_true
  have hbm : (bestMoves g t).1 =
      (List.foldl (fun acc c => bestMovesStep acc g c)
        ((127 : Int), ([] : List Nat), t) g.legalMoves).2.1 := by
    show (if g.isOver then (([] : List Nat), t) else
      ((List.foldl (fun acc c => bestMovesStep acc g c)
          ((127 : Int), ([] : List Nat), t) g.legalMoves).2.1,
        (List.foldl (fun acc c => bestMovesStep acc g c)
          ((127 : Int), ([] : List Nat), t) g.legalMoves).2.2)).1 = _
    rw [if_neg hnov]
  obtain ⟨h1, h2, h3⟩ := bestMoves_fold hV hvic g.legalMoves 127 [] t
    (fun c hc => mem_legalMoves.1 hc) hT
  rw [hbm, h3]
  generalize hRR : List.foldl (fun acc c => bestMovesStep acc g c)
    ((127 : Int), ([] : List Nat), t) g.legalMoves = RR at h1 ⊢
  have hif : (if RR.1 = (127 : Int) then ([] : List Nat) else []) = [] := by
    split <;> rfl
  rw [hif, List.nil_append]
  apply List.filter_congr
  intro c hcmem
  obtain ⟨hc7, hcleg⟩ := mem_legalMoves.1 hcmem
  have hclt : score (g.playPos c) < 127 :=
    score_lt_127 (child_live_or_vic hV hvic hc7 hcleg) (playPos_valid hV hc7 hcleg)
  rw [decide_eq_decide]
  have hRmem : ∀ c2 ∈ g.legalMoves,
      RR.1 ≤ score (g.playPos c2) := by
    intro c2 hc2
    rw [h1]
    exact listMin_le_mem (List.mem_map_of_mem _ hc2) 127
  constructor
  · intro he c2 hc2
    rw [he]
    exact hRmem c2 hc2
  · intro hmin
    have hle1 : RR.1 ≤ score (g.playPos c) := hRmem c hcmem
    have hle2 : score (g.playPos c) ≤ RR.1 := by
      rcases listMin_eq_init_or_mem 127
          (g.legalMoves.map (fun c => score (g.playPos c))) with he | hm
      · rw [h1, he] at hle1
        omega
      · rw [← h1] at hm
        obtain ⟨c2, hc2mem, hc2e⟩ := List.mem_map.1 hm
        rw [← hc2e]
        exact hmin c2 hc2mem
    omega

/-- Witness for the amended C4 at the empty board with a fresh table. -/
theorem claim_C4_witness :
    Valid Game.new ∧ Game.new.isOver = false ∧
      (bestMoves Game.new (Table.new 7)).1 = Game.new.legalMoves.filter
        (fun c => decide (∀ c2 ∈ Game.new.legalMoves,
          score (Game.new.playPos c) ≤ score (Game.new.playPos c2))) :=
  ⟨by decide, by decide, claim_C4 (by decide) (by decide) (tableInv_new 7)⟩

/-- Counterexample to C4 as stated: the won position `g10` has all seven
columns legal, so legal columns attaining the minimum child score exist,
yet `best_moves` appends nothing because of its `is_over` early return. -/
theorem claim_C4_counterexample :
    (bestMoves g10 (Table.new 7)).1 = [] ∧
      g10.legalMoves = [0, 1, 2, 3, 4, 5, 6] ∧
      ∃ c ∈ g10.legalMoves, ∀ c2 ∈ g10.legalMoves,
        score (g10.playPos c) ≤ score (g10.playPos c2) := by
  refine ⟨by decide, by decide, ?_⟩
  apply exists_argmin (fun c => score (g10.playPos c))
  decide

end CFS
